import Mathlib

/-!
# upb definition pool (`upb/reflection/def_pool.c`)

A shallow embedding of the definition pool: the symbol table, the file table,
the extension index, the typed finders, the file-loading transaction
(`_upb_DefPool_AddFile` with its rollback `remove_filedef`) and the
dependency-closure loader (`_upb_DefPool_LoadDefInitEx`).

Conventions.
* Addresses are natural numbers and `NULL` is `0`.
* A `const char*` argument is a list of characters; the C string functions read
  it up to its first NUL (`strlen`).
* Code of the repository that `def_pool.c` calls but that lives in other
  translation units (the hash tables, the tag packing of `def_type.h`, the
  status object, the extension registry) is modelled from the specification and
  marked as such; the accessors of definition objects and the per-kind builders
  are parameters (`Defs`, `World`).
-/

namespace Upb

/-! ## Addresses and C strings -/

/-- An address of an object of the program; `NULL` is `0`. -/
abbrev Ptr := Nat

/-- The null pointer. -/
def NULL : Ptr := 0

/-- The C library `strlen`: the number of characters before the first NUL of the buffer. -/
def strlen : List Char → Nat
  | [] => 0
  | c :: cs => if c.toNat = 0 then 0 else strlen cs + 1

/-- Scan of `strrchr`: `i` is the offset of the head of the remaining buffer and `last` the
offset of the last occurrence seen so far; the scan stops at the terminating NUL. -/
def strrchr_scan (c : Char) : List Char → Nat → Option Nat → Option Nat
  | [], _, last => last
  | x :: xs, i, last =>
    if x.toNat = 0 then last
    else strrchr_scan c xs (i + 1) (if x = c then some i else last)

/-- The C library `strrchr` for a non-NUL character `c`: the offset of the last occurrence of
`c` in the C string held by the buffer, `none` standing for the null result. -/
def strrchr (name : List Char) (c : Char) : Option Nat :=
  strrchr_scan c name 0 none

/-- A `upb_StringView`: a data pointer (the buffer it points into) and a size. -/
structure upb_StringView where
  data : List Char
  size : Nat
deriving DecidableEq, Repr

/-- The bytes a string view denotes: the first `size` characters of `data`. -/
def upb_StringView.chars (v : upb_StringView) : List Char :=
  v.data.take v.size

/-! ## Arenas, status -/

/-- Modelled from the spec: the arena allocator (`upb/mem/arena`, an external collaborator not
under src/), as one table insert sees it. The pool observes a single thing of the arena it hands
to an insert: whether the allocation the insert makes from it succeeds
("fails (returns false) only on allocation failure"). -/
structure upb_Arena where
  alloc_ok : Bool
deriving DecidableEq, Repr

/-- Modelled from the spec: the `upb_Status` error sink (`upb/base/status`, not under src/):
an ok flag and a human-readable message. -/
structure upb_Status where
  ok : Bool
  msg : List Char
deriving DecidableEq, Repr

/-- Modelled from the spec: `upb_Status_Clear` (not under src/) resets the sink to OK with an
empty message. -/
def upb_Status_Clear : upb_Status :=
  { ok := true, msg := [] }

/-- Modelled from the spec: `upb_Status_IsOk` (not under src/) reads the ok flag. -/
def upb_Status_IsOk (status : upb_Status) : Bool :=
  status.ok

/-- Modelled from the spec: `upb_Status_SetErrorFormat` (not under src/) "leaves an error status
populated with a human-readable message"; `msg` is the message after formatting. -/
def upb_Status_SetErrorFormat (_status : upb_Status) (msg : List Char) : upb_Status :=
  { ok := false, msg := msg }

/-! ## Hash tables -/

/-- Modelled from the spec: the hash tables `upb_strtable` and `upb_inttable` (`upb/hash`, not
under src/). The spec treats a table as a flat mapping with insertion without duplicate check,
lookup, and an iteration that "supports enumerating and conditionally deleting entries while
scanning". The model is an array of slots scanned in index order; a removed entry leaves its
slot empty. -/
structure upb_table (κ : Type) (α : Type) where
  entries : List (Option (κ × α))
deriving DecidableEq, Repr

/-- A table keyed by byte strings. -/
abbrev upb_strtable (α : Type) := upb_table (List Char) α

/-- A table keyed by integers (addresses). -/
abbrev upb_inttable (α : Type) := upb_table Nat α

/-- Modelled from the spec: the value bound to `key` by the first occupied slot that carries
`key` (lookup of the hash tables, not under src/). -/
def upb_table.find {κ α : Type} [DecidableEq κ] (key : κ) : List (Option (κ × α)) → Option α
  | [] => none
  | none :: rest => upb_table.find key rest
  | some (k, v) :: rest => if k = key then some v else upb_table.find key rest

/-- Modelled from the spec: the first occupied slot of a slot list whose head has index `i`
(the scan of the table iterator, not under src/). -/
def upb_table.scan {κ α : Type} : List (Option (κ × α)) → Nat → Option (κ × α × Nat)
  | [], _ => none
  | none :: rest, i => upb_table.scan rest (i + 1)
  | some (k, v) :: _, i => some (k, v, i)

/-- The iterator value before the first entry. -/
def UPB_INTTABLE_BEGIN : Int := -1

/-- Modelled from the spec: `upb_strtable_init` / `upb_inttable_init` (not under src/) yield an
empty table. -/
def upb_table_init {κ α : Type} : upb_table κ α :=
  { entries := [] }

/-- Modelled from the spec: `upb_strtable_lookup2` (not under src/): lookup of the `len`-byte
key starting at `key`; `none` is the C result `false`, `some v` is `true` with `*v` written. -/
def upb_strtable_lookup2 {α : Type} (t : upb_strtable α) (key : List Char) (len : Nat) :
    Option α :=
  upb_table.find (key.take len) t.entries

/-- Modelled from the spec: `upb_strtable_lookup` (not under src/): lookup of a NUL-terminated
key, i.e. `upb_strtable_lookup2` with `strlen(key)`. -/
def upb_strtable_lookup {α : Type} (t : upb_strtable α) (key : List Char) : Option α :=
  upb_strtable_lookup2 t key (strlen key)

/-- Modelled from the spec: `upb_strtable_insert` (not under src/): "adds a new binding; fails
(returns false) only on allocation failure"; no duplicate check is made. -/
def upb_strtable_insert {α : Type} (t : upb_strtable α) (key : List Char) (len : Nat) (v : α)
    (a : upb_Arena) : Bool × upb_strtable α :=
  if a.alloc_ok then (true, { entries := t.entries ++ [some (key.take len, v)] })
  else (false, t)

/-- Modelled from the spec: `upb_strtable_next2` / `upb_inttable_next2` (not under src/):
advances the iterator to the next occupied slot and yields its key and value, or `none` (C
`false`) at the end of the table. -/
def upb_table_next2 {κ α : Type} (t : upb_table κ α) (iter : Int) : Option (κ × α × Int) :=
  match upb_table.scan (t.entries.drop (iter + 1).toNat) (iter + 1).toNat with
  | none => none
  | some (k, v, i) => some (k, v, (i : Int))

/-- Modelled from the spec: `upb_strtable_removeiter` (not under src/): deletes the entry the
iterator stands on; the iterator stays valid for the rest of the scan. -/
def upb_table_removeiter {κ α : Type} (t : upb_table κ α) (iter : Int) : upb_table κ α :=
  { entries := t.entries.set iter.toNat none }

/-- Modelled from the spec: `upb_inttable_lookup` (not under src/). -/
def upb_inttable_lookup {α : Type} (t : upb_inttable α) (key : Nat) : Option α :=
  upb_table.find key t.entries

/-- Modelled from the spec: `upb_inttable_insert` (not under src/): adds a binding, failing only
when the allocation from `a` fails. -/
def upb_inttable_insert {α : Type} (t : upb_inttable α) (key : Nat) (v : α) (a : upb_Arena) :
    Bool × upb_inttable α :=
  if a.alloc_ok then (true, { entries := t.entries ++ [some (key, v)] })
  else (false, t)

/-! ## Tagged definition references -/

/-- Modelled from the spec: `upb_deftype_t` of `def_type.h` (not under src/), the discriminant
of a symbol-table entry: "one of {Message, Enum, EnumValue, Service, Extension-field}". -/
inductive upb_deftype_t where
  | UPB_DEFTYPE_EXT
  | UPB_DEFTYPE_MSG
  | UPB_DEFTYPE_ENUM
  | UPB_DEFTYPE_ENUMVAL
  | UPB_DEFTYPE_SERVICE
deriving DecidableEq, Repr

open upb_deftype_t

/-- Modelled from the spec: inside the symbol table `UPB_DEFTYPE_FIELD` is the discriminant of
"a Field tagged as Extension", the same enumerator value as `UPB_DEFTYPE_EXT` in `def_type.h`
(not under src/). -/
def UPB_DEFTYPE_FIELD : upb_deftype_t := UPB_DEFTYPE_EXT

/-- Modelled from the spec: the packed def ptr stored in the symbol table, "a reference plus a
discriminant" (`_upb_DefType_Pack` of `def_type.h`, not under src/). -/
structure upb_value where
  ptr : Ptr
  type : upb_deftype_t
deriving DecidableEq, Repr

/-- Modelled from the spec: `_upb_DefType_Type` (not under src/), the discriminant of a packed
reference. -/
def _upb_DefType_Type (v : upb_value) : upb_deftype_t :=
  v.type

/-- Modelled from the spec: `_upb_DefType_Unpack` (not under src/): the reference when the tag
is the wanted one, `NULL` otherwise ("returns the definition only if present and the tag
matches"). -/
def _upb_DefType_Unpack (v : upb_value) (type : upb_deftype_t) : Ptr :=
  if v.type = type then v.ptr else NULL

/-! ## Definition objects and the extension registry -/

/-- The accessors of definition objects that `def_pool.c` calls (declared in `field_def.h`,
`message_def.h`, `enum_def.h`, `enum_value_def.h`, `service_def.h`, `file_def.h`; their bodies
are not under src/). They are parameters of the development: every result below holds for every
choice of them. -/
structure Defs where
  upb_FieldDef_File : Ptr → Ptr
  upb_MessageDef_File : Ptr → Ptr
  upb_EnumDef_File : Ptr → Ptr
  upb_EnumValueDef_Enum : Ptr → Ptr
  upb_ServiceDef_File : Ptr → Ptr
  upb_FileDef_Name : Ptr → List Char
  _upb_MessageDef_InMessageSet : Ptr → Bool
  upb_MessageDef_NestedExtension : Ptr → Nat → Ptr
  upb_MessageDef_FindByNameWithSize : Ptr → List Char → Nat → Bool
  upb_MessageDef_MiniTable : Ptr → Ptr
  upb_FieldDef_ContainingType : Ptr → Ptr
  upb_FieldDef_Number : Ptr → Int

/-- Modelled from the spec: the Extension Registry (`upb/mini_table/extension_registry`, an
external collaborator not under src/), which "resolves (containing-message-layout,
field-number) → extension identity". An entry is (layout, field number, extension identity). -/
abbrev upb_ExtensionRegistry := List (Ptr × Int × Ptr)

/-- Modelled from the spec: `_upb_extreg_get` (not under src/): the extension identity
registered for `(l, num)`, or `NULL`. -/
def _upb_extreg_get : upb_ExtensionRegistry → Ptr → Int → Ptr
  | [], _, _ => NULL
  | (l0, n0, e) :: rest, l, num =>
    if l0 = l ∧ n0 = num then e else _upb_extreg_get rest l num

/-! ## The pool -/

/-- The definition pool, `struct upb_DefPool`. The permanent arena is not part of the model:
memory ownership is outside a shallow embedding; the allocation outcome an insert observes is an
explicit argument. `bytes_loaded` is a `size_t`. -/
structure upb_DefPool where
  syms : upb_strtable upb_value
  files : upb_strtable Ptr
  exts : upb_inttable Ptr
  extreg : upb_ExtensionRegistry
  bytes_loaded : Nat
deriving DecidableEq, Repr

/-- One more than the largest `size_t`. -/
def SIZE_MODULUS : Nat := 2 ^ 64

/-- The function `upb_DefPool_New`: `none` is the `NULL` result. The arguments are the outcomes
of the allocations it makes, in order: the pool object, the three tables, the extension
registry. -/
def upb_DefPool_New (gmalloc_ok syms_ok files_ok exts_ok extreg_ok : Bool) :
    Option upb_DefPool :=
  if !gmalloc_ok then none
  else if !syms_ok then none
  else if !files_ok then none
  else if !exts_ok then none
  else if !extreg_ok then none
  else some { syms := upb_table_init, files := upb_table_init, exts := upb_table_init,
              extreg := [], bytes_loaded := 0 }

/-- The function `_upb_DefPool_Contains`. -/
def _upb_DefPool_Contains (s : upb_DefPool) (sym : List Char) : Bool :=
  (upb_strtable_lookup s.syms sym).isSome

/-- The function `_upb_DefPool_Insert2`; `arena` is the state of `s->arena` at the call. -/
def _upb_DefPool_Insert2 (s : upb_DefPool) (sym : List Char) (size : Nat) (v : upb_value)
    (arena : upb_Arena) : Bool × upb_DefPool :=
  let r := upb_strtable_insert s.syms sym size v arena
  (r.1, { s with syms := r.2 })

/-- The function `_upb_DefPool_Insert`. -/
def _upb_DefPool_Insert (s : upb_DefPool) (sym : List Char) (v : upb_value)
    (arena : upb_Arena) : Bool × upb_DefPool :=
  _upb_DefPool_Insert2 s sym (strlen sym) v arena

/-- The function `_upb_DefPool_InsertExt`. -/
def _upb_DefPool_InsertExt (s : upb_DefPool) (ext : Ptr) (f : Ptr) (a : upb_Arena) :
    Bool × upb_DefPool :=
  let r := upb_inttable_insert s.exts ext f a
  (r.1, { s with exts := r.2 })

/-- The function `_upb_DefPool_Lookup2`. -/
def _upb_DefPool_Lookup2 (s : upb_DefPool) (sym : List Char) (size : Nat)
    (type : upb_deftype_t) : Ptr :=
  match upb_strtable_lookup2 s.syms sym size with
  | some v => _upb_DefType_Unpack v type
  | none => NULL

/-- The static function `_upb_DefPool_Lookup`. -/
def _upb_DefPool_Lookup (s : upb_DefPool) (sym : List Char) (type : upb_deftype_t) : Ptr :=
  _upb_DefPool_Lookup2 s sym (strlen sym) type

/-- The function `_upb_DefPool_LookupAny2`; `none` is the C result `false`. -/
def _upb_DefPool_LookupAny2 (s : upb_DefPool) (sym : List Char) (size : Nat) :
    Option upb_value :=
  upb_strtable_lookup2 s.syms sym size

/-- The function `upb_DefPool_FindMessageByName`. -/
def upb_DefPool_FindMessageByName (s : upb_DefPool) (sym : List Char) : Ptr :=
  _upb_DefPool_Lookup s sym UPB_DEFTYPE_MSG

/-- The function `upb_DefPool_FindMessageByNameWithSize`. -/
def upb_DefPool_FindMessageByNameWithSize (s : upb_DefPool) (sym : List Char) (len : Nat) :
    Ptr :=
  _upb_DefPool_Lookup2 s sym len UPB_DEFTYPE_MSG

/-- The function `upb_DefPool_FindEnumByName`. -/
def upb_DefPool_FindEnumByName (s : upb_DefPool) (sym : List Char) : Ptr :=
  _upb_DefPool_Lookup s sym UPB_DEFTYPE_ENUM

/-- The function `upb_DefPool_FindEnumByNameval`. -/
def upb_DefPool_FindEnumByNameval (s : upb_DefPool) (sym : List Char) : Ptr :=
  _upb_DefPool_Lookup s sym UPB_DEFTYPE_ENUMVAL

/-- The function `upb_DefPool_FindFileByName`. -/
def upb_DefPool_FindFileByName (s : upb_DefPool) (name : List Char) : Ptr :=
  match upb_strtable_lookup s.files name with
  | some v => v
  | none => NULL

/-- The function `upb_DefPool_FindFileByNameWithSize`. -/
def upb_DefPool_FindFileByNameWithSize (s : upb_DefPool) (name : List Char) (len : Nat) :
    Ptr :=
  match upb_strtable_lookup2 s.files name len with
  | some v => v
  | none => NULL

/-- The function `upb_DefPool_FindExtensionByNameWithSize`. -/
def upb_DefPool_FindExtensionByNameWithSize (D : Defs) (s : upb_DefPool) (name : List Char)
    (size : Nat) : Ptr :=
  match upb_strtable_lookup2 s.syms name size with
  | none => NULL
  | some v =>
    if _upb_DefType_Type v = UPB_DEFTYPE_FIELD then
      _upb_DefType_Unpack v UPB_DEFTYPE_FIELD
    else if _upb_DefType_Type v = UPB_DEFTYPE_MSG then
      let m := _upb_DefType_Unpack v UPB_DEFTYPE_MSG
      if D._upb_MessageDef_InMessageSet m then D.upb_MessageDef_NestedExtension m 0
      else NULL
    else NULL

/-- The function `upb_DefPool_FindExtensionByName`. -/
def upb_DefPool_FindExtensionByName (D : Defs) (s : upb_DefPool) (sym : List Char) : Ptr :=
  upb_DefPool_FindExtensionByNameWithSize D s sym (strlen sym)

/-- The function `upb_DefPool_FindServiceByName`. -/
def upb_DefPool_FindServiceByName (s : upb_DefPool) (name : List Char) : Ptr :=
  _upb_DefPool_Lookup s name UPB_DEFTYPE_SERVICE

/-- The function `upb_DefPool_FindServiceByNameWithSize`. -/
def upb_DefPool_FindServiceByNameWithSize (s : upb_DefPool) (name : List Char) (size : Nat) :
    Ptr :=
  _upb_DefPool_Lookup2 s name size UPB_DEFTYPE_SERVICE

/-- The switch on the kind of a symbol-table value that `upb_DefPool_FindFileContainingSymbol`
and `remove_filedef` both make: the owning file of the definition, through the file
back-reference of its kind. The `default: UPB_UNREACHABLE()` arm has no tag left to match. -/
def def_file (D : Defs) (v : upb_value) : Ptr :=
  match _upb_DefType_Type v with
  | UPB_DEFTYPE_EXT => D.upb_FieldDef_File (_upb_DefType_Unpack v UPB_DEFTYPE_EXT)
  | UPB_DEFTYPE_MSG => D.upb_MessageDef_File (_upb_DefType_Unpack v UPB_DEFTYPE_MSG)
  | UPB_DEFTYPE_ENUM => D.upb_EnumDef_File (_upb_DefType_Unpack v UPB_DEFTYPE_ENUM)
  | UPB_DEFTYPE_ENUMVAL =>
    D.upb_EnumDef_File (D.upb_EnumValueDef_Enum (_upb_DefType_Unpack v UPB_DEFTYPE_ENUMVAL))
  | UPB_DEFTYPE_SERVICE => D.upb_ServiceDef_File (_upb_DefType_Unpack v UPB_DEFTYPE_SERVICE)

/-- The function `upb_DefPool_FindFileContainingSymbol`. -/
def upb_DefPool_FindFileContainingSymbol (D : Defs) (s : upb_DefPool) (name : List Char) :
    Ptr :=
  match upb_strtable_lookup s.syms name with
  | some v => def_file D v
  | none =>
    match strrchr name '.' with
    | some last_dot =>
      let parent := upb_DefPool_FindMessageByNameWithSize s name last_dot
      if parent ≠ NULL then
        let shortname := name.drop (last_dot + 1)
        if D.upb_MessageDef_FindByNameWithSize parent shortname (strlen shortname) then
          D.upb_MessageDef_File parent
        else NULL
      else NULL
    | none => NULL

/-- The function `_upb_DefPool_FindExtensionByMiniTable`; `none` is a failed `UPB_ASSERT(ok)`. -/
def _upb_DefPool_FindExtensionByMiniTable (s : upb_DefPool) (ext : Ptr) : Option Ptr :=
  match upb_inttable_lookup s.exts ext with
  | some v => some v
  | none => none

/-- The function `upb_DefPool_FindExtensionByNumber`; `none` is a failed assertion of
`_upb_DefPool_FindExtensionByMiniTable`. -/
def upb_DefPool_FindExtensionByNumber (D : Defs) (s : upb_DefPool) (m : Ptr) (fieldnum : Int) :
    Option Ptr :=
  let l := D.upb_MessageDef_MiniTable m
  let ext := _upb_extreg_get s.extreg l fieldnum
  if ext ≠ NULL then _upb_DefPool_FindExtensionByMiniTable s ext else some NULL

/-- The function `_upb_DefPool_BytesLoaded`. -/
def _upb_DefPool_BytesLoaded (s : upb_DefPool) : Nat :=
  s.bytes_loaded

/-! ## The builders, as the pool sees them -/

/-- A decoded `google_protobuf_FileDescriptorProto`. The pool reads its `name`; the rest of the
descriptor (`body`) is consumed by the builders only. -/
structure google_protobuf_FileDescriptorProto where
  name : upb_StringView
  body : Nat
deriving DecidableEq, Repr

/-- A mutation of the pool made by the per-kind builders while they build one file.
`struct upb_DefPool` is private to `def_pool.c`, so the builders can change the pool through its
exported functions only: `_upb_DefPool_Insert2` (also through `_upb_DefPool_Insert`),
`_upb_DefPool_InsertExt`, and the registry handed out by `_upb_DefPool_ExtReg`. An action
records a call that returned `true`; a call that fails to allocate changes nothing and makes the
builder unwind. -/
inductive BuildAction where
  | Insert2 (sym : List Char) (size : Nat) (v : upb_value)
  | InsertExt (ext : Ptr) (f : Ptr)
  | ExtRegAdd (l : Ptr) (num : Int) (ext : Ptr)
deriving DecidableEq, Repr

/-- What one call of `_upb_FileDef_Create` (not under src/) does, as far as `def_pool.c` can
observe: the pool mutations it made, in order; the value of `ctx->file` when it returned or
unwound; and `err`, which is `none` when it returned normally and `some msg` when a builder put
the error `msg` into the status and jumped to `ctx.err`. -/
structure BuildRun where
  actions : List BuildAction
  file : Ptr
  err : Option (List Char)
deriving DecidableEq, Repr

/-- A compiled-in `_upb_DefPool_Init` record: the records of its dependencies (the
NULL-terminated array `deps`, as addresses), its layout, its file name and its serialized
descriptor. -/
structure _upb_DefPool_Init where
  deps : List Ptr
  layout : Ptr
  filename : List Char
  descriptor : upb_StringView
deriving DecidableEq, Repr

/-- The external collaborators of the two loading operations. Every result below holds for
every world.
* `ctx_arena`, `ctx_tmp_arena`: the results of the two `upb_Arena_New()` calls that initialise
  the build context (`none` is `NULL`);
* `_upb_FileDef_Create`: the builders, which may read the pool, the descriptor and the layout;
* `parse_ex`: the descriptor decoder (`none` is `NULL`);
* `init`: the memory holding the compiled-in `_upb_DefPool_Init` records. -/
structure World where
  ctx_arena : upb_DefPool → google_protobuf_FileDescriptorProto → Option upb_Arena
  ctx_tmp_arena : upb_DefPool → google_protobuf_FileDescriptorProto → Option upb_Arena
  _upb_FileDef_Create : upb_DefPool → google_protobuf_FileDescriptorProto → Ptr → BuildRun
  parse_ex : upb_StringView → Option google_protobuf_FileDescriptorProto
  init : Ptr → _upb_DefPool_Init

/-- The effect of one builder action on the pool. -/
def BuildAction.apply (s : upb_DefPool) : BuildAction → upb_DefPool
  | BuildAction.Insert2 sym size v => (_upb_DefPool_Insert2 s sym size v { alloc_ok := true }).2
  | BuildAction.InsertExt ext f => (_upb_DefPool_InsertExt s ext f { alloc_ok := true }).2
  | BuildAction.ExtRegAdd l num ext => { s with extreg := s.extreg ++ [(l, num, ext)] }

/-- The effect of a sequence of builder actions on the pool. -/
def run_actions : upb_DefPool → List BuildAction → upb_DefPool
  | s, [] => s
  | s, a :: rest => run_actions (a.apply s) rest

/-- Modelled from the spec: `_upb_DefBuilder_OomErr` (`def_builder.c`, not under src/) reports
"an out-of-memory error" in the status and jumps to `ctx.err`; this is the status it leaves. -/
def _upb_DefBuilder_OomErr (status : upb_Status) : upb_Status :=
  upb_Status_SetErrorFormat status "out of memory".toList

/-! ## Rollback and the file-loading transaction -/

set_option linter.unusedVariables false in
/-- The `while` loop of `remove_filedef`: `t` is `s->syms` and `iter` the iterator. -/
def remove_filedef_loop (D : Defs) (file : Ptr) (t : upb_strtable upb_value) (iter : Int) :
    upb_strtable upb_value :=
  match h : upb_table_next2 t iter with
  | none => t
  | some (_key, val, iter1) =>
    let f := def_file D val
    if f = file then remove_filedef_loop D file (upb_table_removeiter t iter1) iter1
    else remove_filedef_loop D file t iter1
termination_by t.entries.length - (iter + 1).toNat
decreasing_by
  all_goals simp_wf
  all_goals
    have hscan : ∀ (l : List (Option (List Char × upb_value))) (i : Nat) k v j,
        upb_table.scan l i = some (k, v, j) → i ≤ j ∧ j < i + l.length := by
      intro l
      induction l with
      | nil => intro i k v j hs; simp [upb_table.scan] at hs
      | cons x xs ih =>
        intro i k v j hs
        cases x with
        | none =>
          simp only [upb_table.scan] at hs
          have := ih (i + 1) k v j hs
          simp only [List.length_cons]
          omega
        | some kv =>
          obtain ⟨k0, v0⟩ := kv
          simp only [upb_table.scan, Option.some.injEq, Prod.mk.injEq] at hs
          simp only [List.length_cons]
          omega
    unfold upb_table_next2 at h
    split at h
    · simp at h
    · rename_i k v i hs
      simp only [Option.some.injEq, Prod.mk.injEq] at h
      obtain ⟨-, -, hi⟩ := h
      have hb := hscan _ _ _ _ _ hs
      simp only [List.length_drop] at hb
      subst hi
      try simp only [upb_table_removeiter, List.length_set]
      omega

/-- The static function `remove_filedef`. -/
def remove_filedef (D : Defs) (s : upb_DefPool) (file : Ptr) : upb_DefPool :=
  { s with syms := remove_filedef_loop D file s.syms UPB_INTTABLE_BEGIN }

/-- What a call of `_upb_DefPool_AddFile` leaves behind: the returned `upb_FileDef*`, the pool
and the status. -/
structure AddFileResult where
  ret : Ptr
  pool : upb_DefPool
  status : upb_Status
deriving DecidableEq, Repr

/-- The static function `_upb_DefPool_AddFile`. `none` is a failed `UPB_ASSERT`. The three arms
after the duplicate check are the three arms of the `if (UPB_SETJMP(ctx.err))` statement: the
builders run in the last one, and an unwinding builder (or `_upb_DefBuilder_OomErr`) lands in
the first one. -/
def _upb_DefPool_AddFile (D : Defs) (W : World) (s : upb_DefPool)
    (file_proto : google_protobuf_FileDescriptorProto) (layout : Ptr) (status : upb_Status) :
    Option AddFileResult :=
  let name := file_proto.name
  match upb_strtable_lookup2 s.files name.data name.size with
  | some _ =>
    some { ret := NULL, pool := s,
           status := upb_Status_SetErrorFormat status
             ("duplicate file name ".toList ++ name.chars) }
  | none =>
    match W.ctx_arena s file_proto, W.ctx_tmp_arena s file_proto with
    | some arena, some _ =>
      let run := W._upb_FileDef_Create s file_proto layout
      let s1 := run_actions s run.actions
      match run.err with
      | some msg =>
        let status1 := upb_Status_SetErrorFormat status msg
        if upb_Status_IsOk status1 then none
        else if run.file ≠ NULL then
          some { ret := NULL, pool := remove_filedef D s1 run.file, status := status1 }
        else some { ret := NULL, pool := s1, status := status1 }
      | none =>
        let s2 := { s1 with
          files := (upb_strtable_insert s1.files name.data name.size run.file arena).2 }
        if upb_Status_IsOk status then some { ret := run.file, pool := s2, status := status }
        else none
    | _, _ =>
      let status1 := _upb_DefBuilder_OomErr status
      if upb_Status_IsOk status1 then none
      else some { ret := NULL, pool := s, status := status1 }

/-- The function `upb_DefPool_AddFile`. -/
def upb_DefPool_AddFile (D : Defs) (W : World) (s : upb_DefPool)
    (file_proto : google_protobuf_FileDescriptorProto) (status : upb_Status) :
    Option AddFileResult :=
  _upb_DefPool_AddFile D W s file_proto NULL status

/-! ## The dependency-closure loader -/

/-- The `for (; *deps; deps++)` loop of `_upb_DefPool_LoadDefInitEx`, over the recursive call
`load`; the flag `false` is the `goto err`. `none` is a call that did not return. -/
def load_deps (load : upb_DefPool → Ptr → Option (Bool × upb_DefPool)) :
    upb_DefPool → List Ptr → Option (Bool × upb_DefPool)
  | s, [] => some (true, s)
  | s, d :: ds =>
    match load s d with
    | none => none
    | some (false, s1) => some (false, s1)
    | some (true, s1) => load_deps load s1 ds

/-- The function `_upb_DefPool_LoadDefInitEx`, with a bound `fuel` on the depth of the
recursion: `none` means that the bound was reached (or that an assertion of
`_upb_DefPool_AddFile` failed); `some (b, s1)` is the returned flag and the pool left. -/
def _upb_DefPool_LoadDefInitEx (D : Defs) (W : World) :
    Nat → upb_DefPool → Ptr → Bool → Option (Bool × upb_DefPool)
  | 0, _, _, _ => none
  | fuel + 1, s, init, rebuild_minitable =>
    let rec0 := W.init init
    let status := upb_Status_Clear
    if upb_DefPool_FindFileByName s rec0.filename ≠ NULL then some (true, s)
    else
      match load_deps (fun s0 d => _upb_DefPool_LoadDefInitEx D W fuel s0 d rebuild_minitable)
          s rec0.deps with
      | none => none
      | some (false, s1) => some (false, s1)
      | some (true, s1) =>
        let file := W.parse_ex rec0.descriptor
        let s2 := { s1 with
          bytes_loaded := (s1.bytes_loaded + rec0.descriptor.size) % SIZE_MODULUS }
        match file with
        | none => some (false, s2)
        | some file_proto =>
          let mt := if rebuild_minitable then NULL else rec0.layout
          match _upb_DefPool_AddFile D W s2 file_proto mt status with
          | none => none
          | some r => if r.ret ≠ NULL then some (true, r.pool) else some (false, r.pool)

/-- The function `_upb_DefPool_LoadDefInit`. -/
def _upb_DefPool_LoadDefInit (D : Defs) (W : World) (fuel : Nat) (s : upb_DefPool)
    (init : Ptr) : Option (Bool × upb_DefPool) :=
  _upb_DefPool_LoadDefInitEx D W fuel s init false

/-! ## Extension enumeration -/

set_option linter.unusedVariables false in
/-- The first `while` loop of `upb_DefPool_GetAllExtensions` (the count pass): `t` is `s->exts`,
`iter` the iterator and `n` the counter. -/
def GetAllExtensions_count (D : Defs) (m : Ptr) (t : upb_inttable Ptr) (iter : Int) (n : Nat) :
    Nat :=
  match h : upb_table_next2 t iter with
  | none => n
  | some (_key, val, iter1) =>
    let f := val
    if D.upb_FieldDef_ContainingType f = m then GetAllExtensions_count D m t iter1 (n + 1)
    else GetAllExtensions_count D m t iter1 n
termination_by t.entries.length - (iter + 1).toNat
decreasing_by
  all_goals simp_wf
  all_goals
    have hscan : ∀ (l : List (Option (Nat × Ptr))) (i : Nat) k v j,
        upb_table.scan l i = some (k, v, j) → i ≤ j ∧ j < i + l.length := by
      intro l
      induction l with
      | nil => intro i k v j hs; simp [upb_table.scan] at hs
      | cons x xs ih =>
        intro i k v j hs
        cases x with
        | none =>
          simp only [upb_table.scan] at hs
          have := ih (i + 1) k v j hs
          simp only [List.length_cons]
          omega
        | some kv =>
          obtain ⟨k0, v0⟩ := kv
          simp only [upb_table.scan, Option.some.injEq, Prod.mk.injEq] at hs
          simp only [List.length_cons]
          omega
    unfold upb_table_next2 at h
    split at h
    · simp at h
    · rename_i k v i hs
      simp only [Option.some.injEq, Prod.mk.injEq] at h
      obtain ⟨-, -, hi⟩ := h
      have hb := hscan _ _ _ _ _ hs
      simp only [List.length_drop] at hb
      subst hi
      omega

set_option linter.unusedVariables false in
/-- The second `while` loop of `upb_DefPool_GetAllExtensions` (the fill pass): `exts` is the
array (a slot is `none` while nothing was written to it) and `i` the write index. `none` is a
write `exts[i++] = f` outside the array. -/
def GetAllExtensions_fill (D : Defs) (m : Ptr) (t : upb_inttable Ptr) (iter : Int)
    (exts : List (Option Ptr)) (i : Nat) : Option (List (Option Ptr)) :=
  match h : upb_table_next2 t iter with
  | none => some exts
  | some (_key, val, iter1) =>
    let f := val
    if D.upb_FieldDef_ContainingType f = m then
      if i < exts.length then
        GetAllExtensions_fill D m t iter1 (exts.set i (some f)) (i + 1)
      else none
    else GetAllExtensions_fill D m t iter1 exts i
termination_by t.entries.length - (iter + 1).toNat
decreasing_by
  all_goals simp_wf
  all_goals
    have hscan : ∀ (l : List (Option (Nat × Ptr))) (i : Nat) k v j,
        upb_table.scan l i = some (k, v, j) → i ≤ j ∧ j < i + l.length := by
      intro l
      induction l with
      | nil => intro i k v j hs; simp [upb_table.scan] at hs
      | cons x xs ih =>
        intro i k v j hs
        cases x with
        | none =>
          simp only [upb_table.scan] at hs
          have := ih (i + 1) k v j hs
          simp only [List.length_cons]
          omega
        | some kv =>
          obtain ⟨k0, v0⟩ := kv
          simp only [upb_table.scan, Option.some.injEq, Prod.mk.injEq] at hs
          simp only [List.length_cons]
          omega
    unfold upb_table_next2 at h
    split at h
    · simp at h
    · rename_i k v i hs
      simp only [Option.some.injEq, Prod.mk.injEq] at h
      obtain ⟨-, -, hi⟩ := h
      have hb := hscan _ _ _ _ _ hs
      simp only [List.length_drop] at hb
      subst hi
      omega

/-- The function `upb_DefPool_GetAllExtensions`: the returned array and `*count`.
`malloc_ok` is the outcome of the unchecked `malloc(n * sizeof(*exts))`: when it succeeds the
array is a block of `n` slots, not yet written (`none`) when the fill pass starts; when it fails
`exts` is `NULL`, which has no slot at all, so that every write `exts[i++] = f` of the fill pass
goes through the null pointer. The outer `none` is such a write outside the block (undefined
behaviour); in `some (exts, n)` the array `exts` is `none` for a `NULL` result. The pool is a
`const` argument and is not part of the result. -/
def upb_DefPool_GetAllExtensions (D : Defs) (s : upb_DefPool) (m : Ptr) (malloc_ok : Bool) :
    Option (Option (List (Option Ptr)) × Nat) :=
  let n := GetAllExtensions_count D m s.exts UPB_INTTABLE_BEGIN 0
  let exts : Option (List (Option Ptr)) :=
    if malloc_ok then some (List.replicate n none) else none
  match exts with
  | some block =>
    match GetAllExtensions_fill D m s.exts UPB_INTTABLE_BEGIN block 0 with
    | none => none
    | some block1 => some (some block1, n)
  | none =>
    match GetAllExtensions_fill D m s.exts UPB_INTTABLE_BEGIN [] 0 with
    | none => none
    | some _ => some (none, n)

/-! ## Specification-side notions -/

/-- What the rollback scan does to one slot: an occupied slot whose definition is owned by
`file` is emptied, every other slot is left as it is. -/
def clear_slot (D : Defs) (file : Ptr) :
    Option (List Char × upb_value) → Option (List Char × upb_value)
  | none => none
  | some (k, v) => if def_file D v = file then none else some (k, v)

/-- The bindings of a table in iteration order: its occupied slots. Two tables with the same
bindings answer every lookup and every iteration alike. -/
def upb_table.bindings {κ α : Type} (t : upb_table κ α) : List (κ × α) :=
  t.entries.filterMap id

/-- The position of the last `.` of the C string held by `name`: what `strrchr(name, '.')`
is specified to return by the C standard. -/
def IsLastDot (name : List Char) (i : Nat) : Prop :=
  i < strlen name ∧ name[i]? = some '.' ∧
    ∀ j, i < j → j < strlen name → name[j]? ≠ some '.'

/-- The Symbol Table bindings a build made, in order: key and tagged reference of every
`_upb_DefPool_Insert2` call. -/
def inserted_syms : List BuildAction → List (List Char × upb_value)
  | [] => []
  | BuildAction.Insert2 sym size v :: rest => (sym.take size, v) :: inserted_syms rest
  | BuildAction.InsertExt _ _ :: rest => inserted_syms rest
  | BuildAction.ExtRegAdd _ _ _ :: rest => inserted_syms rest

/-- The Extension Index bindings a build made, in order. -/
def inserted_exts : List BuildAction → List (Nat × Ptr)
  | [] => []
  | BuildAction.Insert2 _ _ _ :: rest => inserted_exts rest
  | BuildAction.InsertExt ext f :: rest => (ext, f) :: inserted_exts rest
  | BuildAction.ExtRegAdd _ _ _ :: rest => inserted_exts rest

/-- No File definition is partially visible: the owning file of every Symbol Table entry is
bound under its own name in the File Table. -/
def FilesVisible (D : Defs) (s : upb_DefPool) : Prop :=
  ∀ k v, some (k, v) ∈ s.syms.entries →
    upb_table.find (D.upb_FileDef_Name (def_file D v)) s.files.entries = some (def_file D v)

/-- The side of the build protocol that the builders keep (they are outside `def_pool.c`): every
symbol they insert is owned by the file under construction, they insert symbols only once that
file exists, and a file they finish carries the name of its descriptor. -/
structure BuildersKeepProtocol (D : Defs) (W : World) : Prop where
  owns : ∀ s file_proto layout,
    ∀ kv ∈ inserted_syms (W._upb_FileDef_Create s file_proto layout).actions,
      def_file D kv.2 = (W._upb_FileDef_Create s file_proto layout).file
  created : ∀ s file_proto layout,
    (W._upb_FileDef_Create s file_proto layout).file = NULL →
      inserted_syms (W._upb_FileDef_Create s file_proto layout).actions = []
  named : ∀ s file_proto layout,
    (W._upb_FileDef_Create s file_proto layout).err = none →
      D.upb_FileDef_Name (W._upb_FileDef_Create s file_proto layout).file =
        file_proto.name.chars

/-- The bindings that an iteration standing at `iter` has still to visit, in order. -/
def upb_table.rest {κ α : Type} (t : upb_table κ α) (iter : Int) : List (κ × α) :=
  (t.entries.drop (iter + 1).toNat).filterMap id

/-- The fields among a list of Extension Index bindings whose containing type is `m`, one per
binding, in order. -/
def fields_of (D : Defs) (m : Ptr) (l : List (Nat × Ptr)) : List Ptr :=
  (l.filter (fun kv => decide (D.upb_FieldDef_ContainingType kv.2 = m))).map Prod.snd

/-- The extensions of message `m` according to the Extension Index: the field of every entry
whose field has containing type `m`, one per entry, in iteration order. -/
def extensions_of (D : Defs) (s : upb_DefPool) (m : Ptr) : List Ptr :=
  fields_of D m s.exts.bindings

/-- A buffer without NUL: as a C string it is read to its end. -/
def NulFree (name : List Char) : Bool :=
  name.all (fun c => decide (c.toNat ≠ 0))

/-- The dependency graph of the compiled-in records: `DepPath W p q` holds when `q` is reached
from `p` by following one or more `deps` edges. -/
inductive DepPath (W : World) : Ptr → Ptr → Prop where
  | edge {p d : Ptr} : d ∈ (W.init p).deps → DepPath W p d
  | step {p d q : Ptr} : d ∈ (W.init p).deps → DepPath W d q → DepPath W p q

/-- The File Table key of a compiled-in record: its `filename`, read as a C string. -/
def init_key (W : World) (p : Ptr) : List Char :=
  (W.init p).filename.take (strlen (W.init p).filename)

/-- An acyclic static dependency set of well-formed files: the set `S` of records is closed
under `deps`; `rank` decreases along every dependency edge (no cycle); different records carry
different file names; and every descriptor decodes to a file that carries the record's file
name. -/
structure WellFormedSet (W : World) (S : List Ptr) (rank : Ptr → Nat) : Prop where
  closed : ∀ p ∈ S, ∀ d ∈ (W.init p).deps, d ∈ S
  acyclic : ∀ p ∈ S, ∀ d ∈ (W.init p).deps, rank d < rank p
  distinct : ∀ p ∈ S, ∀ q ∈ S, init_key W p = init_key W q → p = q
  decodes : ∀ p ∈ S, ∃ file_proto, W.parse_ex (W.init p).descriptor = some file_proto ∧
    file_proto.name.chars = init_key W p

/-- An assumption on the environment of a load, not on the files: no allocation fails and no
builder rejects a file of the set `S`. On every pool, for every file of the set, the two
arenas of the build context are created, the builders return normally with the file they
created, and the File Table insert can allocate. -/
structure BuildsSucceed (W : World) (S : List Ptr) : Prop where
  builds : ∀ p ∈ S, ∀ file_proto, W.parse_ex (W.init p).descriptor = some file_proto →
    ∀ (s : upb_DefPool) (layout : Ptr),
      (W._upb_FileDef_Create s file_proto layout).err = none ∧
      (W._upb_FileDef_Create s file_proto layout).file ≠ NULL ∧
      (∃ a, W.ctx_arena s file_proto = some a ∧ a.alloc_ok = true) ∧
      (∃ b, W.ctx_tmp_arena s file_proto = some b)

/-- Every record of the list comes after all of its declared dependencies. -/
def DepsFirst (W : World) (l : List Ptr) : Prop :=
  ∀ before p after, l = before ++ p :: after → ∀ d ∈ (W.init p).deps, d ∈ before

/-- The File Table entries of a sequence of added files, given as (record, File definition). -/
def added_entries (W : World) (added : List (Ptr × Ptr)) : List (Option (List Char × Ptr)) :=
  added.map (fun x => some (init_key W x.1, x.2))

/-- The sum of the descriptor sizes of a sequence of added files. -/
def added_bytes (W : World) (added : List (Ptr × Ptr)) : Nat :=
  (added.map (fun x => (W.init x.1).descriptor.size)).sum

/-- The state of a load in progress, relative to the pool `s0` it started from: `acc` is the
sequence of files added so far. -/
structure LoadedSoFar (W : World) (S : List Ptr) (s0 : upb_DefPool) (acc : List (Ptr × Ptr))
    (s : upb_DefPool) : Prop where
  files : s.files.entries = s0.files.entries ++ added_entries W acc
  bytes : s.bytes_loaded = (s0.bytes_loaded + added_bytes W acc) % SIZE_MODULUS
  mem : ∀ x ∈ acc, x.1 ∈ S ∧ x.2 ≠ NULL
  nodup : (acc.map Prod.fst).Nodup
  order : DepsFirst W (acc.map Prod.fst)

/-- What the load of the record `p` by `load` does to a load in progress: it returns `true`,
`p` is among the files added so far afterwards, and what it added is `p` or is reached from `p`
along dependency edges. -/
def LoadsTo (W : World) (S : List Ptr) (s0 : upb_DefPool)
    (load : upb_DefPool → Ptr → Option (Bool × upb_DefPool)) (p : Ptr) : Prop :=
  ∀ s acc, LoadedSoFar W S s0 acc s →
    ∃ acc1 s1, load s p = some (true, s1) ∧ LoadedSoFar W S s0 (acc ++ acc1) s1 ∧
      p ∈ (acc ++ acc1).map Prod.fst ∧ ∀ x ∈ acc1, x.1 = p ∨ DepPath W p x.1

/-! ## Concrete scenarios -/

/-- Accessors for the scenarios: every definition is owned by the file at address 8, which is
named `a.proto`; messages live at 16, extension fields at 24 with number 1000. -/
def D0 : Defs :=
  { upb_FieldDef_File := fun _ => 8, upb_MessageDef_File := fun _ => 8,
    upb_EnumDef_File := fun _ => 8, upb_EnumValueDef_Enum := fun p => p,
    upb_ServiceDef_File := fun _ => 8, upb_FileDef_Name := fun _ => "a.proto".toList,
    _upb_MessageDef_InMessageSet := fun _ => false,
    upb_MessageDef_NestedExtension := fun _ _ => NULL,
    upb_MessageDef_FindByNameWithSize := fun _ sym size => decide (sym.take size = "bar".toList),
    upb_MessageDef_MiniTable := fun p => p + 1,
    upb_FieldDef_ContainingType := fun _ => 16,
    upb_FieldDef_Number := fun _ => 1000 }

/-- A freshly created pool. -/
def pool0 : upb_DefPool :=
  { syms := upb_table_init, files := upb_table_init, exts := upb_table_init, extreg := [],
    bytes_loaded := 0 }

/-- The descriptor of a file named `a.proto`. -/
def protoA : google_protobuf_FileDescriptorProto :=
  { name := { data := "a.proto".toList, size := 7 }, body := 0 }

/-- The compiled-in records of the scenarios: none. -/
def noInit : Ptr → _upb_DefPool_Init :=
  fun _ => { deps := [], layout := NULL, filename := [], descriptor := { data := [], size := 0 } }

/-- A world in which the builders create the file 8, register the extension field 24 under the
name `pkg.ext` and under the extension identity 32, and then reject a later declaration. -/
def worldReject : World :=
  { ctx_arena := fun _ _ => some { alloc_ok := true },
    ctx_tmp_arena := fun _ _ => some { alloc_ok := true },
    _upb_FileDef_Create := fun _ _ _ =>
      { actions := [BuildAction.Insert2 "pkg.ext".toList 7 { ptr := 24, type := UPB_DEFTYPE_EXT },
                    BuildAction.InsertExt 32 24],
        file := 8, err := some "bad type reference".toList },
    parse_ex := fun _ => none,
    init := noInit }

/-- A world in which the builders build the file 8 with the single message `pkg.Foo` (at 16)
and return normally. -/
def worldFoo : World :=
  { ctx_arena := fun _ _ => some { alloc_ok := true },
    ctx_tmp_arena := fun _ _ => some { alloc_ok := true },
    _upb_FileDef_Create := fun _ _ _ =>
      { actions := [BuildAction.Insert2 "pkg.Foo".toList 7 { ptr := 16, type := UPB_DEFTYPE_MSG }],
        file := 8, err := none },
    parse_ex := fun _ => none,
    init := noInit }

/-- The pool after `a.proto` with its message `pkg.Foo` was added to a fresh pool. -/
def poolFoo : upb_DefPool :=
  { syms := { entries := [some ("pkg.Foo".toList, { ptr := 16, type := UPB_DEFTYPE_MSG })] },
    files := { entries := [some ("a.proto".toList, 8)] },
    exts := upb_table_init, extreg := [], bytes_loaded := 0 }

/-- The world of `worldFoo` in which the allocation made by the File Table insert from the
work arena fails. -/
def worldFooOom : World :=
  { ctx_arena := fun _ _ => some { alloc_ok := false },
    ctx_tmp_arena := fun _ _ => some { alloc_ok := true },
    _upb_FileDef_Create := fun _ _ _ =>
      { actions := [BuildAction.Insert2 "pkg.Foo".toList 7 { ptr := 16, type := UPB_DEFTYPE_MSG }],
        file := 8, err := none },
    parse_ex := fun _ => none,
    init := noInit }

/-- A pool holding the extension field 24 of message 16 (layout 17) with number 1000: bound
under `pkg.ext`, indexed under the extension identity 32, which the registry knows. -/
def poolExt : upb_DefPool :=
  { syms := { entries := [some ("pkg.ext".toList, { ptr := 24, type := UPB_DEFTYPE_EXT })] },
    files := { entries := [some ("a.proto".toList, 8)] },
    exts := { entries := [some (32, 24)] }, extreg := [(17, 1000, 32)], bytes_loaded := 0 }

/-- The world of `worldFoo` with one compiled-in record at every address: the file `a.proto`
without dependencies, with a descriptor of 7 bytes that decodes to `protoA`. -/
def worldFooRec : World :=
  { ctx_arena := fun _ _ => some { alloc_ok := true },
    ctx_tmp_arena := fun _ _ => some { alloc_ok := true },
    _upb_FileDef_Create := fun _ _ _ =>
      { actions := [BuildAction.Insert2 "pkg.Foo".toList 7 { ptr := 16, type := UPB_DEFTYPE_MSG }],
        file := 8, err := none },
    parse_ex := fun _ => some protoA,
    init := fun _ => { deps := [], layout := NULL, filename := "a.proto".toList,
                       descriptor := { data := "a.proto".toList, size := 7 } } }

/-- A world whose builders reject every file, with two compiled-in records: the record 1 of
`a.proto` depends on the record 2 of `b.proto`, and both descriptors decode. -/
def worldDepFails : World :=
  { ctx_arena := fun _ _ => some { alloc_ok := true },
    ctx_tmp_arena := fun _ _ => some { alloc_ok := true },
    _upb_FileDef_Create := fun _ _ _ =>
      { actions := [], file := NULL, err := some "bad descriptor".toList },
    parse_ex := fun d => some { name := d, body := 0 },
    init := fun p =>
      if p = 1 then { deps := [2], layout := NULL, filename := "a.proto".toList,
                      descriptor := { data := "a.proto".toList, size := 7 } }
      else { deps := [], layout := NULL, filename := "b.proto".toList,
             descriptor := { data := "b.proto".toList, size := 7 } } }

/-- A world with a cyclic dependency graph: the record at every address is `a.proto`, whose
only dependency is the record at address 1. -/
def worldCycle : World :=
  { ctx_arena := fun _ _ => some { alloc_ok := true },
    ctx_tmp_arena := fun _ _ => some { alloc_ok := true },
    _upb_FileDef_Create := fun _ _ _ => { actions := [], file := 8, err := none },
    parse_ex := fun _ => some protoA,
    init := fun _ => { deps := [1], layout := NULL, filename := "a.proto".toList,
                       descriptor := { data := "a.proto".toList, size := 7 } } }

/-- The chain A -> B -> C: the record 1 of `a.proto` (7 bytes) depends on the record 2 of
`bb.proto` (8 bytes), which depends on the record 3 of `ccc.proto` (9 bytes, no dependency). A
descriptor decodes to a file named by its bytes; the builders build every file, at the address
8 times the length of its name, inserting nothing. -/
def worldChain : World :=
  { ctx_arena := fun _ _ => some { alloc_ok := true },
    ctx_tmp_arena := fun _ _ => some { alloc_ok := true },
    _upb_FileDef_Create := fun _ file_proto _ =>
      { actions := [], file := 8 * (file_proto.name.size + 1), err := none },
    parse_ex := fun d => some { name := d, body := 0 },
    init := fun p =>
      if p = 1 then { deps := [2], layout := NULL, filename := "a.proto".toList,
                      descriptor := { data := "a.proto".toList, size := 7 } }
      else if p = 2 then { deps := [3], layout := NULL, filename := "bb.proto".toList,
                           descriptor := { data := "bb.proto".toList, size := 8 } }
      else { deps := [], layout := NULL, filename := "ccc.proto".toList,
             descriptor := { data := "ccc.proto".toList, size := 9 } } }

/-- The descriptor of another file named `a.proto`, with different contents. -/
def protoA2 : google_protobuf_FileDescriptorProto :=
  { name := { data := "a.proto".toList, size := 7 }, body := 1 }

/-- The pool after `a.proto` with its message `pkg.Foo` was added to a fresh pool by a call
whose File Table insert failed to allocate: the message is bound, the file is not. -/
def poolFooUnregistered : upb_DefPool :=
  { syms := { entries := [some ("pkg.Foo".toList, { ptr := 16, type := UPB_DEFTYPE_MSG })] },
    files := upb_table_init, exts := upb_table_init, extreg := [], bytes_loaded := 0 }

/-- A world with two descriptors of the same file name. For `protoA` the builders build the
file 8 with the single message `pkg.Foo` (at 16), and the allocation made by the File Table
insert from the work arena fails; for any other descriptor they build the file 32 with the
single message `pkg.Bar` (at 40), and no allocation fails. Both builds return normally. -/
def worldFooBar : World :=
  { ctx_arena := fun _ file_proto => some { alloc_ok := decide (file_proto.body ≠ 0) },
    ctx_tmp_arena := fun _ _ => some { alloc_ok := true },
    _upb_FileDef_Create := fun _ file_proto _ =>
      if file_proto.body = 0 then
        { actions := [BuildAction.Insert2 "pkg.Foo".toList 7
                        { ptr := 16, type := UPB_DEFTYPE_MSG }],
          file := 8, err := none }
      else
        { actions := [BuildAction.Insert2 "pkg.Bar".toList 7
                        { ptr := 40, type := UPB_DEFTYPE_MSG }],
          file := 32, err := none },
    parse_ex := fun _ => none,
    init := noInit }

/-- A world with one compiled-in record at every address: the file `a.proto` without
dependencies, with a descriptor of 7 bytes that decodes to `protoA`. The builders build the
file, which has no declarations, at a fresh address (8 times the byte counter) and insert
nothing. The allocation made by the File Table insert from the work arena fails in the first
build (the one that starts with a byte counter of 7) and in no other. -/
def worldOnceOom : World :=
  { ctx_arena := fun s _ => some { alloc_ok := decide (s.bytes_loaded ≠ 7) },
    ctx_tmp_arena := fun _ _ => some { alloc_ok := true },
    _upb_FileDef_Create := fun s _ _ => { actions := [], file := 8 * s.bytes_loaded, err := none },
    parse_ex := fun _ => some protoA,
    init := fun _ => { deps := [], layout := NULL, filename := "a.proto".toList,
                       descriptor := { data := "a.proto".toList, size := 7 } } }

/-- The diamond A -> B, A -> C, B -> D, C -> D: the record 1 of `a.proto` (7 bytes) depends on
the records 2 of `bb.proto` (8 bytes) and 3 of `ccc.proto` (9 bytes), which both depend on the
record 4 of `dddd.proto` (10 bytes, no dependency). A descriptor decodes to a file named by its
bytes; the builders build every file, which has no declarations, at a fresh address (8 times
the byte counter) and insert nothing. The allocation made by the File Table insert from the
work arena fails in the first build (the one that starts with a byte counter of 10) and in no
other. -/
def worldDiamond : World :=
  { ctx_arena := fun s _ => some { alloc_ok := decide (s.bytes_loaded ≠ 10) },
    ctx_tmp_arena := fun _ _ => some { alloc_ok := true },
    _upb_FileDef_Create := fun s _ _ => { actions := [], file := 8 * s.bytes_loaded, err := none },
    parse_ex := fun d => some { name := d, body := 0 },
    init := fun p =>
      if p = 1 then { deps := [2, 3], layout := NULL, filename := "a.proto".toList,
                      descriptor := { data := "a.proto".toList, size := 7 } }
      else if p = 2 then { deps := [4], layout := NULL, filename := "bb.proto".toList,
                           descriptor := { data := "bb.proto".toList, size := 8 } }
      else if p = 3 then { deps := [4], layout := NULL, filename := "ccc.proto".toList,
                           descriptor := { data := "ccc.proto".toList, size := 9 } }
      else { deps := [], layout := NULL, filename := "dddd.proto".toList,
             descriptor := { data := "dddd.proto".toList, size := 10 } } }

/-! ## Facts about the tables -/

theorem scan_eq_none {κ α : Type} (l : List (Option (κ × α))) (i : Nat) :
    upb_table.scan l i = none ↔ ∀ x ∈ l, x = none := by
  induction l generalizing i with
  | nil => simp [upb_table.scan]
  | cons x xs ih =>
    cases x with
    | none => simp [upb_table.scan, ih]
    | some kv => obtain ⟨k, v⟩ := kv; simp [upb_table.scan]

theorem scan_eq_some {κ α : Type} (l : List (Option (κ × α))) (i : Nat) (k : κ) (v : α)
    (j : Nat) (h : upb_table.scan l i = some (k, v, j)) :
    ∃ pre post, l = pre ++ some (k, v) :: post ∧ (∀ x ∈ pre, x = none) ∧
      j = i + pre.length := by
  induction l generalizing i with
  | nil => simp [upb_table.scan] at h
  | cons x xs ih =>
    cases x with
    | none =>
      simp only [upb_table.scan] at h
      obtain ⟨pre, post, hl, hpre, hj⟩ := ih (i + 1) h
      refine ⟨none :: pre, post, ?_, ?_, ?_⟩
      · simp [hl]
      · intro x hx
        rcases List.mem_cons.mp hx with rfl | hx
        · rfl
        · exact hpre x hx
      · simp only [List.length_cons]; omega
    | some kv =>
      obtain ⟨k0, v0⟩ := kv
      simp only [upb_table.scan, Option.some.injEq, Prod.mk.injEq] at h
      obtain ⟨rfl, rfl, rfl⟩ := h
      exact ⟨[], xs, by simp, by simp, by simp⟩

theorem next2_eq_none {κ α : Type} (t : upb_table κ α) (iter : Int)
    (h : upb_table_next2 t iter = none) :
    ∀ x ∈ t.entries.drop (iter + 1).toNat, x = none := by
  unfold upb_table_next2 at h
  split at h
  · rename_i hs; exact (scan_eq_none _ _).mp hs
  · simp at h

theorem next2_eq_some {κ α : Type} (t : upb_table κ α) (iter : Int) (k : κ) (v : α)
    (iter1 : Int) (h : upb_table_next2 t iter = some (k, v, iter1)) :
    ∃ pre post, t.entries = t.entries.take (iter + 1).toNat ++ (pre ++ some (k, v) :: post) ∧
      (∀ x ∈ pre, x = none) ∧ iter1 = (((iter + 1).toNat + pre.length : Nat) : Int) ∧
      (iter + 1).toNat ≤ t.entries.length := by
  unfold upb_table_next2 at h
  split at h
  · simp at h
  · rename_i k0 v0 j hs
    simp only [Option.some.injEq, Prod.mk.injEq] at h
    obtain ⟨rfl, rfl, rfl⟩ := h
    obtain ⟨pre, post, hl, hpre, hj⟩ := scan_eq_some _ _ _ _ _ hs
    refine ⟨pre, post, ?_, hpre, by rw [hj], ?_⟩
    · rw [← hl, List.take_append_drop]
    · by_contra hcon
      have : t.entries.drop (iter + 1).toNat = [] := List.drop_eq_nil_of_le (by omega)
      rw [this] at hl
      simp at hl

theorem map_clear_of_all_none (D : Defs) (file : Ptr)
    (l : List (Option (List Char × upb_value))) (h : ∀ x ∈ l, x = none) :
    l.map (clear_slot D file) = l := by
  induction l with
  | nil => rfl
  | cons x xs ih =>
    have hx : x = none := h x (List.mem_cons_self _ _)
    subst hx
    simp only [List.map_cons, clear_slot]
    rw [ih (fun y hy => h y (List.mem_cons_of_mem _ hy))]

theorem take_length_succ_append {α : Type} (L : List α) (x : α) (post : List α) :
    (L ++ x :: post).take (L.length + 1) = L ++ [x] := by
  induction L with
  | nil => simp
  | cons a L ih => simpa using ih

theorem drop_length_succ_append {α : Type} (L : List α) (x : α) (post : List α) :
    (L ++ x :: post).drop (L.length + 1) = post := by
  induction L with
  | nil => simp
  | cons a L ih => simp

theorem set_length_append {α : Type} (L : List α) (x y : α) (post : List α) :
    (L ++ x :: post).set L.length y = L ++ y :: post := by
  induction L with
  | nil => simp
  | cons a L ih => simp

/-- The rollback scan started at iterator `iter` leaves the slots up to `iter` alone and clears,
among the later ones, exactly the slots owned by `file`. -/
theorem remove_filedef_loop_entries (D : Defs) (file : Ptr) (t : upb_strtable upb_value)
    (iter : Int) :
    (remove_filedef_loop D file t iter).entries =
      t.entries.take (iter + 1).toNat ++
        (t.entries.drop (iter + 1).toNat).map (clear_slot D file) := by
  induction t, iter using remove_filedef_loop.induct D file with
  | case1 t iter hnext =>
    rw [remove_filedef_loop.eq_1]
    split
    · rw [map_clear_of_all_none D file _ (next2_eq_none t iter hnext), List.take_append_drop]
    · rename_i h2; rw [hnext] at h2; simp at h2
  | case2 t iter key val iter1 hnext f hf ih =>
    obtain ⟨pre, post, hE, hpre, hiter1, hle⟩ := next2_eq_some t iter key val iter1 hnext
    rw [remove_filedef_loop.eq_1]
    split
    · rename_i h2; rw [hnext] at h2; simp at h2
    · rename_i k2 v2 i2 h2
      rw [hnext] at h2
      simp only [Option.some.injEq, Prod.mk.injEq] at h2
      obtain ⟨rfl, rfl, rfl⟩ := h2
      have hf2 : def_file D val = file := hf
      simp only [hf2, if_true]
      rw [ih]
      generalize hA : t.entries.take (iter + 1).toNat = A at hE
      have hAlen : A.length = (iter + 1).toNat := by
        rw [← hA, List.length_take]; omega
      have hn : (iter1 + 1).toNat = A.length + pre.length + 1 := by
        rw [hiter1, hAlen]; omega
      have hj : iter1.toNat = A.length + pre.length := by
        rw [hiter1, hAlen]; omega
      have hdrop : t.entries.drop (iter + 1).toNat = pre ++ some (key, val) :: post := by
        conv_lhs => rw [hE]
        rw [← hAlen]; simp
      rw [hdrop]
      simp only [upb_table_removeiter, hj, hn]
      rw [hE]
      have e1 : (A ++ (pre ++ some (key, val) :: post)).set (A.length + pre.length) none =
          (A ++ pre) ++ none :: post := by
        rw [← List.append_assoc, ← List.length_append]
        exact set_length_append _ _ _ _
      rw [e1]
      have e2 : ((A ++ pre) ++ none :: post).take (A.length + pre.length + 1) =
          (A ++ pre) ++ [none] := by
        rw [← List.length_append]
        exact take_length_succ_append _ _ _
      have e3 : ((A ++ pre) ++ none :: post).drop (A.length + pre.length + 1) = post := by
        rw [← List.length_append]
        exact drop_length_succ_append _ _ _
      rw [e2, e3]
      simp only [List.map_append, List.map_cons, clear_slot, hf2, if_true,
        map_clear_of_all_none D file pre hpre, List.append_assoc, List.singleton_append]
  | case3 t iter key val iter1 hnext f hf ih =>
    obtain ⟨pre, post, hE, hpre, hiter1, hle⟩ := next2_eq_some t iter key val iter1 hnext
    rw [remove_filedef_loop.eq_1]
    split
    · rename_i h2; rw [hnext] at h2; simp at h2
    · rename_i k2 v2 i2 h2
      rw [hnext] at h2
      simp only [Option.some.injEq, Prod.mk.injEq] at h2
      obtain ⟨rfl, rfl, rfl⟩ := h2
      have hf2 : ¬ def_file D val = file := hf
      simp only [hf2, if_false]
      rw [ih]
      generalize hA : t.entries.take (iter + 1).toNat = A at hE
      have hAlen : A.length = (iter + 1).toNat := by
        rw [← hA, List.length_take]; omega
      have hn : (iter1 + 1).toNat = A.length + pre.length + 1 := by
        rw [hiter1, hAlen]; omega
      have hdrop : t.entries.drop (iter + 1).toNat = pre ++ some (key, val) :: post := by
        conv_lhs => rw [hE]
        rw [← hAlen]; simp
      rw [hdrop, hn, hE]
      have e2 : (A ++ (pre ++ some (key, val) :: post)).take (A.length + pre.length + 1) =
          (A ++ pre) ++ [some (key, val)] := by
        rw [← List.append_assoc, ← List.length_append]
        exact take_length_succ_append _ _ _
      have e3 : (A ++ (pre ++ some (key, val) :: post)).drop (A.length + pre.length + 1) =
          post := by
        rw [← List.append_assoc, ← List.length_append]
        exact drop_length_succ_append _ _ _
      rw [e2, e3]
      simp only [List.map_append, List.map_cons, clear_slot, hf2, if_false,
        map_clear_of_all_none D file pre hpre, List.append_assoc, List.singleton_append]

/-- The rollback clears exactly the slots owned by `file`. -/
theorem remove_filedef_syms (D : Defs) (s : upb_DefPool) (file : Ptr) :
    (remove_filedef D s file).syms.entries = s.syms.entries.map (clear_slot D file) := by
  simp [remove_filedef, remove_filedef_loop_entries, UPB_INTTABLE_BEGIN]

theorem find_mem {κ α : Type} [DecidableEq κ] (key : κ) (l : List (Option (κ × α))) (v : α)
    (h : upb_table.find key l = some v) : some (key, v) ∈ l := by
  induction l with
  | nil => simp [upb_table.find] at h
  | cons x xs ih =>
    cases x with
    | none =>
      simp only [upb_table.find] at h
      exact List.mem_cons_of_mem _ (ih h)
    | some kv =>
      obtain ⟨k, w⟩ := kv
      simp only [upb_table.find] at h
      split at h
      · rename_i hk
        simp only [Option.some.injEq] at h
        subst hk; subst h
        exact List.mem_cons_self _ _
      · exact List.mem_cons_of_mem _ (ih h)

theorem find_append {κ α : Type} [DecidableEq κ] (key : κ) (l1 l2 : List (Option (κ × α))) :
    upb_table.find key (l1 ++ l2) =
      match upb_table.find key l1 with
      | some v => some v
      | none => upb_table.find key l2 := by
  induction l1 with
  | nil => simp [upb_table.find]
  | cons x xs ih =>
    cases x with
    | none => simpa [upb_table.find] using ih
    | some kv =>
      obtain ⟨k, w⟩ := kv
      by_cases hk : k = key
      · simp [upb_table.find, hk]
      · simpa [upb_table.find, hk] using ih

theorem apply_files (s : upb_DefPool) (a : BuildAction) : (a.apply s).files = s.files := by
  cases a <;> rfl

theorem apply_bytes_loaded (s : upb_DefPool) (a : BuildAction) :
    (a.apply s).bytes_loaded = s.bytes_loaded := by
  cases a <;> rfl

theorem run_actions_files (s : upb_DefPool) (as : List BuildAction) :
    (run_actions s as).files = s.files := by
  induction as generalizing s with
  | nil => rfl
  | cons a rest ih => simp only [run_actions, ih, apply_files]

theorem run_actions_bytes_loaded (s : upb_DefPool) (as : List BuildAction) :
    (run_actions s as).bytes_loaded = s.bytes_loaded := by
  induction as generalizing s with
  | nil => rfl
  | cons a rest ih => simp only [run_actions, ih, apply_bytes_loaded]

theorem mem_map_clear_slot (D : Defs) (file : Ptr) (l : List (Option (List Char × upb_value)))
    (k : List Char) (v : upb_value) (h : some (k, v) ∈ l.map (clear_slot D file)) :
    some (k, v) ∈ l ∧ def_file D v ≠ file := by
  obtain ⟨x, hx, hxe⟩ := List.mem_map.mp h
  cases x with
  | none => simp [clear_slot] at hxe
  | some kv =>
    obtain ⟨k0, v0⟩ := kv
    simp only [clear_slot] at hxe
    split at hxe
    · simp at hxe
    · rename_i hne
      simp only [Option.some.injEq, Prod.mk.injEq] at hxe
      obtain ⟨rfl, rfl⟩ := hxe
      exact ⟨hx, hne⟩

/-! ## The claims -/

/-- C1: when the builders unwind after the File definition was created, the call returns NULL
with an error status, no slot of the Symbol Table holds a definition owned by the file under
construction (so no lookup can yield one), and the File Table has no entry for the file's
name. -/
theorem C1_failed_build_leaves_no_entry (D : Defs) (W : World) (s : upb_DefPool)
    (file_proto : google_protobuf_FileDescriptorProto) (layout : Ptr) (status : upb_Status)
    (a b : upb_Arena) (msg : List Char)
    (hnew : upb_strtable_lookup2 s.files file_proto.name.data file_proto.name.size = none)
    (ha : W.ctx_arena s file_proto = some a) (hb : W.ctx_tmp_arena s file_proto = some b)
    (herr : (W._upb_FileDef_Create s file_proto layout).err = some msg)
    (hfile : (W._upb_FileDef_Create s file_proto layout).file ≠ NULL) :
    ∃ r, _upb_DefPool_AddFile D W s file_proto layout status = some r ∧
      r.ret = NULL ∧ r.status.ok = false ∧
      (∀ k v, some (k, v) ∈ r.pool.syms.entries →
        def_file D v ≠ (W._upb_FileDef_Create s file_proto layout).file) ∧
      (∀ sym size v, _upb_DefPool_LookupAny2 r.pool sym size = some v →
        def_file D v ≠ (W._upb_FileDef_Create s file_proto layout).file) ∧
      upb_strtable_lookup2 r.pool.files file_proto.name.data file_proto.name.size = none := by
  have hsyms : ∀ k v,
      some (k, v) ∈ (remove_filedef D
        (run_actions s (W._upb_FileDef_Create s file_proto layout).actions)
        (W._upb_FileDef_Create s file_proto layout).file).syms.entries →
      def_file D v ≠ (W._upb_FileDef_Create s file_proto layout).file := by
    intro k v hmem
    rw [remove_filedef_syms] at hmem
    exact (mem_map_clear_slot D _ _ k v hmem).2
  refine ⟨{ ret := NULL,
            pool := remove_filedef D
              (run_actions s (W._upb_FileDef_Create s file_proto layout).actions)
              (W._upb_FileDef_Create s file_proto layout).file,
            status := upb_Status_SetErrorFormat status msg }, ?_, rfl, rfl, hsyms, ?_, ?_⟩
  · simp only [_upb_DefPool_AddFile, hnew, ha, hb, herr, upb_Status_IsOk,
      upb_Status_SetErrorFormat]
    simp [hfile]
  · intro sym size v hv
    exact hsyms (sym.take size) v (find_mem _ _ _ hv)
  · show upb_strtable_lookup2 (run_actions s _).files _ _ = none
    rw [run_actions_files]
    exact hnew

/-- Witness of C1: a fresh pool, the file `a.proto`, and builders that reject a declaration
after having created the file and inserted a symbol. -/
theorem C1_failed_build_leaves_no_entry_witness :
    (worldReject._upb_FileDef_Create pool0 protoA NULL).file ≠ NULL ∧
    ∃ r, _upb_DefPool_AddFile D0 worldReject pool0 protoA NULL upb_Status_Clear = some r ∧
      r.ret = NULL ∧ r.status.ok = false ∧
      (∀ k v, some (k, v) ∈ r.pool.syms.entries →
        def_file D0 v ≠ (worldReject._upb_FileDef_Create pool0 protoA NULL).file) ∧
      (∀ sym size v, _upb_DefPool_LookupAny2 r.pool sym size = some v →
        def_file D0 v ≠ (worldReject._upb_FileDef_Create pool0 protoA NULL).file) ∧
      upb_strtable_lookup2 r.pool.files protoA.name.data protoA.name.size = none :=
  ⟨by decide,
   C1_failed_build_leaves_no_entry D0 worldReject pool0 protoA NULL upb_Status_Clear
    { alloc_ok := true } { alloc_ok := true } "bad type reference".toList
    (by decide) rfl rfl rfl (by decide)⟩

/-- C2: evaluation at the failing input. On a fresh pool the builders create the file, insert
the symbol `pkg.ext` and the Extension Index entry 32 -> 24, and then reject a declaration. The
call returns NULL with an error status and the symbol is rolled back, but the Extension Index,
which had no entry for 32 before the call, still binds 32 to the field of the failed file. -/
theorem C2_failed_add_keeps_extension_entry :
    upb_inttable_lookup pool0.exts 32 = none ∧
    _upb_DefPool_Contains pool0 "pkg.ext".toList = false ∧
    (upb_DefPool_AddFile D0 worldReject pool0 protoA upb_Status_Clear).map
      (fun r => (r.ret, r.status.ok, upb_inttable_lookup r.pool.exts 32,
                 r.pool.exts == pool0.exts)) =
      some (NULL, false, some 24, false) := by
  decide

/-- The duplicate check of `_upb_DefPool_AddFile`: the early return. -/
theorem AddFile_duplicate (D : Defs) (W : World) (s : upb_DefPool)
    (file_proto : google_protobuf_FileDescriptorProto) (layout : Ptr) (status : upb_Status)
    (f0 : Ptr)
    (hdup : upb_strtable_lookup2 s.files file_proto.name.data file_proto.name.size = some f0) :
    _upb_DefPool_AddFile D W s file_proto layout status =
      some { ret := NULL, pool := s,
             status := { ok := false,
                         msg := "duplicate file name ".toList ++ file_proto.name.chars } } := by
  simp only [_upb_DefPool_AddFile, hdup, upb_Status_SetErrorFormat]

/-- A call of `_upb_DefPool_AddFile` that returns a File definition ran the builders to a normal
return, and left the pool the builders made with the File Table insert applied. -/
theorem AddFile_nonnull (D : Defs) (W : World) (s : upb_DefPool)
    (file_proto : google_protobuf_FileDescriptorProto) (layout : Ptr) (status : upb_Status)
    (r : AddFileResult) (h : _upb_DefPool_AddFile D W s file_proto layout status = some r)
    (hret : r.ret ≠ NULL) :
    upb_strtable_lookup2 s.files file_proto.name.data file_proto.name.size = none ∧
    (∃ a, W.ctx_arena s file_proto = some a ∧
      r.pool = { (run_actions s (W._upb_FileDef_Create s file_proto layout).actions) with
        files := (upb_strtable_insert
          (run_actions s (W._upb_FileDef_Create s file_proto layout).actions).files
          file_proto.name.data file_proto.name.size
          (W._upb_FileDef_Create s file_proto layout).file a).2 }) ∧
    (W._upb_FileDef_Create s file_proto layout).err = none ∧
    r.ret = (W._upb_FileDef_Create s file_proto layout).file ∧
    r.status = status ∧ status.ok = true := by
  unfold _upb_DefPool_AddFile at h
  simp only at h
  split at h
  · simp only [Option.some.injEq] at h
    subst h
    exact absurd rfl hret
  · rename_i hnew
    split at h
    · rename_i a b ha hb
      split at h
      · split at h
        · simp at h
        · split at h
          · simp only [Option.some.injEq] at h
            subst h
            exact absurd rfl hret
          · simp only [Option.some.injEq] at h
            subst h
            exact absurd rfl hret
      · rename_i herr
        split at h
        · rename_i hok
          simp only [Option.some.injEq] at h
          subst h
          exact ⟨hnew, ⟨a, ha, rfl⟩, herr, rfl, rfl, hok⟩
        · simp at h
    · split at h
      · simp at h
      · simp only [Option.some.injEq] at h
        subst h
        exact absurd rfl hret

/-- When the File Table already has an entry for the descriptor's file name, the call returns
NULL, the status is the error "duplicate file name " followed by the name, the result does not
depend on the builders or the arenas (they are never consulted), and the pool is returned
unchanged; a second add of a file name leaves the pool as the first add left it when the first
add returned a File definition and its File Table insert could allocate. -/
theorem AddFile_duplicate_file_name (D : Defs) (W : World) (s : upb_DefPool)
    (file_proto : google_protobuf_FileDescriptorProto) (layout : Ptr) (status : upb_Status)
    (f0 : Ptr)
    (hdup : upb_strtable_lookup2 s.files file_proto.name.data file_proto.name.size = some f0) :
    _upb_DefPool_AddFile D W s file_proto layout status =
        some { ret := NULL, pool := s,
               status := { ok := false,
                           msg := "duplicate file name ".toList ++ file_proto.name.chars } } ∧
    upb_DefPool_AddFile D W s file_proto status =
        some { ret := NULL, pool := s,
               status := { ok := false,
                           msg := "duplicate file name ".toList ++ file_proto.name.chars } } ∧
    (∀ W1 : World, _upb_DefPool_AddFile D W1 s file_proto layout status =
        _upb_DefPool_AddFile D W s file_proto layout status) ∧
    (∀ (s0 : upb_DefPool) (first : google_protobuf_FileDescriptorProto) (layout1 : Ptr)
        (status1 : upb_Status) (r1 : AddFileResult) (a : upb_Arena),
        first.name.chars = file_proto.name.chars →
        _upb_DefPool_AddFile D W s0 first layout1 status1 = some r1 → r1.ret ≠ NULL →
        W.ctx_arena s0 first = some a → a.alloc_ok = true →
        _upb_DefPool_AddFile D W r1.pool file_proto layout status =
          some { ret := NULL, pool := r1.pool,
                 status := { ok := false,
                             msg := "duplicate file name ".toList ++
                               file_proto.name.chars } }) := by
  refine ⟨AddFile_duplicate D W s file_proto layout status f0 hdup,
    AddFile_duplicate D W s file_proto NULL status f0 hdup, ?_, ?_⟩
  · intro W1
    rw [AddFile_duplicate D W1 s file_proto layout status f0 hdup,
      AddFile_duplicate D W s file_proto layout status f0 hdup]
  · intro s0 first layout1 status1 r1 a hname h1 hret ha hok
    obtain ⟨hnew, ⟨a1, ha1, hpool⟩, -, hfile, -, -⟩ :=
      AddFile_nonnull D W s0 first layout1 status1 r1 h1 hret
    rw [ha] at ha1
    simp only [Option.some.injEq] at ha1
    subst ha1
    apply AddFile_duplicate D W r1.pool file_proto layout status
      (W._upb_FileDef_Create s0 first layout1).file
    rw [hpool]
    simp only [upb_strtable_insert, hok, if_true, upb_strtable_lookup2, run_actions_files,
      find_append]
    have hnew1 : upb_table.find (file_proto.name.data.take file_proto.name.size)
        s0.files.entries = none := by
      have := hnew
      simp only [upb_strtable_lookup2] at this
      simp only [upb_StringView.chars] at hname
      rw [← hname]
      exact this
    rw [hnew1]
    simp only [upb_StringView.chars] at hname
    simp [upb_table.find, hname]

/-- Adding `a.proto` to the pool that already holds `a.proto`. -/
theorem AddFile_duplicate_file_name_example :
    upb_strtable_lookup2 poolFoo.files protoA.name.data protoA.name.size = some 8 ∧
    _upb_DefPool_AddFile D0 worldFoo poolFoo protoA NULL upb_Status_Clear =
      some { ret := NULL, pool := poolFoo,
             status := { ok := false,
                         msg := "duplicate file name ".toList ++ protoA.name.chars } } :=
  ⟨by decide,
   (AddFile_duplicate_file_name D0 worldFoo poolFoo protoA NULL upb_Status_Clear 8
      (by decide)).1⟩

/-- C3: evaluation at the failing input. A first `upb_DefPool_AddFile` of a file named
`a.proto` on a fresh pool returns the File definition 8 with an OK status while the allocation
made by its File Table insert fails, so that the File Table has no entry for `a.proto`. A second
`upb_DefPool_AddFile` of a file with the same name on the pool left by the first call then
misses the duplicate check: it does not return NULL with the error "duplicate file name a.proto"
but runs the builders, returns the File definition 32 with an OK status, and leaves a pool that
differs from the pool after the first call in the Symbol Table (the message `pkg.Bar` was
inserted) and in the File Table. -/
theorem C3_second_add_not_rejected :
    protoA2.name.chars = protoA.name.chars ∧
    upb_DefPool_AddFile D0 worldFooBar pool0 protoA upb_Status_Clear =
      some { ret := 8, pool := poolFooUnregistered, status := upb_Status_Clear } ∧
    upb_DefPool_AddFile D0 worldFooBar poolFooUnregistered protoA2 upb_Status_Clear =
      some { ret := 32,
             pool := { poolFooUnregistered with
               syms := { entries :=
                 [some ("pkg.Foo".toList, { ptr := 16, type := UPB_DEFTYPE_MSG }),
                  some ("pkg.Bar".toList, { ptr := 40, type := UPB_DEFTYPE_MSG })] },
               files := { entries := [some ("a.proto".toList, 32)] } },
             status := upb_Status_Clear } := by
  decide

/-- C4: a typed finder filters by kind. When `sym` is bound to the tagged reference `v`, each
finder of kind K (Message, Enum, EnumValue, Service) returns `v`'s definition if `v` is tagged K
and NULL (not-found) if `v` carries any other tag; the length-bounded finders do the same for
the binding of the `len`-byte key. -/
theorem C4_typed_finders_filter_by_kind (s : upb_DefPool) (sym : List Char) (len : Nat)
    (v w : upb_value)
    (hv : upb_strtable_lookup s.syms sym = some v)
    (hw : upb_strtable_lookup2 s.syms sym len = some w) :
    (upb_DefPool_FindMessageByName s sym =
        if v.type = UPB_DEFTYPE_MSG then v.ptr else NULL) ∧
    (upb_DefPool_FindEnumByName s sym =
        if v.type = UPB_DEFTYPE_ENUM then v.ptr else NULL) ∧
    (upb_DefPool_FindEnumByNameval s sym =
        if v.type = UPB_DEFTYPE_ENUMVAL then v.ptr else NULL) ∧
    (upb_DefPool_FindServiceByName s sym =
        if v.type = UPB_DEFTYPE_SERVICE then v.ptr else NULL) ∧
    (upb_DefPool_FindMessageByNameWithSize s sym len =
        if w.type = UPB_DEFTYPE_MSG then w.ptr else NULL) ∧
    (upb_DefPool_FindServiceByNameWithSize s sym len =
        if w.type = UPB_DEFTYPE_SERVICE then w.ptr else NULL) ∧
    (∀ K : upb_deftype_t, v.type ≠ K → _upb_DefPool_Lookup2 s sym (strlen sym) K = NULL) ∧
    (∀ K : upb_deftype_t, v.type = K → _upb_DefPool_Lookup2 s sym (strlen sym) K = v.ptr) := by
  have hv2 : upb_strtable_lookup2 s.syms sym (strlen sym) = some v := hv
  refine ⟨?_, ?_, ?_, ?_, ?_, ?_, ?_, ?_⟩
  · simp only [upb_DefPool_FindMessageByName, _upb_DefPool_Lookup, _upb_DefPool_Lookup2, hv2,
      _upb_DefType_Unpack]
  · simp only [upb_DefPool_FindEnumByName, _upb_DefPool_Lookup, _upb_DefPool_Lookup2, hv2,
      _upb_DefType_Unpack]
  · simp only [upb_DefPool_FindEnumByNameval, _upb_DefPool_Lookup, _upb_DefPool_Lookup2, hv2,
      _upb_DefType_Unpack]
  · simp only [upb_DefPool_FindServiceByName, _upb_DefPool_Lookup, _upb_DefPool_Lookup2, hv2,
      _upb_DefType_Unpack]
  · simp only [upb_DefPool_FindMessageByNameWithSize, _upb_DefPool_Lookup2, hw,
      _upb_DefType_Unpack]
  · simp only [upb_DefPool_FindServiceByNameWithSize, _upb_DefPool_Lookup2, hw,
      _upb_DefType_Unpack]
  · intro K hK
    simp only [_upb_DefPool_Lookup2, hv2, _upb_DefType_Unpack, hK, if_false]
  · intro K hK
    simp only [_upb_DefPool_Lookup2, hv2, _upb_DefType_Unpack, hK, if_true]

/-- Witness of C4: in the pool holding the message `pkg.Foo`, the message finder returns it and
the enum, enum value and service finders return NULL. -/
theorem C4_typed_finders_filter_by_kind_witness :
    upb_strtable_lookup poolFoo.syms "pkg.Foo".toList =
      some { ptr := 16, type := UPB_DEFTYPE_MSG } ∧
    upb_DefPool_FindMessageByName poolFoo "pkg.Foo".toList = 16 ∧
    upb_DefPool_FindEnumByName poolFoo "pkg.Foo".toList = NULL ∧
    upb_DefPool_FindEnumByNameval poolFoo "pkg.Foo".toList = NULL ∧
    upb_DefPool_FindServiceByName poolFoo "pkg.Foo".toList = NULL :=
  have h := C4_typed_finders_filter_by_kind poolFoo "pkg.Foo".toList 7
    { ptr := 16, type := UPB_DEFTYPE_MSG } { ptr := 16, type := UPB_DEFTYPE_MSG }
    (by decide) (by decide)
  ⟨by decide, h.1, h.2.1, h.2.2.1, h.2.2.2.1⟩

/-- The scan of `strrchr` finds the last `.` of the C string, or keeps `last` when the C string
has none. -/
theorem strrchr_scan_spec (l : List Char) (i : Nat) (last : Option Nat) :
    (∃ j, IsLastDot l j ∧ strrchr_scan '.' l i last = some (i + j)) ∨
    ((∀ j, j < strlen l → l[j]? ≠ some '.') ∧ strrchr_scan '.' l i last = last) := by
  induction l generalizing i last with
  | nil =>
    right
    exact ⟨fun j hj => by simp [strlen] at hj, rfl⟩
  | cons x xs ih =>
    by_cases hx : x.toNat = 0
    · right
      refine ⟨fun j hj => ?_, ?_⟩
      · simp [strlen, hx] at hj
      · simp [strrchr_scan, hx]
    · have hlen : strlen (x :: xs) = strlen xs + 1 := by simp [strlen, hx]
      have hscan : strrchr_scan '.' (x :: xs) i last =
          strrchr_scan '.' xs (i + 1) (if x = '.' then some i else last) := by
        simp [strrchr_scan, hx]
      rcases ih (i + 1) (if x = '.' then some i else last) with ⟨j, hj, hres⟩ | ⟨hno, hres⟩
      · left
        refine ⟨j + 1, ⟨?_, ?_, ?_⟩, ?_⟩
        · rw [hlen]; have := hj.1; omega
        · simpa using hj.2.1
        · intro j1 h1 h2
          obtain ⟨j2, rfl⟩ : ∃ j2, j1 = j2 + 1 := ⟨j1 - 1, by omega⟩
          rw [hlen] at h2
          simpa using hj.2.2 j2 (by omega) (by omega)
        · rw [hscan, hres]; congr 1; omega
      · by_cases hdot : x = '.'
        · left
          refine ⟨0, ⟨?_, ?_, ?_⟩, ?_⟩
          · rw [hlen]; omega
          · simp [hdot]
          · intro j1 h1 h2
            obtain ⟨j2, rfl⟩ : ∃ j2, j1 = j2 + 1 := ⟨j1 - 1, by omega⟩
            rw [hlen] at h2
            simpa using hno j2 (by omega)
          · rw [hscan, hres]; simp [hdot]
        · right
          refine ⟨?_, ?_⟩
          · intro j1 h2
            rw [hlen] at h2
            cases j1 with
            | zero => simpa using hdot
            | succ j2 => simpa using hno j2 (by omega)
          · rw [hscan, hres]; simp [hdot]

theorem IsLastDot_unique (name : List Char) (i j : Nat) (hi : IsLastDot name i)
    (hj : IsLastDot name j) : i = j := by
  rcases Nat.lt_trichotomy i j with h | h | h
  · exact absurd hj.2.1 (hi.2.2 j h hj.1)
  · exact h
  · exact absurd hi.2.1 (hj.2.2 i h hi.1)

theorem strrchr_of_IsLastDot (name : List Char) (i : Nat) (hi : IsLastDot name i) :
    strrchr name '.' = some i := by
  rcases strrchr_scan_spec name 0 none with ⟨j, hj, hres⟩ | ⟨hno, -⟩
  · rw [IsLastDot_unique name i j hi hj]
    simpa [strrchr] using hres
  · exact absurd hi.2.1 (hno i hi.1)

theorem IsLastDot_of_strrchr (name : List Char) (i : Nat) (h : strrchr name '.' = some i) :
    IsLastDot name i := by
  rcases strrchr_scan_spec name 0 none with ⟨j, hj, hres⟩ | ⟨-, hres⟩
  · have : i = j := by
      simp only [strrchr] at h
      rw [hres] at h
      simp only [Option.some.injEq] at h
      omega
    rw [this]; exact hj
  · simp only [strrchr] at h
    rw [hres] at h
    simp at h

theorem strrchr_of_no_dot (name : List Char)
    (h : ∀ j, j < strlen name → name[j]? ≠ some '.') : strrchr name '.' = none := by
  rcases strrchr_scan_spec name 0 none with ⟨j, hj, -⟩ | ⟨-, hres⟩
  · exact absurd hj.2.1 (h j hj.1)
  · simpa [strrchr] using hres

/-- The fallback of `upb_DefPool_FindFileContainingSymbol` for a name that is not bound and whose
last `.` is at offset `i`. -/
theorem FindFileContainingSymbol_fallback (D : Defs) (s : upb_DefPool) (name : List Char)
    (i : Nat) (h : upb_strtable_lookup s.syms name = none) (hi : IsLastDot name i) :
    upb_DefPool_FindFileContainingSymbol D s name =
      if _upb_DefPool_Lookup2 s name i UPB_DEFTYPE_MSG ≠ NULL then
        if D.upb_MessageDef_FindByNameWithSize (_upb_DefPool_Lookup2 s name i UPB_DEFTYPE_MSG)
            (name.drop (i + 1)) (strlen (name.drop (i + 1))) then
          D.upb_MessageDef_File (_upb_DefPool_Lookup2 s name i UPB_DEFTYPE_MSG)
        else NULL
      else NULL := by
  simp only [upb_DefPool_FindFileContainingSymbol, h, strrchr_of_IsLastDot name i hi,
    upb_DefPool_FindMessageByNameWithSize]

/-- A successful add whose File Table insert could allocate registers the file under its
name. -/
theorem AddFile_registers (D : Defs) (W : World) (s : upb_DefPool)
    (file_proto : google_protobuf_FileDescriptorProto) (layout : Ptr) (status : upb_Status)
    (r : AddFileResult) (a : upb_Arena)
    (h : _upb_DefPool_AddFile D W s file_proto layout status = some r) (hret : r.ret ≠ NULL)
    (ha : W.ctx_arena s file_proto = some a) (hok : a.alloc_ok = true) :
    upb_strtable_lookup2 r.pool.files file_proto.name.data file_proto.name.size =
      some r.ret := by
  obtain ⟨hnew, ⟨a1, ha1, hpool⟩, -, hfile, -, -⟩ :=
    AddFile_nonnull D W s file_proto layout status r h hret
  rw [ha] at ha1
  simp only [Option.some.injEq] at ha1
  subst ha1
  rw [hpool, hfile]
  simp only [upb_strtable_insert, hok, if_true, upb_strtable_lookup2, run_actions_files,
    find_append]
  simp only [upb_strtable_lookup2] at hnew
  rw [hnew]
  simp [upb_table.find]

/-- C5: evaluation at the failing input. On a fresh pool the builders build `a.proto` with the
message `pkg.Foo` and return normally, and the allocation made by the File Table insert fails.
`upb_DefPool_AddFile` discards the result of that insert: it returns the File definition 8 with
an OK status and the message is found, yet neither `upb_DefPool_FindFileByName` nor its
length-bounded variant finds `a.proto`, and the File Table has not grown. -/
theorem C5_added_file_not_registered :
    (upb_DefPool_AddFile D0 worldFooOom pool0 protoA upb_Status_Clear).map
      (fun r => (r.ret, r.status.ok,
                 upb_DefPool_FindMessageByName r.pool "pkg.Foo".toList,
                 upb_DefPool_FindFileByName r.pool "a.proto".toList,
                 upb_DefPool_FindFileByNameWithSize r.pool "a.proto".toList 7,
                 r.pool.files == pool0.files)) =
      some (8, true, 16, NULL, NULL, true) := by
  decide

/-- C6: evaluation at the failing input. Starting from `upb_DefPool_New`, one completed
`upb_DefPool_AddFile` call whose File Table insert fails to allocate leaves the symbol `pkg.Foo`
in the Symbol Table while the name of its owning file is not bound in the File Table. -/
theorem C6_symbol_without_file_entry :
    ((upb_DefPool_New true true true true true).bind
        (fun s => upb_DefPool_AddFile D0 worldFooOom s protoA upb_Status_Clear)).map
      (fun r => (r.pool.syms.entries,
                 def_file D0 { ptr := 16, type := UPB_DEFTYPE_MSG },
                 upb_strtable_lookup r.pool.files
                   (D0.upb_FileDef_Name (def_file D0 { ptr := 16, type := UPB_DEFTYPE_MSG })))) =
      some ([some ("pkg.Foo".toList, { ptr := 16, type := UPB_DEFTYPE_MSG })], 8, none) := by
  decide

/-- For a name bound in the Symbol Table, `upb_DefPool_FindFileContainingSymbol` returns the
owning file of the bound definition through the back-reference of its kind, whatever the member
lookup of the fallback would answer; and for a message added by an add that returned its File
definition and whose File Table insert could allocate, it returns the File that
`upb_DefPool_FindFileByName` returns for the file's name. -/
theorem FindFileContainingSymbol_bound (D : Defs) (s : upb_DefPool) (name : List Char)
    (v : upb_value) (h : upb_strtable_lookup s.syms name = some v) :
    (v.type = UPB_DEFTYPE_EXT →
      upb_DefPool_FindFileContainingSymbol D s name = D.upb_FieldDef_File v.ptr) ∧
    (v.type = UPB_DEFTYPE_MSG →
      upb_DefPool_FindFileContainingSymbol D s name = D.upb_MessageDef_File v.ptr) ∧
    (v.type = UPB_DEFTYPE_ENUM →
      upb_DefPool_FindFileContainingSymbol D s name = D.upb_EnumDef_File v.ptr) ∧
    (v.type = UPB_DEFTYPE_ENUMVAL →
      upb_DefPool_FindFileContainingSymbol D s name =
        D.upb_EnumDef_File (D.upb_EnumValueDef_Enum v.ptr)) ∧
    (v.type = UPB_DEFTYPE_SERVICE →
      upb_DefPool_FindFileContainingSymbol D s name = D.upb_ServiceDef_File v.ptr) ∧
    (∀ g : Ptr → List Char → Nat → Bool,
      upb_DefPool_FindFileContainingSymbol
          { D with upb_MessageDef_FindByNameWithSize := g } s name =
        upb_DefPool_FindFileContainingSymbol D s name) ∧
    (∀ (W : World) (s0 : upb_DefPool) (file_proto : google_protobuf_FileDescriptorProto)
        (layout : Ptr) (status : upb_Status) (r : AddFileResult) (a : upb_Arena)
        (fname : List Char),
        _upb_DefPool_AddFile D W s0 file_proto layout status = some r → r.pool = s →
        r.ret ≠ NULL → W.ctx_arena s0 file_proto = some a → a.alloc_ok = true →
        fname.take (strlen fname) = file_proto.name.chars →
        v.type = UPB_DEFTYPE_MSG → D.upb_MessageDef_File v.ptr = r.ret →
        upb_DefPool_FindFileContainingSymbol D s name = upb_DefPool_FindFileByName s fname) := by
  have hres : ∀ D1 : Defs, upb_DefPool_FindFileContainingSymbol D1 s name = def_file D1 v := by
    intro D1
    simp only [upb_DefPool_FindFileContainingSymbol, h]
  refine ⟨?_, ?_, ?_, ?_, ?_, ?_, ?_⟩
  · intro ht
    rw [hres]; simp [def_file, _upb_DefType_Type, _upb_DefType_Unpack, ht]
  · intro ht
    rw [hres]; simp [def_file, _upb_DefType_Type, _upb_DefType_Unpack, ht]
  · intro ht
    rw [hres]; simp [def_file, _upb_DefType_Type, _upb_DefType_Unpack, ht]
  · intro ht
    rw [hres]; simp [def_file, _upb_DefType_Type, _upb_DefType_Unpack, ht]
  · intro ht
    rw [hres]; simp [def_file, _upb_DefType_Type, _upb_DefType_Unpack, ht]
  · intro g
    rw [hres, hres]
    cases hv : v.type <;> simp [def_file, _upb_DefType_Type, _upb_DefType_Unpack, hv]
  · intro W s0 file_proto layout status r a fname hadd hpool hret ha hok hfname ht hfile
    have hreg := AddFile_registers D W s0 file_proto layout status r a hadd hret ha hok
    rw [hpool] at hreg
    have hfind : upb_DefPool_FindFileByName s fname = r.ret := by
      simp only [upb_DefPool_FindFileByName, upb_strtable_lookup, upb_strtable_lookup2, hfname,
        upb_StringView.chars]
      simp only [upb_strtable_lookup2] at hreg
      rw [hreg]
    rw [hfind, hres, ← hfile]
    simp [def_file, _upb_DefType_Type, _upb_DefType_Unpack, ht]

/-- The message `pkg.Foo` of `a.proto`, in the pool that holds both. -/
theorem FindFileContainingSymbol_bound_example :
    upb_strtable_lookup poolFoo.syms "pkg.Foo".toList =
      some { ptr := 16, type := UPB_DEFTYPE_MSG } ∧
    upb_DefPool_FindFileContainingSymbol D0 poolFoo "pkg.Foo".toList =
      D0.upb_MessageDef_File 16 ∧
    upb_DefPool_FindFileContainingSymbol D0 poolFoo "pkg.Foo".toList =
      upb_DefPool_FindFileByName poolFoo "a.proto".toList :=
  have h := FindFileContainingSymbol_bound D0 poolFoo "pkg.Foo".toList
    { ptr := 16, type := UPB_DEFTYPE_MSG } (by decide)
  ⟨by decide, h.2.1 rfl,
   h.2.2.2.2.2.2 worldFoo pool0 protoA NULL upb_Status_Clear
     { ret := 8, pool := poolFoo, status := upb_Status_Clear } { alloc_ok := true }
     "a.proto".toList (by decide) rfl (by decide) rfl rfl (by decide) rfl rfl⟩

/-- C7: evaluation at the failing input. On a fresh pool `upb_DefPool_AddFile` adds the file
`a.proto` with the message `pkg.Foo`: it returns the File definition 8 with an OK status, while
the allocation made by its File Table insert fails. In the pool it leaves, `pkg.Foo` is bound in
the Symbol Table to the message 16, whose file is 8, and `upb_DefPool_FindFileContainingSymbol`
returns 8 for it (the owning file, by the back-reference of the kind), but
`upb_DefPool_FindFileByName` returns NULL for `a.proto`: the two results differ. -/
theorem C7_owning_file_not_found_by_name :
    upb_DefPool_AddFile D0 worldFooOom pool0 protoA upb_Status_Clear =
      some { ret := 8, pool := poolFooUnregistered, status := upb_Status_Clear } ∧
    upb_strtable_lookup poolFooUnregistered.syms "pkg.Foo".toList =
      some { ptr := 16, type := UPB_DEFTYPE_MSG } ∧
    D0.upb_MessageDef_File 16 = 8 ∧
    upb_DefPool_FindFileContainingSymbol D0 poolFooUnregistered "pkg.Foo".toList = 8 ∧
    upb_DefPool_FindFileByName poolFooUnregistered "a.proto".toList = NULL := by
  decide

/-- C8: for a name that is not bound in the Symbol Table, the result is decided by the fallback.
If the last `.` of the name is at offset `i`, the `i` bytes before it are bound to a message
`m` (a non-null reference tagged Message) and the text after it names a member of `m`, the
result is the owning file of `m`; a non-null result arises in this way only; and the result is
NULL when the name has no `.`, when the text before the last `.` is unbound or bound to another
kind, and when the text after it is not a member. -/
theorem C8_unbound_name_fallback (D : Defs) (s : upb_DefPool) (name : List Char)
    (h : upb_strtable_lookup s.syms name = none) :
    (∀ i m, IsLastDot name i →
      upb_strtable_lookup2 s.syms name i = some { ptr := m, type := UPB_DEFTYPE_MSG } →
      m ≠ NULL →
      D.upb_MessageDef_FindByNameWithSize m (name.drop (i + 1))
        (strlen (name.drop (i + 1))) = true →
      upb_DefPool_FindFileContainingSymbol D s name = D.upb_MessageDef_File m) ∧
    (upb_DefPool_FindFileContainingSymbol D s name ≠ NULL →
      ∃ i m, IsLastDot name i ∧
        upb_strtable_lookup2 s.syms name i = some { ptr := m, type := UPB_DEFTYPE_MSG } ∧
        m ≠ NULL ∧
        D.upb_MessageDef_FindByNameWithSize m (name.drop (i + 1))
          (strlen (name.drop (i + 1))) = true ∧
        upb_DefPool_FindFileContainingSymbol D s name = D.upb_MessageDef_File m) ∧
    ((∀ j, j < strlen name → name[j]? ≠ some '.') →
      upb_DefPool_FindFileContainingSymbol D s name = NULL) ∧
    (∀ i, IsLastDot name i → upb_strtable_lookup2 s.syms name i = none →
      upb_DefPool_FindFileContainingSymbol D s name = NULL) ∧
    (∀ i v, IsLastDot name i → upb_strtable_lookup2 s.syms name i = some v →
      v.type ≠ UPB_DEFTYPE_MSG → upb_DefPool_FindFileContainingSymbol D s name = NULL) ∧
    (∀ i m, IsLastDot name i →
      upb_strtable_lookup2 s.syms name i = some { ptr := m, type := UPB_DEFTYPE_MSG } →
      D.upb_MessageDef_FindByNameWithSize m (name.drop (i + 1))
        (strlen (name.drop (i + 1))) = false →
      upb_DefPool_FindFileContainingSymbol D s name = NULL) := by
  refine ⟨?_, ?_, ?_, ?_, ?_, ?_⟩
  · intro i m hi hb hm hmem
    rw [FindFileContainingSymbol_fallback D s name i h hi]
    simp [_upb_DefPool_Lookup2, hb, _upb_DefType_Unpack, hm, hmem]
  · intro hne
    cases hr : strrchr name '.' with
    | none =>
      exfalso; apply hne
      simp only [upb_DefPool_FindFileContainingSymbol, h, hr]
    | some i =>
      have hi := IsLastDot_of_strrchr name i hr
      rw [FindFileContainingSymbol_fallback D s name i h hi] at hne ⊢
      cases hb : upb_strtable_lookup2 s.syms name i with
      | none => simp [_upb_DefPool_Lookup2, hb] at hne
      | some v =>
        obtain ⟨m, t⟩ := v
        by_cases ht : t = UPB_DEFTYPE_MSG
        · subst ht
          simp only [_upb_DefPool_Lookup2, hb, _upb_DefType_Unpack, if_true] at hne ⊢
          by_cases hm : m = NULL
          · simp [hm] at hne
          · by_cases hmem : D.upb_MessageDef_FindByNameWithSize m (name.drop (i + 1))
                (strlen (name.drop (i + 1))) = true
            · exact ⟨i, m, hi, hb, hm, hmem, by simp [hm, hmem]⟩
            · simp [hm, hmem] at hne
        · simp [_upb_DefPool_Lookup2, hb, _upb_DefType_Unpack, ht] at hne
  · intro hno
    simp only [upb_DefPool_FindFileContainingSymbol, h, strrchr_of_no_dot name hno]
  · intro i hi hb
    rw [FindFileContainingSymbol_fallback D s name i h hi]
    simp [_upb_DefPool_Lookup2, hb]
  · intro i v hi hb ht
    rw [FindFileContainingSymbol_fallback D s name i h hi]
    simp [_upb_DefPool_Lookup2, hb, _upb_DefType_Unpack, ht]
  · intro i m hi hb hmem
    rw [FindFileContainingSymbol_fallback D s name i h hi]
    simp [_upb_DefPool_Lookup2, hb, _upb_DefType_Unpack, hmem]

/-- Witness of C8: `pkg.Foo.bar` is not bound, its last `.` is at offset 7, `pkg.Foo` is the
message 16 and `bar` is one of its members; the result is the file of the message. -/
theorem C8_unbound_name_fallback_witness :
    upb_strtable_lookup poolFoo.syms "pkg.Foo.bar".toList = none ∧
    upb_DefPool_FindFileContainingSymbol D0 poolFoo "pkg.Foo.bar".toList =
      D0.upb_MessageDef_File 16 :=
  ⟨by decide,
   (C8_unbound_name_fallback D0 poolFoo "pkg.Foo.bar".toList (by decide)).1 7 16
     (IsLastDot_of_strrchr _ _ (by decide)) (by decide) (by decide) (by decide)⟩

/-- C9: `upb_DefPool_FindExtensionByNameWithSize` returns the bound field when the key is bound
to a Field tagged as Extension, the nested extension of index 0 of the bound message when the
key is bound to a message that is a message-set container, and NULL in every other case: key
unbound, message that is not such a container, enum, enum value, service. -/
theorem C9_extension_by_name (D : Defs) (s : upb_DefPool) (name : List Char) (size : Nat) :
    (∀ v, upb_strtable_lookup2 s.syms name size = some v → v.type = UPB_DEFTYPE_EXT →
      upb_DefPool_FindExtensionByNameWithSize D s name size = v.ptr) ∧
    (∀ v, upb_strtable_lookup2 s.syms name size = some v → v.type = UPB_DEFTYPE_MSG →
      D._upb_MessageDef_InMessageSet v.ptr = true →
      upb_DefPool_FindExtensionByNameWithSize D s name size =
        D.upb_MessageDef_NestedExtension v.ptr 0) ∧
    (upb_strtable_lookup2 s.syms name size = none →
      upb_DefPool_FindExtensionByNameWithSize D s name size = NULL) ∧
    (∀ v, upb_strtable_lookup2 s.syms name size = some v → v.type = UPB_DEFTYPE_MSG →
      D._upb_MessageDef_InMessageSet v.ptr = false →
      upb_DefPool_FindExtensionByNameWithSize D s name size = NULL) ∧
    (∀ v, upb_strtable_lookup2 s.syms name size = some v →
      v.type = UPB_DEFTYPE_ENUM ∨ v.type = UPB_DEFTYPE_ENUMVAL ∨
        v.type = UPB_DEFTYPE_SERVICE →
      upb_DefPool_FindExtensionByNameWithSize D s name size = NULL) := by
  refine ⟨?_, ?_, ?_, ?_, ?_⟩
  · intro v hv ht
    simp [upb_DefPool_FindExtensionByNameWithSize, hv, _upb_DefType_Type, _upb_DefType_Unpack,
      UPB_DEFTYPE_FIELD, ht]
  · intro v hv ht hset
    simp [upb_DefPool_FindExtensionByNameWithSize, hv, _upb_DefType_Type, _upb_DefType_Unpack,
      UPB_DEFTYPE_FIELD, ht, hset]
  · intro hv
    simp [upb_DefPool_FindExtensionByNameWithSize, hv]
  · intro v hv ht hset
    simp [upb_DefPool_FindExtensionByNameWithSize, hv, _upb_DefType_Type, _upb_DefType_Unpack,
      UPB_DEFTYPE_FIELD, ht, hset]
  · intro v hv ht
    rcases ht with ht | ht | ht <;>
      simp [upb_DefPool_FindExtensionByNameWithSize, hv, _upb_DefType_Type,
        _upb_DefType_Unpack, UPB_DEFTYPE_FIELD, ht]

/-- Witness of C9: `pkg.ext` is bound to the extension field 24, and the message `pkg.Foo`,
which is no message-set container, yields NULL. -/
theorem C9_extension_by_name_witness :
    upb_strtable_lookup2 poolExt.syms "pkg.ext".toList 7 =
      some { ptr := 24, type := UPB_DEFTYPE_EXT } ∧
    upb_DefPool_FindExtensionByNameWithSize D0 poolExt "pkg.ext".toList 7 = 24 ∧
    upb_DefPool_FindExtensionByNameWithSize D0 poolFoo "pkg.Foo".toList 7 = NULL :=
  ⟨by decide,
   (C9_extension_by_name D0 poolExt "pkg.ext".toList 7).1
     { ptr := 24, type := UPB_DEFTYPE_EXT } (by decide) rfl,
   (C9_extension_by_name D0 poolFoo "pkg.Foo".toList 7).2.2.2.1
     { ptr := 16, type := UPB_DEFTYPE_MSG } (by decide) rfl rfl⟩

/-- C10: resolution by name and by number converge. For an extension field `f` bound under its
qualified name as a Field tagged as Extension, indexed in the Extension Index under the
non-null identity `e`, where the registry maps (layout of `f`'s containing message, `f`'s
number) to `e`, both `upb_DefPool_FindExtensionByName` and `upb_DefPool_FindExtensionByNumber`
return `f` (the latter without failing its assertion). -/
theorem C10_extension_name_number_converge (D : Defs) (s : upb_DefPool) (qname : List Char)
    (f e : Ptr)
    (hsym : upb_strtable_lookup s.syms qname = some { ptr := f, type := UPB_DEFTYPE_EXT })
    (hidx : upb_inttable_lookup s.exts e = some f)
    (he : e ≠ NULL)
    (hreg : _upb_extreg_get s.extreg
      (D.upb_MessageDef_MiniTable (D.upb_FieldDef_ContainingType f))
      (D.upb_FieldDef_Number f) = e) :
    upb_DefPool_FindExtensionByName D s qname = f ∧
    upb_DefPool_FindExtensionByNumber D s (D.upb_FieldDef_ContainingType f)
      (D.upb_FieldDef_Number f) = some f := by
  constructor
  · have h2 : upb_strtable_lookup2 s.syms qname (strlen qname) =
        some { ptr := f, type := UPB_DEFTYPE_EXT } := hsym
    simp [upb_DefPool_FindExtensionByName, upb_DefPool_FindExtensionByNameWithSize, h2,
      _upb_DefType_Type, _upb_DefType_Unpack, UPB_DEFTYPE_FIELD]
  · simp [upb_DefPool_FindExtensionByNumber, hreg, he, _upb_DefPool_FindExtensionByMiniTable,
      hidx]

/-- Witness of C10: the extension field 24 (`pkg.ext`, number 1000 of message 16). -/
theorem C10_extension_name_number_converge_witness :
    upb_strtable_lookup poolExt.syms "pkg.ext".toList =
      some { ptr := 24, type := UPB_DEFTYPE_EXT } ∧
    upb_DefPool_FindExtensionByName D0 poolExt "pkg.ext".toList = 24 ∧
    upb_DefPool_FindExtensionByNumber D0 poolExt (D0.upb_FieldDef_ContainingType 24)
      (D0.upb_FieldDef_Number 24) = some 24 :=
  ⟨by decide,
   C10_extension_name_number_converge D0 poolExt "pkg.ext".toList 24 32
     (by decide) (by decide) (by decide) (by decide)⟩

/-! ## Supporting results on the transaction -/

theorem run_actions_syms (s : upb_DefPool) (as : List BuildAction) :
    (run_actions s as).syms.entries = s.syms.entries ++ (inserted_syms as).map some := by
  induction as generalizing s with
  | nil => simp [run_actions, inserted_syms]
  | cons a rest ih =>
    cases a with
    | Insert2 sym size v =>
      simp [run_actions, inserted_syms, ih, BuildAction.apply, _upb_DefPool_Insert2,
        upb_strtable_insert]
    | InsertExt ext f =>
      simp [run_actions, inserted_syms, ih, BuildAction.apply, _upb_DefPool_InsertExt]
    | ExtRegAdd l num ext =>
      simp [run_actions, inserted_syms, ih, BuildAction.apply]

theorem run_actions_exts (s : upb_DefPool) (as : List BuildAction) :
    (run_actions s as).exts.entries = s.exts.entries ++ (inserted_exts as).map some := by
  induction as generalizing s with
  | nil => simp [run_actions, inserted_exts]
  | cons a rest ih =>
    cases a with
    | Insert2 sym size v =>
      simp [run_actions, inserted_exts, ih, BuildAction.apply, _upb_DefPool_Insert2]
    | InsertExt ext f =>
      simp [run_actions, inserted_exts, ih, BuildAction.apply, _upb_DefPool_InsertExt,
        upb_inttable_insert]
    | ExtRegAdd l num ext =>
      simp [run_actions, inserted_exts, ih, BuildAction.apply]

theorem map_clear_of_not_owned (D : Defs) (file : Ptr)
    (l : List (Option (List Char × upb_value)))
    (h : ∀ k v, some (k, v) ∈ l → def_file D v ≠ file) :
    l.map (clear_slot D file) = l := by
  induction l with
  | nil => rfl
  | cons x xs ih =>
    have ih2 := ih (fun k v hm => h k v (List.mem_cons_of_mem _ hm))
    cases x with
    | none => simp only [List.map_cons, clear_slot, ih2]
    | some kv =>
      obtain ⟨k, v⟩ := kv
      have hne := h k v (List.mem_cons_self _ _)
      simp only [List.map_cons, clear_slot, hne, if_false, ih2]

theorem map_clear_of_owned (D : Defs) (file : Ptr) (l : List (List Char × upb_value))
    (h : ∀ kv ∈ l, def_file D kv.2 = file) :
    (l.map some).map (clear_slot D file) = l.map (fun _ => none) := by
  induction l with
  | nil => rfl
  | cons x xs ih =>
    obtain ⟨k, v⟩ := x
    have hx : def_file D v = file := h (k, v) (List.mem_cons_self _ _)
    simp only [List.map_cons, clear_slot, hx, if_true,
      ih (fun kv hm => h kv (List.mem_cons_of_mem _ hm))]

theorem find_all_none {κ α : Type} [DecidableEq κ] (key : κ) (l : List (Option (κ × α)))
    (h : ∀ x ∈ l, x = none) : upb_table.find key l = none := by
  induction l with
  | nil => rfl
  | cons x xs ih =>
    have hx : x = none := h x (List.mem_cons_self _ _)
    subst hx
    simp only [upb_table.find]
    exact ih (fun y hy => h y (List.mem_cons_of_mem _ hy))

theorem find_map_some_of_nodup {κ α : Type} [DecidableEq κ] (l : List (κ × α)) (k : κ)
    (v : α) (hmem : (k, v) ∈ l) (hnodup : (l.map Prod.fst).Nodup) :
    upb_table.find k (l.map some) = some v := by
  induction l with
  | nil => simp at hmem
  | cons x xs ih =>
    obtain ⟨k0, v0⟩ := x
    simp only [List.map_cons, List.nodup_cons] at hnodup
    rcases List.mem_cons.mp hmem with heq | hin
    · simp only [Prod.mk.injEq] at heq
      obtain ⟨rfl, rfl⟩ := heq
      simp [upb_table.find]
    · have hne : k0 ≠ k := by
        rintro rfl
        exact hnodup.1 (List.mem_map.mpr ⟨(k0, v), hin, rfl⟩)
      simp only [List.map_cons, upb_table.find, hne, if_false]
      exact ih hin hnodup.2

/-- The part of the rollback that works. When the builders unwind after having created the
file, every symbol they inserted being owned by that file and no earlier symbol being owned by
it, the call leaves the bindings of the Symbol Table, the File Table and the byte counter as
they were; the Extension Index keeps every binding the failed build inserted. -/
theorem AddFile_rollback_restores (D : Defs) (W : World) (s : upb_DefPool)
    (file_proto : google_protobuf_FileDescriptorProto) (layout : Ptr) (status : upb_Status)
    (a b : upb_Arena) (msg : List Char)
    (hnew : upb_strtable_lookup2 s.files file_proto.name.data file_proto.name.size = none)
    (ha : W.ctx_arena s file_proto = some a) (hb : W.ctx_tmp_arena s file_proto = some b)
    (herr : (W._upb_FileDef_Create s file_proto layout).err = some msg)
    (hfile : (W._upb_FileDef_Create s file_proto layout).file ≠ NULL)
    (hown : ∀ kv ∈ inserted_syms (W._upb_FileDef_Create s file_proto layout).actions,
      def_file D kv.2 = (W._upb_FileDef_Create s file_proto layout).file)
    (hfresh : ∀ k v, some (k, v) ∈ s.syms.entries →
      def_file D v ≠ (W._upb_FileDef_Create s file_proto layout).file) :
    ∃ r, _upb_DefPool_AddFile D W s file_proto layout status = some r ∧
      r.ret = NULL ∧ r.status = { ok := false, msg := msg } ∧
      r.pool.syms.bindings = s.syms.bindings ∧
      (∀ key, upb_table.find key r.pool.syms.entries = upb_table.find key s.syms.entries) ∧
      r.pool.files = s.files ∧ r.pool.bytes_loaded = s.bytes_loaded ∧
      r.pool.exts.entries = s.exts.entries ++
        (inserted_exts (W._upb_FileDef_Create s file_proto layout).actions).map some := by
  have hentries : (remove_filedef D
      (run_actions s (W._upb_FileDef_Create s file_proto layout).actions)
      (W._upb_FileDef_Create s file_proto layout).file).syms.entries =
      s.syms.entries ++
        (inserted_syms (W._upb_FileDef_Create s file_proto layout).actions).map
          (fun _ => none) := by
    rw [remove_filedef_syms, run_actions_syms, List.map_append,
      map_clear_of_not_owned D _ _ hfresh, map_clear_of_owned D _ _ hown]
  refine ⟨{ ret := NULL,
            pool := remove_filedef D
              (run_actions s (W._upb_FileDef_Create s file_proto layout).actions)
              (W._upb_FileDef_Create s file_proto layout).file,
            status := upb_Status_SetErrorFormat status msg }, ?_, rfl, rfl, ?_, ?_, ?_, ?_, ?_⟩
  · simp only [_upb_DefPool_AddFile, hnew, ha, hb, herr, upb_Status_IsOk,
      upb_Status_SetErrorFormat]
    simp [hfile]
  · simp only [upb_table.bindings, hentries, List.filterMap_append]
    have : List.filterMap id
        ((inserted_syms (W._upb_FileDef_Create s file_proto layout).actions).map
          (fun _ => (none : Option (List Char × upb_value)))) = [] := by
      rw [List.filterMap_eq_nil_iff]
      intro x hx
      obtain ⟨y, -, rfl⟩ := List.mem_map.mp hx
      rfl
    rw [this, List.append_nil]
  · intro key
    have hn : upb_table.find key
        ((inserted_syms (W._upb_FileDef_Create s file_proto layout).actions).map
          (fun _ => (none : Option (List Char × upb_value)))) = none :=
      find_all_none key _ (fun x hx => by
        obtain ⟨y, -, rfl⟩ := List.mem_map.mp hx
        rfl)
    rw [hentries, find_append, hn]
    cases upb_table.find key s.syms.entries <;> rfl
  · show (run_actions s _).files = s.files
    exact run_actions_files _ _
  · show (run_actions s _).bytes_loaded = s.bytes_loaded
    exact run_actions_bytes_loaded _ _
  · show (run_actions s _).exts.entries = _
    exact run_actions_exts _ _

/-- What a successful add whose File Table insert could allocate leaves behind: the file is
registered under its name; the File Table grew by that one entry; every earlier binding of the
Symbol Table and of the File Table is still there; and every symbol the builders inserted is
bound to its tagged reference, provided the builders kept to their side of the insert contract
(the inserted names are pairwise distinct and were not bound before). -/
theorem AddFile_success_visible (D : Defs) (W : World) (s : upb_DefPool)
    (file_proto : google_protobuf_FileDescriptorProto) (layout : Ptr) (status : upb_Status)
    (r : AddFileResult) (a : upb_Arena)
    (h : _upb_DefPool_AddFile D W s file_proto layout status = some r) (hret : r.ret ≠ NULL)
    (ha : W.ctx_arena s file_proto = some a) (hok : a.alloc_ok = true) :
    upb_strtable_lookup2 r.pool.files file_proto.name.data file_proto.name.size =
      some r.ret ∧
    r.pool.files.entries = s.files.entries ++ [some (file_proto.name.chars, r.ret)] ∧
    (∀ key f, upb_table.find key s.files.entries = some f →
      upb_table.find key r.pool.files.entries = some f) ∧
    (∀ key v, upb_table.find key s.syms.entries = some v →
      upb_table.find key r.pool.syms.entries = some v) ∧
    (((inserted_syms (W._upb_FileDef_Create s file_proto layout).actions).map
        Prod.fst).Nodup →
      (∀ kv ∈ inserted_syms (W._upb_FileDef_Create s file_proto layout).actions,
        upb_table.find kv.1 s.syms.entries = none) →
      ∀ kv ∈ inserted_syms (W._upb_FileDef_Create s file_proto layout).actions,
        upb_table.find kv.1 r.pool.syms.entries = some kv.2) := by
  have hreg := AddFile_registers D W s file_proto layout status r a h hret ha hok
  obtain ⟨hnew, ⟨a1, ha1, hpool⟩, -, hfile, -, -⟩ :=
    AddFile_nonnull D W s file_proto layout status r h hret
  rw [ha] at ha1
  simp only [Option.some.injEq] at ha1
  subst ha1
  have hfiles : r.pool.files.entries =
      s.files.entries ++ [some (file_proto.name.chars, r.ret)] := by
    rw [hpool, hfile]
    simp [upb_strtable_insert, hok, run_actions_files, upb_StringView.chars]
  have hsyms : r.pool.syms.entries = s.syms.entries ++
      (inserted_syms (W._upb_FileDef_Create s file_proto layout).actions).map some := by
    rw [hpool]
    exact run_actions_syms _ _
  refine ⟨hreg, hfiles, ?_, ?_, ?_⟩
  · intro key f hf
    rw [hfiles, find_append, hf]
  · intro key v hv
    rw [hsyms, find_append, hv]
  · intro hnodup hunbound kv hkv
    rw [hsyms, find_append, hunbound kv hkv]
    exact find_map_some_of_nodup _ kv.1 kv.2 hkv hnodup

/-- The four ways in which `_upb_DefPool_AddFile` returns: without having changed the pool
(duplicate name, or an arena that could not be created); after the rollback of a failed build
that had created its file; after a failed build that had not; after a successful build, with the
File Table insert applied. -/
theorem AddFile_cases (D : Defs) (W : World) (s : upb_DefPool)
    (file_proto : google_protobuf_FileDescriptorProto) (layout : Ptr) (status : upb_Status)
    (r : AddFileResult) (h : _upb_DefPool_AddFile D W s file_proto layout status = some r) :
    (r.ret = NULL ∧ r.pool = s) ∨
    (r.ret = NULL ∧ (W._upb_FileDef_Create s file_proto layout).file ≠ NULL ∧
      (W._upb_FileDef_Create s file_proto layout).err ≠ none ∧
      r.pool = remove_filedef D
        (run_actions s (W._upb_FileDef_Create s file_proto layout).actions)
        (W._upb_FileDef_Create s file_proto layout).file) ∨
    (r.ret = NULL ∧ (W._upb_FileDef_Create s file_proto layout).file = NULL ∧
      (W._upb_FileDef_Create s file_proto layout).err ≠ none ∧
      r.pool = run_actions s (W._upb_FileDef_Create s file_proto layout).actions) ∨
    (r.ret = (W._upb_FileDef_Create s file_proto layout).file ∧
      (W._upb_FileDef_Create s file_proto layout).err = none ∧
      upb_strtable_lookup2 s.files file_proto.name.data file_proto.name.size = none ∧
      ∃ a, W.ctx_arena s file_proto = some a ∧
        r.pool = { (run_actions s (W._upb_FileDef_Create s file_proto layout).actions) with
          files := (upb_strtable_insert
            (run_actions s (W._upb_FileDef_Create s file_proto layout).actions).files
            file_proto.name.data file_proto.name.size
            (W._upb_FileDef_Create s file_proto layout).file a).2 }) := by
  unfold _upb_DefPool_AddFile at h
  simp only at h
  split at h
  · simp only [Option.some.injEq] at h
    subst h
    exact Or.inl ⟨rfl, rfl⟩
  · rename_i hnew
    split at h
    · rename_i a b ha hb
      split at h
      · rename_i msg herr
        split at h
        · simp at h
        · split at h
          · rename_i hfile
            simp only [Option.some.injEq] at h
            subst h
            exact Or.inr (Or.inl ⟨rfl, hfile, by simp [herr], rfl⟩)
          · rename_i hfile
            simp only [Option.some.injEq] at h
            subst h
            exact Or.inr (Or.inr (Or.inl ⟨rfl, by simpa using hfile, by simp [herr], rfl⟩))
      · rename_i herr
        split at h
        · simp only [Option.some.injEq] at h
          subst h
          exact Or.inr (Or.inr (Or.inr ⟨rfl, herr, hnew, a, ha, rfl⟩))
        · simp at h
    · split at h
      · simp at h
      · simp only [Option.some.injEq] at h
        subst h
        exact Or.inl ⟨rfl, rfl⟩

/-- With a status that is OK on entry no assertion of `_upb_DefPool_AddFile` fails: the call
returns. -/
theorem AddFile_returns (D : Defs) (W : World) (s : upb_DefPool)
    (file_proto : google_protobuf_FileDescriptorProto) (layout : Ptr) (status : upb_Status)
    (hok : status.ok = true) :
    ∃ r, _upb_DefPool_AddFile D W s file_proto layout status = some r := by
  unfold _upb_DefPool_AddFile
  simp only
  split
  · exact ⟨_, rfl⟩
  · split
    · split
      · simp only [upb_Status_IsOk, upb_Status_SetErrorFormat, Bool.false_eq_true, if_false]
        split <;> exact ⟨_, rfl⟩
      · simp only [upb_Status_IsOk, hok, if_true]
        exact ⟨_, rfl⟩
    · simp only [upb_Status_IsOk, _upb_DefBuilder_OomErr, upb_Status_SetErrorFormat,
        Bool.false_eq_true, if_false]
      exact ⟨_, rfl⟩

/-- Apart from the File Table insert that fails to allocate, `_upb_DefPool_AddFile` keeps files
from being partially visible, as long as the builders keep their side of the protocol. -/
theorem AddFile_keeps_FilesVisible (D : Defs) (W : World) (hW : BuildersKeepProtocol D W)
    (halloc : ∀ s file_proto a, W.ctx_arena s file_proto = some a → a.alloc_ok = true)
    (s : upb_DefPool) (file_proto : google_protobuf_FileDescriptorProto) (layout : Ptr)
    (status : upb_Status) (r : AddFileResult) (hs : FilesVisible D s)
    (h : _upb_DefPool_AddFile D W s file_proto layout status = some r) :
    FilesVisible D r.pool := by
  rcases AddFile_cases D W s file_proto layout status r h with
    ⟨-, hp⟩ | ⟨-, -, -, hp⟩ | ⟨-, hnull, -, hp⟩ | ⟨-, herr, hnew, a, ha, hp⟩
  · rw [hp]; exact hs
  · intro k v hmem
    rw [hp] at hmem ⊢
    rw [remove_filedef_syms, run_actions_syms] at hmem
    obtain ⟨hmem1, hne⟩ := mem_map_clear_slot D _ _ k v hmem
    show upb_table.find _ (run_actions s _).files.entries = _
    rw [run_actions_files]
    rcases List.mem_append.mp hmem1 with hold | hnew1
    · exact hs k v hold
    · obtain ⟨kv, hkv, hkveq⟩ := List.mem_map.mp hnew1
      simp only [Option.some.injEq] at hkveq
      subst hkveq
      exact absurd (hW.owns s file_proto layout _ hkv) hne
  · intro k v hmem
    rw [hp] at hmem ⊢
    rw [run_actions_syms, hW.created s file_proto layout hnull] at hmem
    rw [run_actions_files]
    simp only [List.map_nil, List.append_nil] at hmem
    exact hs k v hmem
  · intro k v hmem
    have hok := halloc s file_proto a ha
    have hfiles : r.pool.files.entries = s.files.entries ++
        [some (file_proto.name.chars, (W._upb_FileDef_Create s file_proto layout).file)] := by
      rw [hp]
      simp [upb_strtable_insert, hok, run_actions_files, upb_StringView.chars]
    have hsyms : r.pool.syms.entries = s.syms.entries ++
        (inserted_syms (W._upb_FileDef_Create s file_proto layout).actions).map some := by
      rw [hp]
      exact run_actions_syms _ _
    rw [hsyms] at hmem
    rw [hfiles, find_append]
    rcases List.mem_append.mp hmem with hold | hnew1
    · rw [hs k v hold]
    · obtain ⟨kv, hkv, hkveq⟩ := List.mem_map.mp hnew1
      simp only [Option.some.injEq] at hkveq
      subst hkveq
      rw [hW.owns s file_proto layout _ hkv, hW.named s file_proto layout herr]
      have hnone : upb_table.find file_proto.name.chars s.files.entries = none := hnew
      rw [hnone]
      simp [upb_table.find]

/-- A property of the pool that every `_upb_DefPool_AddFile` call made with a cleared status
keeps, and that does not depend on the byte counter, is kept by the dependency loop and by
`_upb_DefPool_LoadDefInitEx`, whenever they return. -/
theorem LoadDefInitEx_keeps (D : Defs) (W : World) (P : upb_DefPool → Prop)
    (hbytes : ∀ s n, P s → P { s with bytes_loaded := n })
    (hadd : ∀ s file_proto layout r, P s →
      _upb_DefPool_AddFile D W s file_proto layout upb_Status_Clear = some r → P r.pool)
    (fuel : Nat) :
    ∀ (s : upb_DefPool) (init : Ptr) (rebuild_minitable : Bool) (res : Bool × upb_DefPool),
      P s → _upb_DefPool_LoadDefInitEx D W fuel s init rebuild_minitable = some res →
      P res.2 := by
  induction fuel with
  | zero =>
    intro s init rb res _ h
    simp [_upb_DefPool_LoadDefInitEx] at h
  | succ fuel ih =>
    have hdeps : ∀ (ds : List Ptr) (s : upb_DefPool) (rb : Bool) (res : Bool × upb_DefPool),
        P s →
        load_deps (fun s0 d => _upb_DefPool_LoadDefInitEx D W fuel s0 d rb) s ds = some res →
        P res.2 := by
      intro ds
      induction ds with
      | nil =>
        intro s rb res hs h
        simp only [load_deps, Option.some.injEq] at h
        subst h
        exact hs
      | cons d ds ihd =>
        intro s rb res hs h
        simp only [load_deps] at h
        split at h
        · simp at h
        · rename_i s1 h1
          simp only [Option.some.injEq] at h
          subst h
          exact ih s d rb _ hs h1
        · rename_i s1 h1
          exact ihd s1 rb res (ih s d rb _ hs h1) h
    intro s init rb res hs h
    simp only [_upb_DefPool_LoadDefInitEx] at h
    split at h
    · simp only [Option.some.injEq] at h
      subst h
      exact hs
    · split at h
      · simp at h
      · rename_i s1 h1
        simp only [Option.some.injEq] at h
        subst h
        exact hdeps _ s rb _ hs h1
      · rename_i s1 h1
        have hs1 : P s1 := hdeps _ s rb _ hs h1
        split at h
        · simp only [Option.some.injEq] at h
          subst h
          exact hbytes _ _ hs1
        · rename_i file_proto hparse
          split at h
          · simp at h
          · rename_i r hr
            have hr2 : P r.pool := hadd _ _ _ r (hbytes _ _ hs1) hr
            split at h <;>
            · simp only [Option.some.injEq] at h
              subst h
              exact hr2

/-- Apart from the File Table insert that fails to allocate, `_upb_DefPool_LoadDefInit` keeps
files from being partially visible. -/
theorem LoadDefInit_keeps_FilesVisible (D : Defs) (W : World) (hW : BuildersKeepProtocol D W)
    (halloc : ∀ s file_proto a, W.ctx_arena s file_proto = some a → a.alloc_ok = true)
    (fuel : Nat) (s : upb_DefPool) (init : Ptr) (res : Bool × upb_DefPool)
    (hs : FilesVisible D s) (h : _upb_DefPool_LoadDefInit D W fuel s init = some res) :
    FilesVisible D res.2 :=
  LoadDefInitEx_keeps D W (FilesVisible D) (fun _ _ hP => hP)
    (fun s0 fp layout r hP hr =>
      AddFile_keeps_FilesVisible D W hW halloc s0 fp layout upb_Status_Clear r hP hr)
    fuel s init false res hs h

/-- A freshly created pool has no symbol at all. -/
theorem New_FilesVisible (D : Defs) (b1 b2 b3 b4 b5 : Bool) (s : upb_DefPool)
    (h : upb_DefPool_New b1 b2 b3 b4 b5 = some s) : FilesVisible D s := by
  unfold upb_DefPool_New at h
  split at h
  · simp at h
  · split at h
    · simp at h
    · split at h
      · simp at h
      · split at h
        · simp at h
        · split at h
          · simp at h
          · simp only [Option.some.injEq] at h
            subst h
            intro k v hmem
            simp [upb_table_init] at hmem

/-! ## Extension enumeration: the two passes -/

theorem rest_begin {κ α : Type} (t : upb_table κ α) :
    t.rest UPB_INTTABLE_BEGIN = t.bindings := by
  simp [upb_table.rest, upb_table.bindings, UPB_INTTABLE_BEGIN]

theorem filterMap_id_of_all_none {β : Type} (l : List (Option β)) (h : ∀ x ∈ l, x = none) :
    l.filterMap id = [] := by
  rw [List.filterMap_eq_nil_iff]
  intro x hx
  rw [h x hx]
  rfl

theorem rest_of_next2_none {κ α : Type} (t : upb_table κ α) (iter : Int)
    (h : upb_table_next2 t iter = none) : t.rest iter = [] :=
  filterMap_id_of_all_none _ (next2_eq_none t iter h)

theorem rest_of_next2_some {κ α : Type} (t : upb_table κ α) (iter : Int) (k : κ) (v : α)
    (iter1 : Int) (h : upb_table_next2 t iter = some (k, v, iter1)) :
    t.rest iter = (k, v) :: t.rest iter1 := by
  obtain ⟨pre, post, hE, hpre, hiter1, hle⟩ := next2_eq_some t iter k v iter1 h
  generalize hA : t.entries.take (iter + 1).toNat = A at hE
  have hAlen : A.length = (iter + 1).toNat := by
    rw [← hA, List.length_take]; omega
  have hn : (iter1 + 1).toNat = (A ++ pre).length + 1 := by
    rw [hiter1, List.length_append, hAlen]; omega
  have hdrop : t.entries.drop (iter + 1).toNat = pre ++ some (k, v) :: post := by
    conv_lhs => rw [hE]
    rw [← hAlen]; simp
  have hdrop1 : t.entries.drop (iter1 + 1).toNat = post := by
    rw [hn, hE, ← List.append_assoc]
    exact drop_length_succ_append _ _ _
  simp only [upb_table.rest, hdrop, hdrop1, List.filterMap_append,
    filterMap_id_of_all_none pre hpre, List.nil_append, List.filterMap_cons, id]

theorem GetAllExtensions_count_eq (D : Defs) (m : Ptr) (t : upb_inttable Ptr) (iter : Int)
    (n : Nat) :
    GetAllExtensions_count D m t iter n = n + (fields_of D m (t.rest iter)).length := by
  induction iter, n using GetAllExtensions_count.induct D m t with
  | case1 iter n hnext =>
    rw [GetAllExtensions_count]
    split
    · simp [rest_of_next2_none t iter hnext, fields_of]
    · rename_i h2; rw [hnext] at h2; simp at h2
  | case2 iter n key val iter1 hnext f hf ih =>
    rw [GetAllExtensions_count]
    split
    · rename_i h2; rw [hnext] at h2; simp at h2
    · rename_i k2 v2 i2 h2
      rw [hnext] at h2
      simp only [Option.some.injEq, Prod.mk.injEq] at h2
      obtain ⟨rfl, rfl, rfl⟩ := h2
      have hf2 : D.upb_FieldDef_ContainingType val = m := hf
      simp only [hf2, if_true]
      rw [ih, rest_of_next2_some t iter key val iter1 hnext]
      simp [fields_of, hf2]
      omega
  | case3 iter n key val iter1 hnext f hf ih =>
    rw [GetAllExtensions_count]
    split
    · rename_i h2; rw [hnext] at h2; simp at h2
    · rename_i k2 v2 i2 h2
      rw [hnext] at h2
      simp only [Option.some.injEq, Prod.mk.injEq] at h2
      obtain ⟨rfl, rfl, rfl⟩ := h2
      have hf2 : ¬ D.upb_FieldDef_ContainingType val = m := hf
      simp only [hf2, if_false]
      rw [ih, rest_of_next2_some t iter key val iter1 hnext]
      simp [fields_of, hf2]

theorem GetAllExtensions_fill_eq (D : Defs) (m : Ptr) (t : upb_inttable Ptr) (iter : Int)
    (exts : List (Option Ptr)) (i : Nat) :
    ∀ (done : List Ptr) (k : Nat), exts = done.map some ++ List.replicate k none →
      i = done.length → (fields_of D m (t.rest iter)).length ≤ k →
      GetAllExtensions_fill D m t iter exts i =
        some ((done ++ fields_of D m (t.rest iter)).map some ++
          List.replicate (k - (fields_of D m (t.rest iter)).length) none) := by
  induction iter, exts, i using GetAllExtensions_fill.induct D m t with
  | case1 iter exts i hnext =>
    intro done k hexts hi hk
    rw [GetAllExtensions_fill]
    split
    · simp [rest_of_next2_none t iter hnext, fields_of, hexts]
    · rename_i h2; rw [hnext] at h2; simp at h2
  | case2 iter exts i key val iter1 hnext f hf hlt ih =>
    intro done k hexts hi hk
    have hf2 : D.upb_FieldDef_ContainingType val = m := hf
    have hrest : fields_of D m (t.rest iter) = val :: fields_of D m (t.rest iter1) := by
      rw [rest_of_next2_some t iter key val iter1 hnext]
      simp [fields_of, hf2]
    rw [hrest] at hk ⊢
    simp only [List.length_cons] at hk
    obtain ⟨k1, rfl⟩ : ∃ k1, k = k1 + 1 := ⟨k - 1, by omega⟩
    rw [GetAllExtensions_fill]
    split
    · rename_i h2; rw [hnext] at h2; simp at h2
    · rename_i k2 v2 i2 h2
      rw [hnext] at h2
      simp only [Option.some.injEq, Prod.mk.injEq] at h2
      obtain ⟨rfl, rfl, rfl⟩ := h2
      simp only [hf2, if_true, hlt]
      have hset : exts.set i (some val) =
          (done ++ [val]).map some ++ List.replicate k1 none := by
        rw [hexts, hi, List.replicate_succ]
        have := set_length_append (done.map some) (none : Option Ptr) (some val)
          (List.replicate k1 none)
        rw [List.length_map] at this
        rw [this]
        simp
      rw [ih (done ++ [val]) k1 hset (by simp [hi]) (by omega)]
      simp
  | case3 iter exts i key val iter1 hnext f hf hlt =>
    intro done k hexts hi hk
    have hf2 : D.upb_FieldDef_ContainingType val = m := hf
    have hrest : fields_of D m (t.rest iter) = val :: fields_of D m (t.rest iter1) := by
      rw [rest_of_next2_some t iter key val iter1 hnext]
      simp [fields_of, hf2]
    rw [hrest] at hk
    simp only [List.length_cons] at hk
    exfalso
    apply hlt
    rw [hexts, hi]
    simp
    omega
  | case4 iter exts i key val iter1 hnext f hf ih =>
    intro done k hexts hi hk
    have hf2 : ¬ D.upb_FieldDef_ContainingType val = m := hf
    have hrest : fields_of D m (t.rest iter) = fields_of D m (t.rest iter1) := by
      rw [rest_of_next2_some t iter key val iter1 hnext]
      simp [fields_of, hf2]
    rw [hrest] at hk ⊢
    rw [GetAllExtensions_fill]
    split
    · rename_i h2; rw [hnext] at h2; simp at h2
    · rename_i k2 v2 i2 h2
      rw [hnext] at h2
      simp only [Option.some.injEq, Prod.mk.injEq] at h2
      obtain ⟨rfl, rfl, rfl⟩ := h2
      simp only [hf2, if_false]
      exact ih done k hexts hi hk

/-- The fill pass on an array without a free slot: it ends in a write outside the array as
soon as one field is left to write. -/
theorem GetAllExtensions_fill_overflow (D : Defs) (m : Ptr) (t : upb_inttable Ptr) (iter : Int)
    (exts : List (Option Ptr)) (i : Nat) :
    exts.length ≤ i → fields_of D m (t.rest iter) ≠ [] →
      GetAllExtensions_fill D m t iter exts i = none := by
  induction iter, exts, i using GetAllExtensions_fill.induct D m t with
  | case1 iter exts i hnext =>
    intro _ hne
    exact absurd (by simp [rest_of_next2_none t iter hnext, fields_of]) hne
  | case2 iter exts i key val iter1 hnext f hf hlt ih =>
    intro hle _
    omega
  | case3 iter exts i key val iter1 hnext f hf hlt =>
    intro _ _
    have hf2 : D.upb_FieldDef_ContainingType val = m := hf
    rw [GetAllExtensions_fill]
    split
    · rename_i h2; rw [hnext] at h2; simp at h2
    · rename_i k2 v2 i2 h2
      rw [hnext] at h2
      simp only [Option.some.injEq, Prod.mk.injEq] at h2
      obtain ⟨rfl, rfl, rfl⟩ := h2
      simp only [hf2, if_true, hlt, if_false]
  | case4 iter exts i key val iter1 hnext f hf ih =>
    intro hle hne
    have hf2 : ¬ D.upb_FieldDef_ContainingType val = m := hf
    have hrest : fields_of D m (t.rest iter) = fields_of D m (t.rest iter1) := by
      rw [rest_of_next2_some t iter key val iter1 hnext]
      simp [fields_of, hf2]
    rw [hrest] at hne
    rw [GetAllExtensions_fill]
    split
    · rename_i h2; rw [hnext] at h2; simp at h2
    · rename_i k2 v2 i2 h2
      rw [hnext] at h2
      simp only [Option.some.injEq, Prod.mk.injEq] at h2
      obtain ⟨rfl, rfl, rfl⟩ := h2
      simp only [hf2, if_false]
      exact ih hle hne

/-- When `malloc` succeeds, `upb_DefPool_GetAllExtensions` returns (no write of the fill pass
falls outside the array) a count equal to the number of Extension Index entries whose field has
containing type `m`, and an array of exactly that many slots, all of them written, holding the
fields of those entries, one per entry and in iteration order; every element has containing
type `m` and every field of the index with containing type `m` is an element. -/
theorem GetAllExtensions_spec (D : Defs) (s : upb_DefPool) (m : Ptr) :
    upb_DefPool_GetAllExtensions D s m true =
      some (some ((extensions_of D s m).map some), (extensions_of D s m).length) ∧
    (extensions_of D s m).length =
      (s.exts.bindings.filter
        (fun kv => decide (D.upb_FieldDef_ContainingType kv.2 = m))).length ∧
    extensions_of D s m =
      (s.exts.bindings.filter
        (fun kv => decide (D.upb_FieldDef_ContainingType kv.2 = m))).map Prod.snd ∧
    (∀ f ∈ extensions_of D s m, D.upb_FieldDef_ContainingType f = m) ∧
    (∀ e f, (e, f) ∈ s.exts.bindings → D.upb_FieldDef_ContainingType f = m →
      f ∈ extensions_of D s m) := by
  refine ⟨?_, ?_, rfl, ?_, ?_⟩
  · have hn : GetAllExtensions_count D m s.exts UPB_INTTABLE_BEGIN 0 =
        (extensions_of D s m).length := by
      rw [GetAllExtensions_count_eq, rest_begin]
      simp [extensions_of]
    have hfill := GetAllExtensions_fill_eq D m s.exts UPB_INTTABLE_BEGIN
      (List.replicate (extensions_of D s m).length none) 0 []
      (extensions_of D s m).length (by simp) rfl (by rw [rest_begin]; exact le_refl _)
    rw [rest_begin] at hfill
    simp only [upb_DefPool_GetAllExtensions, hn, if_true]
    rw [hfill]
    simp [extensions_of]
  · simp [extensions_of, fields_of]
  · intro f hf
    simp only [extensions_of, fields_of, List.mem_map, List.mem_filter] at hf
    obtain ⟨kv, ⟨-, hkv⟩, rfl⟩ := hf
    simpa using hkv
  · intro e f hmem hf
    simp only [extensions_of, fields_of, List.mem_map, List.mem_filter]
    exact ⟨(e, f), ⟨hmem, by simpa using hf⟩, rfl⟩

/-- When `malloc` fails and the message has at least one extension in the index, the fill pass
of `upb_DefPool_GetAllExtensions` writes through the null pointer. -/
theorem GetAllExtensions_malloc_fails (D : Defs) (s : upb_DefPool) (m : Ptr)
    (h : extensions_of D s m ≠ []) : upb_DefPool_GetAllExtensions D s m false = none := by
  have hfill := GetAllExtensions_fill_overflow D m s.exts UPB_INTTABLE_BEGIN [] 0
    (by simp) (by rw [rest_begin]; exact h)
  simp only [upb_DefPool_GetAllExtensions, Bool.false_eq_true, if_false, hfill]

/-- C11: evaluation at the failing input. In the pool whose Extension Index holds the extension
field 24 of message 16, `upb_DefPool_GetAllExtensions` for message 16 returns the array `[24]`
and the count 1 when `malloc` succeeds; when `malloc` returns `NULL` the count pass still finds
one extension and the fill pass writes `exts[0]` through the null pointer: no array is
returned. -/
theorem C11_malloc_unchecked :
    extensions_of D0 poolExt 16 = [24] ∧
    upb_DefPool_GetAllExtensions D0 poolExt 16 true = some (some [some 24], 1) ∧
    upb_DefPool_GetAllExtensions D0 poolExt 16 false = none :=
  ⟨by decide, (GetAllExtensions_spec D0 poolExt 16).1.trans (by decide),
   GetAllExtensions_malloc_fails D0 poolExt 16 (by decide)⟩

/-! ## Rollback as a restriction of the Symbol Table -/

theorem filterMap_clear_slot (D : Defs) (file : Ptr)
    (l : List (Option (List Char × upb_value))) :
    (l.map (clear_slot D file)).filterMap id =
      (l.filterMap id).filter (fun kv => decide (def_file D kv.2 ≠ file)) := by
  induction l with
  | nil => rfl
  | cons x xs ih =>
    cases x with
    | none => simpa [clear_slot] using ih
    | some kv =>
      obtain ⟨k, v⟩ := kv
      by_cases h : def_file D v = file
      · simpa [clear_slot, h] using ih
      · simpa [clear_slot, h] using ih

/-- C17: `remove_filedef` leaves the Symbol Table equal to the previous one restricted to the
entries whose owning file (the file back-reference of the entry's kind) differs from `file`:
the bindings after the scan are the bindings before it with those owned by `file` filtered out,
in the same order and with their values, so every entry owned by `file` is gone and every entry
owned by another file is kept; the File Table, the Extension Index, the registry and the byte
counter are untouched. -/
theorem C17_remove_filedef_restricts (D : Defs) (s : upb_DefPool) (file : Ptr) :
    (remove_filedef D s file).syms.bindings =
      s.syms.bindings.filter (fun kv => decide (def_file D kv.2 ≠ file)) ∧
    (∀ k v, (k, v) ∈ (remove_filedef D s file).syms.bindings → def_file D v ≠ file) ∧
    (∀ k v, (k, v) ∈ s.syms.bindings → def_file D v ≠ file →
      (k, v) ∈ (remove_filedef D s file).syms.bindings) ∧
    (remove_filedef D s file).files = s.files ∧
    (remove_filedef D s file).exts = s.exts ∧
    (remove_filedef D s file).extreg = s.extreg ∧
    (remove_filedef D s file).bytes_loaded = s.bytes_loaded := by
  have hb : (remove_filedef D s file).syms.bindings =
      s.syms.bindings.filter (fun kv => decide (def_file D kv.2 ≠ file)) := by
    simp only [upb_table.bindings, remove_filedef_syms, filterMap_clear_slot]
  refine ⟨hb, ?_, ?_, rfl, rfl, rfl, rfl⟩
  · intro k v hmem
    rw [hb, List.mem_filter] at hmem
    simpa using hmem.2
  · intro k v hmem hne
    rw [hb, List.mem_filter]
    exact ⟨hmem, by simpa using hne⟩

/-! ## Extension resolution by number -/

theorem extreg_get_mem (r : upb_ExtensionRegistry) (l : Ptr) (num : Int) (e : Ptr)
    (h : _upb_extreg_get r l num = e) (he : e ≠ NULL) : (l, num, e) ∈ r := by
  induction r with
  | nil => simp [_upb_extreg_get] at h; exact absurd h.symm he
  | cons x xs ih =>
    obtain ⟨l0, n0, e0⟩ := x
    simp only [_upb_extreg_get] at h
    split at h
    · rename_i hc
      obtain ⟨rfl, rfl⟩ := hc
      subst h
      exact List.mem_cons_self _ _
    · exact List.mem_cons_of_mem _ (ih h)

theorem mem_bindings {κ α : Type} (t : upb_table κ α) (k : κ) (v : α) :
    (k, v) ∈ t.bindings ↔ some (k, v) ∈ t.entries := by
  simp [upb_table.bindings, List.mem_filterMap]

/-- C18: `upb_DefPool_FindExtensionByNumber` returns NULL when the Extension Registry has no
extension identity for (layout of `m`, `n`); otherwise it returns what the Extension Index binds
to the identity the registry returned, a missing binding being the failure of the assertion of
`_upb_DefPool_FindExtensionByMiniTable` (`none`). With an index that binds field definitions
(non-null), NULL is returned exactly when the registry has no identity; and when every identity
held by the registry is a key of the Extension Index, the assertion never fails. -/
theorem C18_extension_by_number (D : Defs) (s : upb_DefPool) (m : Ptr) (n : Int) :
    (_upb_extreg_get s.extreg (D.upb_MessageDef_MiniTable m) n = NULL →
      upb_DefPool_FindExtensionByNumber D s m n = some NULL) ∧
    (_upb_extreg_get s.extreg (D.upb_MessageDef_MiniTable m) n ≠ NULL →
      upb_DefPool_FindExtensionByNumber D s m n =
        upb_inttable_lookup s.exts
          (_upb_extreg_get s.extreg (D.upb_MessageDef_MiniTable m) n) ∧
      upb_DefPool_FindExtensionByNumber D s m n =
        _upb_DefPool_FindExtensionByMiniTable s
          (_upb_extreg_get s.extreg (D.upb_MessageDef_MiniTable m) n)) ∧
    ((∀ e f, (e, f) ∈ s.exts.bindings → f ≠ NULL) →
      (upb_DefPool_FindExtensionByNumber D s m n = some NULL ↔
        _upb_extreg_get s.extreg (D.upb_MessageDef_MiniTable m) n = NULL)) ∧
    ((∀ l k e, (l, k, e) ∈ s.extreg → e ≠ NULL →
        ∃ f, upb_inttable_lookup s.exts e = some f) →
      ∃ f, upb_DefPool_FindExtensionByNumber D s m n = some f) := by
  have hmini : ∀ e, _upb_DefPool_FindExtensionByMiniTable s e = upb_inttable_lookup s.exts e := by
    intro e
    simp only [_upb_DefPool_FindExtensionByMiniTable]
    cases upb_inttable_lookup s.exts e <;> rfl
  refine ⟨?_, ?_, ?_, ?_⟩
  · intro h
    simp [upb_DefPool_FindExtensionByNumber, h]
  · intro h
    constructor
    · simp [upb_DefPool_FindExtensionByNumber, h, hmini]
    · simp [upb_DefPool_FindExtensionByNumber, h]
  · intro hnn
    constructor
    · intro hres
      by_contra hne
      simp only [upb_DefPool_FindExtensionByNumber, ne_eq, hne, not_false_eq_true, if_true,
        hmini] at hres
      have hmem := find_mem _ _ _ hres
      exact hnn _ NULL ((mem_bindings _ _ _).mpr hmem) rfl
    · intro h
      simp [upb_DefPool_FindExtensionByNumber, h]
  · intro hcons
    by_cases h : _upb_extreg_get s.extreg (D.upb_MessageDef_MiniTable m) n = NULL
    · exact ⟨NULL, by simp [upb_DefPool_FindExtensionByNumber, h]⟩
    · obtain ⟨f, hf⟩ := hcons _ _ _ (extreg_get_mem _ _ _ _ rfl h) h
      exact ⟨f, by simp [upb_DefPool_FindExtensionByNumber, h, hmini, hf]⟩

/-- Witness of C18: in the pool holding the extension field 24, the registry maps (layout 17,
number 1000) to the identity 32, which the Extension Index binds to 24. -/
theorem C18_extension_by_number_witness :
    _upb_extreg_get poolExt.extreg (D0.upb_MessageDef_MiniTable 16) 1000 ≠ NULL ∧
    upb_DefPool_FindExtensionByNumber D0 poolExt 16 1000 =
      upb_inttable_lookup poolExt.exts
        (_upb_extreg_get poolExt.extreg (D0.upb_MessageDef_MiniTable 16) 1000) ∧
    (∃ f, upb_DefPool_FindExtensionByNumber D0 poolExt 16 1000 = some f) :=
  ⟨by decide,
   ((C18_extension_by_number D0 poolExt 16 1000).2.1 (by decide)).1,
   (C18_extension_by_number D0 poolExt 16 1000).2.2.2 (by
     intro l k e hmem _
     simp only [poolExt, List.mem_singleton, Prod.mk.injEq] at hmem
     obtain ⟨-, -, rfl⟩ := hmem
     exact ⟨24, by decide⟩)⟩

/-! ## NUL-terminated and length-bounded finders -/

theorem strlen_of_NulFree (name : List Char) (h : NulFree name = true) :
    strlen name = name.length := by
  induction name with
  | nil => rfl
  | cons c cs ih =>
    simp only [NulFree, List.all_cons, Bool.and_eq_true, decide_eq_true_eq] at h
    simp only [strlen, h.1, if_false, List.length_cons]
    rw [ih (by simpa [NulFree] using h.2)]

theorem take_length_append {α : Type} (l1 l2 : List α) : (l1 ++ l2).take l1.length = l1 := by
  simp

/-- C20: for a NUL-free name every NUL-terminated finder returns what its length-bounded
counterpart returns for the name's full length (message, file, extension, service); and a
length-bounded finder called on a buffer with the length of an initial part of it looks up that
part, whatever bytes follow it. -/
theorem C20_terminated_and_bounded_finders (D : Defs) (s : upb_DefPool) (name : List Char)
    (h : NulFree name = true) :
    upb_DefPool_FindMessageByName s name =
      upb_DefPool_FindMessageByNameWithSize s name name.length ∧
    upb_DefPool_FindFileByName s name =
      upb_DefPool_FindFileByNameWithSize s name name.length ∧
    upb_DefPool_FindExtensionByName D s name =
      upb_DefPool_FindExtensionByNameWithSize D s name name.length ∧
    upb_DefPool_FindServiceByName s name =
      upb_DefPool_FindServiceByNameWithSize s name name.length ∧
    (∀ tail : List Char,
      upb_DefPool_FindMessageByNameWithSize s (name ++ tail) name.length =
        upb_DefPool_FindMessageByName s name ∧
      upb_DefPool_FindFileByNameWithSize s (name ++ tail) name.length =
        upb_DefPool_FindFileByName s name ∧
      upb_DefPool_FindExtensionByNameWithSize D s (name ++ tail) name.length =
        upb_DefPool_FindExtensionByName D s name ∧
      upb_DefPool_FindServiceByNameWithSize s (name ++ tail) name.length =
        upb_DefPool_FindServiceByName s name) ∧
    (∀ (buf1 buf2 : List Char) (len : Nat), buf1.take len = buf2.take len →
      upb_DefPool_FindMessageByNameWithSize s buf1 len =
        upb_DefPool_FindMessageByNameWithSize s buf2 len ∧
      upb_DefPool_FindFileByNameWithSize s buf1 len =
        upb_DefPool_FindFileByNameWithSize s buf2 len ∧
      upb_DefPool_FindExtensionByNameWithSize D s buf1 len =
        upb_DefPool_FindExtensionByNameWithSize D s buf2 len ∧
      upb_DefPool_FindServiceByNameWithSize s buf1 len =
        upb_DefPool_FindServiceByNameWithSize s buf2 len) := by
  have hlen := strlen_of_NulFree name h
  have hgen : ∀ (buf1 buf2 : List Char) (len : Nat), buf1.take len = buf2.take len →
      upb_DefPool_FindMessageByNameWithSize s buf1 len =
        upb_DefPool_FindMessageByNameWithSize s buf2 len ∧
      upb_DefPool_FindFileByNameWithSize s buf1 len =
        upb_DefPool_FindFileByNameWithSize s buf2 len ∧
      upb_DefPool_FindExtensionByNameWithSize D s buf1 len =
        upb_DefPool_FindExtensionByNameWithSize D s buf2 len ∧
      upb_DefPool_FindServiceByNameWithSize s buf1 len =
        upb_DefPool_FindServiceByNameWithSize s buf2 len := by
    intro buf1 buf2 len hb
    refine ⟨?_, ?_, ?_, ?_⟩ <;>
      simp only [upb_DefPool_FindMessageByNameWithSize, upb_DefPool_FindFileByNameWithSize,
        upb_DefPool_FindExtensionByNameWithSize, upb_DefPool_FindServiceByNameWithSize,
        _upb_DefPool_Lookup2, upb_strtable_lookup2, hb]
  have h1 : upb_DefPool_FindMessageByName s name =
      upb_DefPool_FindMessageByNameWithSize s name name.length := by
    simp only [upb_DefPool_FindMessageByName, _upb_DefPool_Lookup, hlen,
      upb_DefPool_FindMessageByNameWithSize]
  have h2 : upb_DefPool_FindFileByName s name =
      upb_DefPool_FindFileByNameWithSize s name name.length := by
    simp only [upb_DefPool_FindFileByName, upb_strtable_lookup, hlen,
      upb_DefPool_FindFileByNameWithSize]
  have h3 : upb_DefPool_FindExtensionByName D s name =
      upb_DefPool_FindExtensionByNameWithSize D s name name.length := by
    simp only [upb_DefPool_FindExtensionByName, hlen]
  have h4 : upb_DefPool_FindServiceByName s name =
      upb_DefPool_FindServiceByNameWithSize s name name.length := by
    simp only [upb_DefPool_FindServiceByName, _upb_DefPool_Lookup, hlen,
      upb_DefPool_FindServiceByNameWithSize]
  refine ⟨h1, h2, h3, h4, ?_, hgen⟩
  intro tail
  have ht : (name ++ tail).take name.length = name.take name.length := by simp
  obtain ⟨g1, g2, g3, g4⟩ := hgen (name ++ tail) name name.length ht
  exact ⟨g1.trans h1.symm, g2.trans h2.symm, g3.trans h3.symm, g4.trans h4.symm⟩

/-- Witness of C20: the name `pkg.Foo`, alone and followed by `.bar`. -/
theorem C20_terminated_and_bounded_finders_witness :
    NulFree "pkg.Foo".toList = true ∧
    upb_DefPool_FindMessageByName poolFoo "pkg.Foo".toList =
      upb_DefPool_FindMessageByNameWithSize poolFoo "pkg.Foo".toList "pkg.Foo".toList.length ∧
    upb_DefPool_FindMessageByNameWithSize poolFoo ("pkg.Foo".toList ++ ".bar".toList)
      "pkg.Foo".toList.length = upb_DefPool_FindMessageByName poolFoo "pkg.Foo".toList :=
  have h := C20_terminated_and_bounded_finders D0 poolFoo "pkg.Foo".toList (by decide)
  ⟨by decide, h.1, (h.2.2.2.2.1 ".bar".toList).1⟩

/-! ## Symbol Table insertion -/

/-- C16: for a name that is not yet bound, an insert that returns `true` makes the name
contained, bound to exactly `v` for `_upb_DefPool_LookupAny2`, and found by
`_upb_DefPool_Lookup2` exactly under `v`'s own tag; the bindings of all other keys, the File
Table, the Extension Index, the registry and the byte counter are unchanged.
`_upb_DefPool_Insert` is `_upb_DefPool_Insert2` with the name's length; on any pool and any name,
bound or not, the insert returns whether the allocation succeeded (no duplicate check), and an
insert that returns `false` leaves the pool as it was. -/
theorem C16_insert_then_lookup (s : upb_DefPool) (name : List Char) (v : upb_value)
    (arena : upb_Arena)
    (hnew : upb_strtable_lookup s.syms name = none)
    (hret : (_upb_DefPool_Insert s name v arena).1 = true) :
    _upb_DefPool_Insert s name v arena = _upb_DefPool_Insert2 s name (strlen name) v arena ∧
    _upb_DefPool_Contains (_upb_DefPool_Insert s name v arena).2 name = true ∧
    _upb_DefPool_LookupAny2 (_upb_DefPool_Insert s name v arena).2 name (strlen name) =
      some v ∧
    (∀ kind, _upb_DefPool_Lookup2 (_upb_DefPool_Insert s name v arena).2 name (strlen name)
      kind = if v.type = kind then v.ptr else NULL) ∧
    (∀ (other : List Char) (len : Nat), other.take len ≠ name.take (strlen name) →
      upb_strtable_lookup2 (_upb_DefPool_Insert s name v arena).2.syms other len =
        upb_strtable_lookup2 s.syms other len) ∧
    (_upb_DefPool_Insert s name v arena).2.files = s.files ∧
    (_upb_DefPool_Insert s name v arena).2.exts = s.exts ∧
    (_upb_DefPool_Insert s name v arena).2.extreg = s.extreg ∧
    (_upb_DefPool_Insert s name v arena).2.bytes_loaded = s.bytes_loaded ∧
    (∀ (s0 : upb_DefPool) (sym : List Char) (v0 : upb_value) (a : upb_Arena),
      (_upb_DefPool_Insert s0 sym v0 a).1 = a.alloc_ok ∧
      ((_upb_DefPool_Insert s0 sym v0 a).1 = false →
        (_upb_DefPool_Insert s0 sym v0 a).2 = s0)) := by
  have hok : arena.alloc_ok = true := by
    cases hk : arena.alloc_ok
    · simp [_upb_DefPool_Insert, _upb_DefPool_Insert2, upb_strtable_insert, hk] at hret
    · rfl
  have hentries : (_upb_DefPool_Insert s name v arena).2.syms.entries =
      s.syms.entries ++ [some (name.take (strlen name), v)] := by
    simp [_upb_DefPool_Insert, _upb_DefPool_Insert2, upb_strtable_insert, hok]
  have hnew2 : upb_table.find (name.take (strlen name)) s.syms.entries = none := hnew
  have hfind : upb_strtable_lookup2 (_upb_DefPool_Insert s name v arena).2.syms name
      (strlen name) = some v := by
    simp only [upb_strtable_lookup2, hentries, find_append, hnew2]
    simp [upb_table.find]
  refine ⟨rfl, ?_, hfind, ?_, ?_, ?_, ?_, ?_, ?_, ?_⟩
  · simp only [_upb_DefPool_Contains, upb_strtable_lookup, hfind, Option.isSome_some]
  · intro kind
    simp only [_upb_DefPool_Lookup2, hfind, _upb_DefType_Unpack]
  · intro other len hne
    simp only [upb_strtable_lookup2, hentries, find_append]
    cases upb_table.find (other.take len) s.syms.entries with
    | some x => rfl
    | none => simp [upb_table.find, Ne.symm hne]
  · simp [_upb_DefPool_Insert, _upb_DefPool_Insert2]
  · simp [_upb_DefPool_Insert, _upb_DefPool_Insert2]
  · simp [_upb_DefPool_Insert, _upb_DefPool_Insert2]
  · simp [_upb_DefPool_Insert, _upb_DefPool_Insert2]
  · intro s0 sym v0 a
    constructor
    · cases hk : a.alloc_ok <;>
        simp [_upb_DefPool_Insert, _upb_DefPool_Insert2, upb_strtable_insert, hk]
    · intro hfalse
      have hk : a.alloc_ok = false := by
        cases hk : a.alloc_ok
        · rfl
        · simp [_upb_DefPool_Insert, _upb_DefPool_Insert2, upb_strtable_insert, hk] at hfalse
      simp [_upb_DefPool_Insert, _upb_DefPool_Insert2, upb_strtable_insert, hk]

/-- Witness of C16: inserting the enum `pkg.Bar` into the pool that holds `pkg.Foo`. -/
theorem C16_insert_then_lookup_witness :
    upb_strtable_lookup poolFoo.syms "pkg.Bar".toList = none ∧
    _upb_DefPool_Contains
      (_upb_DefPool_Insert poolFoo "pkg.Bar".toList { ptr := 40, type := UPB_DEFTYPE_ENUM }
        { alloc_ok := true }).2 "pkg.Bar".toList = true ∧
    _upb_DefPool_LookupAny2
      (_upb_DefPool_Insert poolFoo "pkg.Bar".toList { ptr := 40, type := UPB_DEFTYPE_ENUM }
        { alloc_ok := true }).2 "pkg.Bar".toList (strlen "pkg.Bar".toList) =
      some { ptr := 40, type := UPB_DEFTYPE_ENUM } :=
  have h := C16_insert_then_lookup poolFoo "pkg.Bar".toList
    { ptr := 40, type := UPB_DEFTYPE_ENUM } { alloc_ok := true } (by decide) (by decide)
  ⟨by decide, h.2.1, h.2.2.1⟩

/-- Witness of C17: removing the file 8 from the pool that holds its message `pkg.Foo` leaves no
binding in the Symbol Table. -/
theorem C17_remove_filedef_restricts_witness :
    (remove_filedef D0 poolFoo 8).syms.bindings = [] :=
  (C17_remove_filedef_restricts D0 poolFoo 8).1.trans (by decide)

/-! ## The outcome of the transaction and of the loader -/

/-- C15: with a status that is OK on entry, and builders that have created the file whenever
they return normally, `_upb_DefPool_AddFile` returns, its result is NULL if and only if the
status is an error afterwards, and a File definition if and only if the status is still OK.
When the file name is new and the work arena or the scratch arena cannot be created, the result
is NULL, the status is the out-of-memory error, the pool is returned as it was, and the result
is the same whatever the builders are (they are never run). -/
theorem C15_null_iff_error (D : Defs) (W : World) (s : upb_DefPool)
    (file_proto : google_protobuf_FileDescriptorProto) (layout : Ptr) (status : upb_Status)
    (hok : status.ok = true)
    (hbuilt : (W._upb_FileDef_Create s file_proto layout).err = none →
      (W._upb_FileDef_Create s file_proto layout).file ≠ NULL) :
    ∃ r, _upb_DefPool_AddFile D W s file_proto layout status = some r ∧
      (r.ret = NULL ↔ r.status.ok = false) ∧
      (r.ret ≠ NULL ↔ r.status.ok = true) ∧
      (upb_strtable_lookup2 s.files file_proto.name.data file_proto.name.size = none →
        (W.ctx_arena s file_proto = none ∨ W.ctx_tmp_arena s file_proto = none) →
        r = { ret := NULL, pool := s,
              status := { ok := false, msg := "out of memory".toList } } ∧
        ∀ W1 : World, W1.ctx_arena s file_proto = W.ctx_arena s file_proto →
          W1.ctx_tmp_arena s file_proto = W.ctx_tmp_arena s file_proto →
          _upb_DefPool_AddFile D W1 s file_proto layout status = some r) := by
  have hoom : ∀ W1 : World,
      upb_strtable_lookup2 s.files file_proto.name.data file_proto.name.size = none →
      (W1.ctx_arena s file_proto = none ∨ W1.ctx_tmp_arena s file_proto = none) →
      _upb_DefPool_AddFile D W1 s file_proto layout status =
        some { ret := NULL, pool := s,
               status := { ok := false, msg := "out of memory".toList } } := by
    intro W1 hnew harena
    unfold _upb_DefPool_AddFile
    simp only [hnew]
    split
    · rename_i a b ha hb
      rcases harena with h | h
      · rw [h] at ha; simp at ha
      · rw [h] at hb; simp at hb
    · simp [upb_Status_IsOk, _upb_DefBuilder_OomErr, upb_Status_SetErrorFormat]
  obtain ⟨r, hr⟩ := AddFile_returns D W s file_proto layout status hok
  have hiff : r.ret = NULL ↔ r.status.ok = false := by
    have h := hr
    unfold _upb_DefPool_AddFile at h
    simp only at h
    split at h
    · simp only [Option.some.injEq] at h
      subst h
      simp [upb_Status_SetErrorFormat]
    · split at h
      · split at h
        · split at h
          · simp at h
          · split at h <;>
            · simp only [Option.some.injEq] at h
              subst h
              simp [upb_Status_SetErrorFormat]
        · rename_i herr
          split at h
          · simp only [Option.some.injEq] at h
            subst h
            simp [hok, hbuilt herr]
          · simp at h
      · split at h
        · simp at h
        · simp only [Option.some.injEq] at h
          subst h
          simp [_upb_DefBuilder_OomErr, upb_Status_SetErrorFormat]
  refine ⟨r, hr, hiff, ?_, ?_⟩
  · rw [ne_eq, hiff]
    cases r.status.ok <;> simp
  · intro hnew harena
    have h1 := hoom W hnew harena
    rw [hr] at h1
    simp only [Option.some.injEq] at h1
    refine ⟨h1, ?_⟩
    intro W1 ha hb
    rw [h1]
    apply hoom W1 hnew
    rcases harena with h | h
    · exact Or.inl (ha.trans h)
    · exact Or.inr (hb.trans h)

/-- Witness of C15: adding `a.proto` to a fresh pool with a cleared status and builders that
succeed. -/
theorem C15_null_iff_error_witness :
    upb_Status_Clear.ok = true ∧
    ∃ r, _upb_DefPool_AddFile D0 worldFoo pool0 protoA NULL upb_Status_Clear = some r ∧
      (r.ret = NULL ↔ r.status.ok = false) ∧ (r.ret ≠ NULL ↔ r.status.ok = true) :=
  ⟨rfl,
   (C15_null_iff_error D0 worldFoo pool0 protoA NULL upb_Status_Clear rfl
      (by decide)).imp (fun _ h => ⟨h.1, h.2.1, h.2.2.1⟩)⟩

/-- A load of a record whose file is found in the File Table returns `true` at once. -/
theorem LoadDefInitEx_present (D : Defs) (W : World) (fuel : Nat) (s : upb_DefPool)
    (init : Ptr) (rebuild_minitable : Bool)
    (h : upb_DefPool_FindFileByName s (W.init init).filename ≠ NULL) :
    _upb_DefPool_LoadDefInitEx D W (fuel + 1) s init rebuild_minitable = some (true, s) := by
  simp only [_upb_DefPool_LoadDefInitEx]
  rw [if_pos h]

/-- A load that returns `true` leaves the record's file findable by its file name, when the
decoded descriptor carries that file name and the File Table insert can allocate. -/
theorem LoadDefInitEx_true_present (D : Defs) (W : World)
    (halloc : ∀ s file_proto a, W.ctx_arena s file_proto = some a → a.alloc_ok = true)
    (fuel : Nat) (s : upb_DefPool) (init : Ptr) (rebuild_minitable : Bool) (s1 : upb_DefPool)
    (hname : ∀ file_proto, W.parse_ex (W.init init).descriptor = some file_proto →
      file_proto.name.chars = (W.init init).filename.take (strlen (W.init init).filename))
    (h : _upb_DefPool_LoadDefInitEx D W fuel s init rebuild_minitable = some (true, s1)) :
    upb_DefPool_FindFileByName s1 (W.init init).filename ≠ NULL := by
  cases fuel with
  | zero => simp [_upb_DefPool_LoadDefInitEx] at h
  | succ fuel =>
    simp only [_upb_DefPool_LoadDefInitEx] at h
    split at h
    · rename_i hp
      simp only [Option.some.injEq, Prod.mk.injEq, true_and] at h
      subst h
      exact hp
    · split at h
      · simp at h
      · simp at h
      · rename_i s2 h2
        split at h
        · simp at h
        · rename_i file_proto hparse
          split at h
          · simp at h
          · rename_i r hr
            split at h
            · rename_i hret
              simp only [Option.some.injEq, Prod.mk.injEq, true_and] at h
              subst h
              obtain ⟨-, ⟨a, ha, -⟩, -, -, -, -⟩ := AddFile_nonnull D W _ _ _ _ r hr hret
              have hreg := AddFile_registers D W _ _ _ _ r a hr hret ha (halloc _ _ a ha)
              simp only [upb_strtable_lookup2, ← hname file_proto hparse] at hreg ⊢
              simp only [upb_DefPool_FindFileByName, upb_strtable_lookup, upb_strtable_lookup2]
              have hc : upb_table.find
                  ((W.init init).filename.take (strlen (W.init init).filename))
                  r.pool.files.entries = some r.ret := by
                rw [← hname file_proto hparse]
                exact hreg
              rw [hc]
              exact hret
            · simp at h

/-- When the File Table already has the record's file name (bound to a File definition),
`_upb_DefPool_LoadDefInit` returns `true` and the pool unchanged, whatever the dependencies, the
decoder, the builders and the arenas are (none of them is consulted); a second load after a
first load that returned `true` returns `true` and leaves the whole pool, the File Table
included, as the first load left it, when every File Table insert can allocate and the
descriptor carries the record's file name. -/
theorem LoadDefInit_already_loaded (D : Defs) (W : World) (fuel : Nat) (s : upb_DefPool)
    (init : Ptr)
    (f : Ptr) (hpresent : upb_strtable_lookup s.files (W.init init).filename = some f)
    (hf : f ≠ NULL) :
    _upb_DefPool_LoadDefInit D W (fuel + 1) s init = some (true, s) ∧
    (∀ W1 : World, (W1.init init).filename = (W.init init).filename →
      _upb_DefPool_LoadDefInit D W1 (fuel + 1) s init = some (true, s)) ∧
    (∀ (fuel0 : Nat) (s0 s1 : upb_DefPool),
      (∀ s2 file_proto a, W.ctx_arena s2 file_proto = some a → a.alloc_ok = true) →
      (∀ file_proto, W.parse_ex (W.init init).descriptor = some file_proto →
        file_proto.name.chars =
          (W.init init).filename.take (strlen (W.init init).filename)) →
      _upb_DefPool_LoadDefInit D W fuel0 s0 init = some (true, s1) →
      _upb_DefPool_LoadDefInit D W (fuel + 1) s1 init = some (true, s1)) := by
  have hfind : ∀ W1 : World, (W1.init init).filename = (W.init init).filename →
      upb_DefPool_FindFileByName s (W1.init init).filename ≠ NULL := by
    intro W1 hW1
    simp only [upb_DefPool_FindFileByName, hW1, hpresent]
    exact hf
  refine ⟨?_, ?_, ?_⟩
  · exact LoadDefInitEx_present D W fuel s init false (hfind W rfl)
  · intro W1 hW1
    exact LoadDefInitEx_present D W1 fuel s init false (hfind W1 hW1)
  · intro fuel0 s0 s1 halloc hname h1
    exact LoadDefInitEx_present D W fuel s1 init false
      (LoadDefInitEx_true_present D W halloc fuel0 s0 init false s1 hname h1)

/-- A record for `a.proto` loaded into the pool that already holds `a.proto`. -/
theorem LoadDefInit_already_loaded_example :
    upb_strtable_lookup poolFoo.files (worldFooRec.init 1).filename = some 8 ∧
    _upb_DefPool_LoadDefInit D0 worldFooRec 1 poolFoo 1 = some (true, poolFoo) :=
  ⟨by decide,
   (LoadDefInit_already_loaded D0 worldFooRec 0 poolFoo 1 8 (by decide) (by decide)).1⟩

/-- C12: evaluation at the failing input. The record 1 is the file `a.proto`, without
dependencies and without declarations, with a descriptor of 7 bytes. A first
`_upb_DefPool_LoadDefInit` into a fresh pool returns `true` while the allocation made by the
File Table insert of its `_upb_DefPool_AddFile` call fails: the File Table is empty after it and
the byte counter is 7. A second load of the same record into the pool left by the first then
misses the already-loaded check, decodes the descriptor again (the byte counter is 14) and adds
the file again: it returns `true` and the File Table now binds `a.proto`, so its contents are
not those after loading once. -/
theorem C12_second_load_adds_again :
    _upb_DefPool_LoadDefInit D0 worldOnceOom 1 pool0 1 =
      some (true, { pool0 with bytes_loaded := 7 }) ∧
    _upb_DefPool_LoadDefInit D0 worldOnceOom 1 { pool0 with bytes_loaded := 7 } 1 =
      some (true, { pool0 with files := { entries := [some ("a.proto".toList, 112)] },
                               bytes_loaded := 14 }) := by
  decide

theorem load_deps_append (load : upb_DefPool → Ptr → Option (Bool × upb_DefPool))
    (s : upb_DefPool) (ds1 ds2 : List Ptr) :
    load_deps load s (ds1 ++ ds2) =
      match load_deps load s ds1 with
      | none => none
      | some (false, s1) => some (false, s1)
      | some (true, s1) => load_deps load s1 ds2 := by
  induction ds1 generalizing s with
  | nil => simp [load_deps]
  | cons d ds ih =>
    simp only [List.cons_append, load_deps]
    cases hd : load s d with
    | none => rfl
    | some res =>
      obtain ⟨b, s1⟩ := res
      cases b
      · rfl
      · exact ih s1

/-- The dependency loop returns `false` exactly when the load of some dependency returns
`false` after the loads of all the dependencies before it returned `true`; the pool is then the
one that failing load left, and the dependencies after it are not loaded. -/
theorem load_deps_false_iff (load : upb_DefPool → Ptr → Option (Bool × upb_DefPool))
    (s : upb_DefPool) (ds : List Ptr) (s1 : upb_DefPool) :
    load_deps load s ds = some (false, s1) ↔
      ∃ before d after sk, ds = before ++ d :: after ∧
        load_deps load s before = some (true, sk) ∧ load sk d = some (false, s1) := by
  induction ds generalizing s with
  | nil =>
    simp only [load_deps, Option.some.injEq, Prod.mk.injEq, Bool.true_eq_false, false_and,
      false_iff, not_exists, not_and]
    intro before d after sk h
    simp at h
  | cons d ds ih =>
    constructor
    · intro h
      simp only [load_deps] at h
      split at h
      · simp at h
      · rename_i s2 h2
        simp only [Option.some.injEq, Prod.mk.injEq, true_and] at h
        subst h
        exact ⟨[], d, ds, s, rfl, rfl, h2⟩
      · rename_i s2 h2
        obtain ⟨before, d1, after, sk, hds, hb, hd1⟩ := (ih s2).mp h
        refine ⟨d :: before, d1, after, sk, by simp [hds], ?_, hd1⟩
        simp only [load_deps, h2, hb]
    · rintro ⟨before, d1, after, sk, hds, hb, hd1⟩
      cases before with
      | nil =>
        simp only [List.nil_append, List.cons.injEq] at hds
        obtain ⟨rfl, rfl⟩ := hds
        simp only [load_deps, Option.some.injEq, Prod.mk.injEq, true_and] at hb
        subst hb
        simp only [load_deps, hd1]
      | cons b0 before =>
        simp only [List.cons_append, List.cons.injEq] at hds
        obtain ⟨rfl, rfl⟩ := hds
        simp only [load_deps] at hb
        split at hb
        · simp at hb
        · simp at hb
        · rename_i s2 h2
          simp only [load_deps, h2]
          exact (ih s2).mpr ⟨before, d1, after, sk, rfl, hb, hd1⟩

/-- One activation of `_upb_DefPool_LoadDefInitEx` for a record whose file is not found in the
File Table, in terms of the outcome of its dependency loop. -/
theorem LoadDefInitEx_absent (D : Defs) (W : World) (fuel : Nat) (s : upb_DefPool) (init : Ptr)
    (rebuild_minitable : Bool)
    (h : upb_DefPool_FindFileByName s (W.init init).filename = NULL) :
    _upb_DefPool_LoadDefInitEx D W (fuel + 1) s init rebuild_minitable =
      match load_deps (fun s0 d => _upb_DefPool_LoadDefInitEx D W fuel s0 d rebuild_minitable)
          s (W.init init).deps with
      | none => none
      | some (false, s1) => some (false, s1)
      | some (true, s1) =>
        match W.parse_ex (W.init init).descriptor with
        | none => some (false, { s1 with
            bytes_loaded := (s1.bytes_loaded + (W.init init).descriptor.size) % SIZE_MODULUS })
        | some file_proto =>
          match _upb_DefPool_AddFile D W
              { s1 with bytes_loaded :=
                  (s1.bytes_loaded + (W.init init).descriptor.size) % SIZE_MODULUS }
              file_proto (if rebuild_minitable then NULL else (W.init init).layout)
              upb_Status_Clear with
          | none => none
          | some r => if r.ret ≠ NULL then some (true, r.pool) else some (false, r.pool) := by
  simp only [_upb_DefPool_LoadDefInitEx]
  rw [if_neg (by simp [h])]

/-- A call of `_upb_DefPool_AddFile` that returns NULL leaves the File Table as it was. -/
theorem AddFile_null_files (D : Defs) (W : World) (s : upb_DefPool)
    (file_proto : google_protobuf_FileDescriptorProto) (layout : Ptr) (status : upb_Status)
    (r : AddFileResult) (h : _upb_DefPool_AddFile D W s file_proto layout status = some r)
    (hret : r.ret = NULL) (hbuilt : (W._upb_FileDef_Create s file_proto layout).err = none →
      (W._upb_FileDef_Create s file_proto layout).file ≠ NULL) :
    r.pool.files = s.files := by
  rcases AddFile_cases D W s file_proto layout status r h with
    ⟨-, hp⟩ | ⟨-, -, -, hp⟩ | ⟨-, -, -, hp⟩ | ⟨hr, herr, -, -, -, -⟩
  · rw [hp]
  · rw [hp]
    show (run_actions s _).files = s.files
    exact run_actions_files _ _
  · rw [hp]
    exact run_actions_files _ _
  · exact absurd (hr ▸ hret) (hbuilt herr)

/-- C14: for a record whose file is not found in the File Table, a returning
`_upb_DefPool_LoadDefInit` call returns `false` if and only if the load of some dependency
returned `false` (after the dependencies before it had loaded), or the record's descriptor
fails to decode, or its own `_upb_DefPool_AddFile` returns NULL. When a dependency fails, the
call returns the pool that the failing dependency load left: the dependent is neither decoded
nor added and its descriptor size is not counted. A call that returns `false` adds no File Table
entry of its own: the File Table is the one its dependency loop left. -/
theorem C14_load_failure (D : Defs) (W : World) (fuel : Nat) (s : upb_DefPool) (init : Ptr)
    (habsent : upb_DefPool_FindFileByName s (W.init init).filename = NULL)
    (hbuilt : ∀ s0 file_proto layout, (W._upb_FileDef_Create s0 file_proto layout).err = none →
      (W._upb_FileDef_Create s0 file_proto layout).file ≠ NULL) :
    (∀ s1, load_deps (fun s0 d => _upb_DefPool_LoadDefInit D W fuel s0 d) s
        (W.init init).deps = some (false, s1) →
      _upb_DefPool_LoadDefInit D W (fuel + 1) s init = some (false, s1)) ∧
    (∀ s1, load_deps (fun s0 d => _upb_DefPool_LoadDefInit D W fuel s0 d) s
        (W.init init).deps = some (false, s1) ↔
      ∃ before d after sk, (W.init init).deps = before ++ d :: after ∧
        load_deps (fun s0 d => _upb_DefPool_LoadDefInit D W fuel s0 d) s before =
          some (true, sk) ∧
        _upb_DefPool_LoadDefInit D W fuel sk d = some (false, s1)) ∧
    (∀ b s2, _upb_DefPool_LoadDefInit D W (fuel + 1) s init = some (b, s2) →
      (b = false ↔
        (∃ s1, load_deps (fun s0 d => _upb_DefPool_LoadDefInit D W fuel s0 d) s
          (W.init init).deps = some (false, s1)) ∨
        (∃ s1, load_deps (fun s0 d => _upb_DefPool_LoadDefInit D W fuel s0 d) s
            (W.init init).deps = some (true, s1) ∧
          (W.parse_ex (W.init init).descriptor = none ∨
           ∃ file_proto r, W.parse_ex (W.init init).descriptor = some file_proto ∧
            _upb_DefPool_AddFile D W
              { s1 with bytes_loaded :=
                  (s1.bytes_loaded + (W.init init).descriptor.size) % SIZE_MODULUS }
              file_proto (W.init init).layout upb_Status_Clear = some r ∧
            r.ret = NULL)))) ∧
    (∀ s2, _upb_DefPool_LoadDefInit D W (fuel + 1) s init = some (false, s2) →
      ∃ b s1, load_deps (fun s0 d => _upb_DefPool_LoadDefInit D W fuel s0 d) s
          (W.init init).deps = some (b, s1) ∧ s2.files = s1.files) := by
  have hstep := LoadDefInitEx_absent D W fuel s init false habsent
  have hL : ∀ s0, _upb_DefPool_LoadDefInit D W (fuel + 1) s0 init =
      _upb_DefPool_LoadDefInitEx D W (fuel + 1) s0 init false := fun _ => rfl
  have hdeps : load_deps (fun s0 d => _upb_DefPool_LoadDefInit D W fuel s0 d) s
      (W.init init).deps =
      load_deps (fun s0 d => _upb_DefPool_LoadDefInitEx D W fuel s0 d false) s
        (W.init init).deps := rfl
  simp only [Bool.false_eq_true, if_false] at hstep
  refine ⟨?_, ?_, ?_, ?_⟩
  · intro s1 h1
    rw [hL, hstep, ← hdeps, h1]
  · intro s1
    exact load_deps_false_iff _ s _ s1
  · intro b s2 hres
    rw [hL, hstep, ← hdeps] at hres
    cases hd : load_deps (fun s0 d => _upb_DefPool_LoadDefInit D W fuel s0 d) s
        (W.init init).deps with
    | none => rw [hd] at hres; simp at hres
    | some res =>
      obtain ⟨b1, s1⟩ := res
      rw [hd] at hres
      cases b1 with
      | false =>
        simp only [Option.some.injEq, Prod.mk.injEq] at hres
        obtain ⟨rfl, rfl⟩ := hres
        simp
      | true =>
        simp only at hres
        cases hp : W.parse_ex (W.init init).descriptor with
        | none =>
          rw [hp] at hres
          simp only [Option.some.injEq, Prod.mk.injEq] at hres
          obtain ⟨rfl, rfl⟩ := hres
          simp
        | some file_proto =>
          rw [hp] at hres
          simp only at hres
          split at hres
          · simp at hres
          · rename_i r hr
            split at hres
            · rename_i hret
              simp only [Option.some.injEq, Prod.mk.injEq] at hres
              obtain ⟨rfl, rfl⟩ := hres
              simp only [Bool.true_eq_false, false_iff, not_or, not_exists, not_and]
              refine ⟨fun x hx => by simp at hx, fun x hx => ?_⟩
              simp only [Option.some.injEq, Prod.mk.injEq, true_and] at hx
              subst hx
              refine ⟨by simp, fun fp r1 hfp hr1 => ?_⟩
              simp only [Option.some.injEq] at hfp
              subst hfp
              rw [hr] at hr1
              simp only [Option.some.injEq] at hr1
              subst hr1
              exact hret
            · rename_i hret
              simp only [Option.some.injEq, Prod.mk.injEq] at hres
              obtain ⟨rfl, rfl⟩ := hres
              simp only [true_iff]
              right
              exact ⟨s1, rfl, Or.inr ⟨file_proto, r, rfl, hr, by simpa using hret⟩⟩
  · intro s2 hres
    rw [hL, hstep, ← hdeps] at hres
    cases hd : load_deps (fun s0 d => _upb_DefPool_LoadDefInit D W fuel s0 d) s
        (W.init init).deps with
    | none => rw [hd] at hres; simp at hres
    | some res =>
      obtain ⟨b1, s1⟩ := res
      rw [hd] at hres
      refine ⟨b1, s1, rfl, ?_⟩
      cases b1 with
      | false =>
        simp only [Option.some.injEq, Prod.mk.injEq, true_and] at hres
        rw [hres]
      | true =>
        simp only at hres
        cases hp : W.parse_ex (W.init init).descriptor with
        | none =>
          rw [hp] at hres
          simp only [Option.some.injEq, Prod.mk.injEq, true_and] at hres
          rw [← hres]
        | some file_proto =>
          rw [hp] at hres
          simp only at hres
          split at hres
          · simp at hres
          · rename_i r hr
            split at hres
            · simp at hres
            · rename_i hret
              simp only [Option.some.injEq, Prod.mk.injEq, true_and] at hres
              rw [← hres]
              have hfiles := AddFile_null_files D W _ file_proto _ _ r hr
                (by simpa using hret) (hbuilt _ _ _)
              exact hfiles

/-- Witness of C14: the record of `a.proto` depends on the record of `b.proto`, whose build is
rejected; the load of `a.proto` returns `false`, nothing of `a.proto` is counted (the byte
counter holds the 7 bytes of `b.proto`) and the File Table stays empty. -/
theorem C14_load_failure_witness :
    upb_DefPool_FindFileByName pool0 (worldDepFails.init 1).filename = NULL ∧
    _upb_DefPool_LoadDefInit D0 worldDepFails 2 pool0 1 =
      some (false, { pool0 with bytes_loaded := 7 }) :=
  ⟨by decide,
   (C14_load_failure D0 worldDepFails 1 pool0 1 (by decide)
      (fun _ _ _ h => by simp [worldDepFails] at h)).1
     { pool0 with bytes_loaded := 7 } (by decide)⟩

/-! ## Termination of the loader -/

theorem DepPath_snoc (W : World) (p q d : Ptr) (h : DepPath W p q)
    (hd : d ∈ (W.init q).deps) : DepPath W p d := by
  induction h with
  | edge h1 => exact DepPath.step h1 (DepPath.edge hd)
  | step h1 _ ih => exact DepPath.step h1 (ih hd)

/-- The dependency loop returns when the load of each dependency returns on every pool. -/
theorem load_deps_returns (load : upb_DefPool → Ptr → Option (Bool × upb_DefPool))
    (ds : List Ptr) (h : ∀ d ∈ ds, ∀ s0, ∃ res, load s0 d = some res) (s : upb_DefPool) :
    ∃ res, load_deps load s ds = some res := by
  induction ds generalizing s with
  | nil => exact ⟨_, rfl⟩
  | cons d ds ih =>
    obtain ⟨res, hres⟩ := h d (List.mem_cons_self _ _) s
    obtain ⟨b, s1⟩ := res
    simp only [load_deps, hres]
    cases b
    · exact ⟨_, rfl⟩
    · exact ih (fun d1 hd1 => h d1 (List.mem_cons_of_mem _ hd1)) s1

/-- One more level of recursion suffices for a record when the present depth suffices for each
of its dependencies. -/
theorem LoadDefInitEx_returns_step (D : Defs) (W : World) (fuel : Nat) (init : Ptr)
    (rebuild_minitable : Bool)
    (h : ∀ d ∈ (W.init init).deps, ∀ s0,
      ∃ res, _upb_DefPool_LoadDefInitEx D W fuel s0 d rebuild_minitable = some res)
    (s : upb_DefPool) :
    ∃ res, _upb_DefPool_LoadDefInitEx D W (fuel + 1) s init rebuild_minitable = some res := by
  by_cases hp : upb_DefPool_FindFileByName s (W.init init).filename = NULL
  · rw [LoadDefInitEx_absent D W fuel s init rebuild_minitable hp]
    obtain ⟨res, hres⟩ := load_deps_returns
      (fun s0 d => _upb_DefPool_LoadDefInitEx D W fuel s0 d rebuild_minitable)
      (W.init init).deps h s
    obtain ⟨b, s1⟩ := res
    rw [hres]
    cases b
    · exact ⟨_, rfl⟩
    · simp only
      cases W.parse_ex (W.init init).descriptor with
      | none => exact ⟨_, rfl⟩
      | some file_proto =>
        simp only
        obtain ⟨r, hr⟩ := AddFile_returns D W
          { s1 with bytes_loaded :=
              (s1.bytes_loaded + (W.init init).descriptor.size) % SIZE_MODULUS }
          file_proto (if rebuild_minitable then NULL else (W.init init).layout)
          upb_Status_Clear rfl
        rw [hr]
        simp only
        split <;> exact ⟨_, rfl⟩
  · exact ⟨_, LoadDefInitEx_present D W fuel s init rebuild_minitable hp⟩

/-- Termination with a depth bound given by a rank that decreases along the dependency
edges. -/
theorem LoadDefInitEx_returns_of_rank (D : Defs) (W : World) (S : Ptr → Prop)
    (rank : Ptr → Nat)
    (hclosed : ∀ p, S p → ∀ d ∈ (W.init p).deps, S d)
    (hrank : ∀ p, S p → ∀ d ∈ (W.init p).deps, rank d < rank p)
    (rebuild_minitable : Bool) (fuel : Nat) :
    ∀ (init : Ptr), S init → rank init < fuel → ∀ s : upb_DefPool,
      ∃ res, _upb_DefPool_LoadDefInitEx D W fuel s init rebuild_minitable = some res := by
  induction fuel with
  | zero => intro init _ h; omega
  | succ fuel ih =>
    intro init hS hlt s
    apply LoadDefInitEx_returns_step
    intro d hd s0
    exact ih d (hclosed init hS d hd) (by have := hrank init hS d hd; omega) s0

/-- Termination with the number of files as depth bound, for a finite set of records without a
dependency cycle; `A` is the chain of records whose loads are in progress. -/
theorem LoadDefInitEx_returns_of_acyclic (D : Defs) (W : World) (S : List Ptr)
    (hclosed : ∀ p ∈ S, ∀ d ∈ (W.init p).deps, d ∈ S)
    (hacyclic : ∀ p ∈ S, ¬ DepPath W p p)
    (rebuild_minitable : Bool) (fuel : Nat) :
    ∀ (A : List Ptr) (init : Ptr), A.Nodup → (∀ a ∈ A, a ∈ S) →
      (∀ a ∈ A, DepPath W a init) → init ∈ S → S.length ≤ A.length + fuel →
      ∀ s : upb_DefPool,
        ∃ res, _upb_DefPool_LoadDefInitEx D W fuel s init rebuild_minitable = some res := by
  induction fuel with
  | zero =>
    intro A init hnd hA hpath hS hlen s
    exfalso
    have hnot : init ∉ A := fun hmem => hacyclic init hS (hpath init hmem)
    have hnd2 : (init :: A).Nodup := List.nodup_cons.mpr ⟨hnot, hnd⟩
    have hsub : init :: A ⊆ S := by
      intro x hx
      rcases List.mem_cons.mp hx with rfl | hx
      · exact hS
      · exact hA x hx
    have := (hnd2.subperm hsub).length_le
    simp only [List.length_cons] at this
    omega
  | succ fuel ih =>
    intro A init hnd hA hpath hS hlen s
    apply LoadDefInitEx_returns_step
    intro d hd s0
    have hnot : init ∉ A := fun hmem => hacyclic init hS (hpath init hmem)
    apply ih (init :: A) d (List.nodup_cons.mpr ⟨hnot, hnd⟩)
    · intro a ha
      rcases List.mem_cons.mp ha with rfl | ha
      · exact hS
      · exact hA a ha
    · intro a ha
      rcases List.mem_cons.mp ha with rfl | ha
      · exact DepPath.edge hd
      · exact DepPath_snoc W a init d (hpath a ha) hd
    · exact hclosed init hS d hd
    · simp only [List.length_cons]; omega

/-- A record that is not in the File Table and whose first dependency is itself: the load
does not return, whatever the depth allowed. -/
theorem LoadDefInitEx_self_dependency (D : Defs) (W : World) (s : upb_DefPool) (init : Ptr)
    (rebuild_minitable : Bool) (rest : List Ptr)
    (habsent : upb_DefPool_FindFileByName s (W.init init).filename = NULL)
    (hdeps : (W.init init).deps = init :: rest) (fuel : Nat) :
    _upb_DefPool_LoadDefInitEx D W fuel s init rebuild_minitable = none := by
  induction fuel with
  | zero => rfl
  | succ fuel ih =>
    rw [LoadDefInitEx_absent D W fuel s init rebuild_minitable habsent, hdeps]
    simp only [load_deps, ih]

/-- C19: for a set of records closed under `deps` whose dependency graph is acyclic, the load
of any of its records returns. The recursion depth is bounded by the depth of the graph: with a
rank that decreases along every dependency edge, a depth of `rank init + 1` suffices. Hence it
is bounded by the number of files: for a finite set without a dependency cycle, a depth equal to
the number of its records suffices. The already-loaded check alone does not bound the
recursion: a record that is not yet in the File Table and depends on itself is loaded without
end (no depth suffices), because it would enter the File Table only after its dependencies. -/
theorem C19_loader_terminates (D : Defs) (W : World) :
    (∀ (S : Ptr → Prop) (rank : Ptr → Nat),
      (∀ p, S p → ∀ d ∈ (W.init p).deps, S d) →
      (∀ p, S p → ∀ d ∈ (W.init p).deps, rank d < rank p) →
      ∀ (init : Ptr) (fuel : Nat), S init → rank init < fuel → ∀ s : upb_DefPool,
        ∃ res, _upb_DefPool_LoadDefInit D W fuel s init = some res) ∧
    (∀ (S : List Ptr),
      (∀ p ∈ S, ∀ d ∈ (W.init p).deps, d ∈ S) →
      (∀ p ∈ S, ¬ DepPath W p p) →
      ∀ (init : Ptr) (fuel : Nat), init ∈ S → S.length ≤ fuel → ∀ s : upb_DefPool,
        ∃ res, _upb_DefPool_LoadDefInit D W fuel s init = some res) ∧
    (∀ (s : upb_DefPool) (init : Ptr) (rest : List Ptr),
      upb_DefPool_FindFileByName s (W.init init).filename = NULL →
      (W.init init).deps = init :: rest →
      ∀ fuel : Nat, _upb_DefPool_LoadDefInit D W fuel s init = none) := by
  refine ⟨?_, ?_, ?_⟩
  · intro S rank hclosed hrank init fuel hS hlt s
    exact LoadDefInitEx_returns_of_rank D W S rank hclosed hrank false fuel init hS hlt s
  · intro S hclosed hacyclic init fuel hS hlen s
    exact LoadDefInitEx_returns_of_acyclic D W S hclosed hacyclic false fuel [] init
      List.nodup_nil (by simp) (by simp) hS (by simpa using hlen) s
  · intro s init rest habsent hdeps fuel
    exact LoadDefInitEx_self_dependency D W s init false rest habsent hdeps fuel

/-- Witness of C19: the chain A -> B -> C is loaded with a recursion depth of 3, its number of
files; the record that depends on itself is not loaded with a depth of 5. -/
theorem C19_loader_terminates_witness :
    (∃ res, _upb_DefPool_LoadDefInit D0 worldChain 3 pool0 1 = some res) ∧
    _upb_DefPool_LoadDefInit D0 worldCycle 5 pool0 1 = none :=
  ⟨(C19_loader_terminates D0 worldChain).1 (fun p => p = 1 ∨ p = 2 ∨ p = 3)
      (fun p => 3 - p)
      (by
        intro p hp d hd
        rcases hp with rfl | rfl | rfl <;> simp [worldChain] at hd <;> simp [hd])
      (by
        intro p hp d hd
        rcases hp with rfl | rfl | rfl <;> simp [worldChain] at hd <;> simp [hd])
      1 3 (Or.inl rfl) (by decide) pool0,
   (C19_loader_terminates D0 worldCycle).2.2 pool0 1 [] (by decide) rfl 5⟩

/-! ## The order in which the loader adds files -/

theorem DepPath_rank (W : World) (S : List Ptr) (rank : Ptr → Nat)
    (hW : WellFormedSet W S rank) (p q : Ptr) (h : DepPath W p q) (hp : p ∈ S) :
    rank q < rank p ∧ q ∈ S := by
  induction h with
  | edge h1 => exact ⟨hW.acyclic _ hp _ h1, hW.closed _ hp _ h1⟩
  | step h1 _ ih =>
    have h2 := ih (hW.closed _ hp _ h1)
    exact ⟨lt_trans h2.1 (hW.acyclic _ hp _ h1), h2.2⟩

theorem DepsFirst_concat (W : World) (l : List Ptr) (p : Ptr) (hl : DepsFirst W l)
    (hp : ∀ d ∈ (W.init p).deps, d ∈ l) : DepsFirst W (l ++ [p]) := by
  intro before q after heq d hd
  rcases List.eq_nil_or_concat after with rfl | ⟨after1, x, rfl⟩
  · have h2 : l ++ [p] = before ++ [q] := heq
    obtain ⟨h3, h4⟩ := List.append_inj' h2 rfl
    simp only [List.cons.injEq, and_true] at h4
    subst h3; subst h4
    exact hp d hd
  · have h2 : l ++ [p] = (before ++ q :: after1) ++ [x] := by
      rw [heq]; simp
    obtain ⟨h3, -⟩ := List.append_inj' h2 rfl
    exact hl before q after1 h3 d hd

theorem DepsFirst_deps_mem (W : World) (l : List Ptr) (hl : DepsFirst W l) (p : Ptr)
    (hp : p ∈ l) : ∀ d ∈ (W.init p).deps, d ∈ l := by
  intro d hd
  obtain ⟨before, after, rfl⟩ := List.append_of_mem hp
  exact List.mem_append_left _ (hl before p after rfl d hd)

theorem find_added_entries_none (W : World) (S : List Ptr) (rank : Ptr → Nat)
    (hW : WellFormedSet W S rank) (acc : List (Ptr × Ptr)) (hmem : ∀ x ∈ acc, x.1 ∈ S)
    (p : Ptr) (hp : p ∈ S) (hnot : p ∉ acc.map Prod.fst) :
    upb_table.find (init_key W p) (added_entries W acc) = none := by
  induction acc with
  | nil => rfl
  | cons x xs ih =>
    have hne : init_key W x.1 ≠ init_key W p := by
      intro heq
      apply hnot
      have := hW.distinct x.1 (hmem x (List.mem_cons_self _ _)) p hp heq
      simp [this]
    simp only [added_entries, List.map_cons, upb_table.find, hne, if_false]
    exact ih (fun y hy => hmem y (List.mem_cons_of_mem _ hy))
      (fun hin => hnot (by simp only [List.map_cons]; exact List.mem_cons_of_mem _ hin))

theorem find_added_entries_some (W : World) (acc : List (Ptr × Ptr))
    (hnull : ∀ x ∈ acc, x.2 ≠ NULL) (p : Ptr) (hin : p ∈ acc.map Prod.fst) :
    ∃ f, upb_table.find (init_key W p) (added_entries W acc) = some f ∧ f ≠ NULL := by
  induction acc with
  | nil => simp at hin
  | cons x xs ih =>
    by_cases hk : init_key W x.1 = init_key W p
    · exact ⟨x.2, by simp [added_entries, upb_table.find, hk],
        hnull x (List.mem_cons_self _ _)⟩
    · have hin2 : p ∈ xs.map Prod.fst := by
        simp only [List.map_cons, List.mem_cons] at hin
        rcases hin with rfl | hin
        · exact absurd rfl hk
        · exact hin
      obtain ⟨f, hf, hfn⟩ := ih (fun y hy => hnull y (List.mem_cons_of_mem _ hy)) hin2
      exact ⟨f, by
        simp only [added_entries, List.map_cons, upb_table.find, hk, if_false]
        exact hf, hfn⟩

/-- Under the invariant of a load in progress, the already-loaded check of a record of the set
answers whether the record is among the files added so far. -/
theorem LoadedSoFar_find (W : World) (S : List Ptr) (rank : Ptr → Nat)
    (hW : WellFormedSet W S rank) (s0 : upb_DefPool)
    (hnone : ∀ p ∈ S, upb_table.find (init_key W p) s0.files.entries = none)
    (acc : List (Ptr × Ptr)) (s : upb_DefPool) (hI : LoadedSoFar W S s0 acc s) (p : Ptr)
    (hp : p ∈ S) :
    (p ∉ acc.map Prod.fst →
      upb_table.find (init_key W p) s.files.entries = none ∧
      upb_DefPool_FindFileByName s (W.init p).filename = NULL) ∧
    (p ∈ acc.map Prod.fst →
      upb_DefPool_FindFileByName s (W.init p).filename ≠ NULL) := by
  have hfind : upb_table.find (init_key W p) s.files.entries =
      upb_table.find (init_key W p) (added_entries W acc) := by
    rw [hI.files, find_append, hnone p hp]
  constructor
  · intro hnot
    have h1 := find_added_entries_none W S rank hW acc (fun x hx => (hI.mem x hx).1) p hp hnot
    refine ⟨hfind.trans h1, ?_⟩
    simp only [upb_DefPool_FindFileByName, upb_strtable_lookup, upb_strtable_lookup2]
    have h2 : upb_table.find ((W.init p).filename.take (strlen (W.init p).filename))
        s.files.entries = none := hfind.trans h1
    rw [h2]
  · intro hin
    obtain ⟨f, hf, hfn⟩ := find_added_entries_some W acc (fun x hx => (hI.mem x hx).2) p hin
    simp only [upb_DefPool_FindFileByName, upb_strtable_lookup, upb_strtable_lookup2]
    have h2 : upb_table.find ((W.init p).filename.take (strlen (W.init p).filename))
        s.files.entries = some f := hfind.trans hf
    rw [h2]
    exact hfn

/-- The successful arm of `_upb_DefPool_AddFile`, computed. -/
theorem AddFile_success (D : Defs) (W : World) (s : upb_DefPool)
    (file_proto : google_protobuf_FileDescriptorProto) (layout : Ptr) (a b : upb_Arena)
    (hnew : upb_strtable_lookup2 s.files file_proto.name.data file_proto.name.size = none)
    (ha : W.ctx_arena s file_proto = some a) (hok : a.alloc_ok = true)
    (hb : W.ctx_tmp_arena s file_proto = some b)
    (herr : (W._upb_FileDef_Create s file_proto layout).err = none) :
    ∃ r, _upb_DefPool_AddFile D W s file_proto layout upb_Status_Clear = some r ∧
      r.ret = (W._upb_FileDef_Create s file_proto layout).file ∧
      r.pool.files.entries = s.files.entries ++
        [some (file_proto.name.chars, (W._upb_FileDef_Create s file_proto layout).file)] ∧
      r.pool.bytes_loaded = s.bytes_loaded := by
  refine ⟨{ ret := (W._upb_FileDef_Create s file_proto layout).file,
            pool := { (run_actions s (W._upb_FileDef_Create s file_proto layout).actions) with
              files := (upb_strtable_insert
                (run_actions s (W._upb_FileDef_Create s file_proto layout).actions).files
                file_proto.name.data file_proto.name.size
                (W._upb_FileDef_Create s file_proto layout).file a).2 },
            status := upb_Status_Clear }, ?_, rfl, ?_, ?_⟩
  · simp only [_upb_DefPool_AddFile, hnew, ha, hb, herr, upb_Status_IsOk, upb_Status_Clear,
      if_true]
  · simp [upb_strtable_insert, hok, run_actions_files, upb_StringView.chars]
  · exact run_actions_bytes_loaded _ _

theorem added_entries_append (W : World) (l1 l2 : List (Ptr × Ptr)) :
    added_entries W (l1 ++ l2) = added_entries W l1 ++ added_entries W l2 := by
  simp [added_entries]

theorem added_bytes_append (W : World) (l1 l2 : List (Ptr × Ptr)) :
    added_bytes W (l1 ++ l2) = added_bytes W l1 + added_bytes W l2 := by
  simp [added_bytes]

/-- The dependency loop over dependencies that each load as specified. -/
theorem load_deps_spec (W : World) (S : List Ptr) (s0 : upb_DefPool)
    (load : upb_DefPool → Ptr → Option (Bool × upb_DefPool)) (ds : List Ptr)
    (h : ∀ d ∈ ds, LoadsTo W S s0 load d) :
    ∀ s acc, LoadedSoFar W S s0 acc s →
      ∃ acc1 s1, load_deps load s ds = some (true, s1) ∧
        LoadedSoFar W S s0 (acc ++ acc1) s1 ∧
        (∀ d ∈ ds, d ∈ (acc ++ acc1).map Prod.fst) ∧
        (∀ x ∈ acc1, ∃ d ∈ ds, x.1 = d ∨ DepPath W d x.1) := by
  induction ds with
  | nil =>
    intro s acc hI
    exact ⟨[], s, rfl, by simpa using hI, by simp, by simp⟩
  | cons d ds ih =>
    intro s acc hI
    obtain ⟨acc1, s1, hload, hI1, hd, hreach1⟩ := h d (List.mem_cons_self _ _) s acc hI
    obtain ⟨acc2, s2, hrest, hI2, hds, hreach2⟩ :=
      ih (fun d1 hd1 => h d1 (List.mem_cons_of_mem _ hd1)) s1 (acc ++ acc1) hI1
    refine ⟨acc1 ++ acc2, s2, ?_, ?_, ?_, ?_⟩
    · simp only [load_deps, hload, hrest]
    · rw [← List.append_assoc]; exact hI2
    · intro d1 hd1
      rw [← List.append_assoc]
      rcases List.mem_cons.mp hd1 with rfl | hd1
      · rw [List.map_append]
        exact List.mem_append_left _ hd
      · exact hds d1 hd1
    · intro x hx
      rcases List.mem_append.mp hx with hx | hx
      · exact ⟨d, List.mem_cons_self _ _, hreach1 x hx⟩
      · obtain ⟨d1, hd1, hr⟩ := hreach2 x hx
        exact ⟨d1, List.mem_cons_of_mem _ hd1, hr⟩

/-- The load of a record of a well-formed set, with a depth above its rank, when no allocation
fails and no builder rejects a file. -/
theorem LoadDefInitEx_spec (D : Defs) (W : World) (S : List Ptr) (rank : Ptr → Nat)
    (hW : WellFormedSet W S rank) (hB : BuildsSucceed W S) (s0 : upb_DefPool)
    (hnone : ∀ p ∈ S, upb_table.find (init_key W p) s0.files.entries = none)
    (rebuild_minitable : Bool) (fuel : Nat) :
    ∀ p ∈ S, rank p < fuel →
      LoadsTo W S s0
        (fun s d => _upb_DefPool_LoadDefInitEx D W fuel s d rebuild_minitable) p := by
  induction fuel with
  | zero => intro p _ h; omega
  | succ fuel ih =>
    intro p hp hlt s acc hI
    by_cases hin : p ∈ acc.map Prod.fst
    · refine ⟨[], s, ?_, by simpa using hI, by simpa using hin, by simp⟩
      exact LoadDefInitEx_present D W fuel s p rebuild_minitable
        ((LoadedSoFar_find W S rank hW s0 hnone acc s hI p hp).2 hin)
    · have habsent := ((LoadedSoFar_find W S rank hW s0 hnone acc s hI p hp).1 hin).2
      have hdepsload : ∀ d ∈ (W.init p).deps, LoadsTo W S s0
          (fun s d => _upb_DefPool_LoadDefInitEx D W fuel s d rebuild_minitable) d := by
        intro d hd
        exact ih d (hW.closed p hp d hd) (by have := hW.acyclic p hp d hd; omega)
      obtain ⟨acc1, s1, hdeps, hI1, hdmem, hreach⟩ :=
        load_deps_spec W S s0 _ (W.init p).deps hdepsload s acc hI
      have hrank1 : ∀ x ∈ acc1, rank x.1 < rank p ∧ DepPath W p x.1 := by
        intro x hx
        obtain ⟨d, hd, hr⟩ := hreach x hx
        rcases hr with hr | hr
        · rw [hr]; exact ⟨hW.acyclic p hp d hd, DepPath.edge hd⟩
        · have := DepPath_rank W S rank hW d x.1 hr (hW.closed p hp d hd)
          exact ⟨lt_trans this.1 (hW.acyclic p hp d hd), DepPath.step hd hr⟩
      have hnot1 : p ∉ (acc ++ acc1).map Prod.fst := by
        intro hmem
        rw [List.map_append, List.mem_append] at hmem
        rcases hmem with hmem | hmem
        · exact hin hmem
        · obtain ⟨x, hx, hxp⟩ := List.mem_map.mp hmem
          have := (hrank1 x hx).1
          rw [hxp] at this
          omega
      obtain ⟨file_proto, hparse, hname⟩ := hW.decodes p hp
      obtain ⟨herr, hfile, ⟨a, ha, hok⟩, ⟨b, hb⟩⟩ := hB.builds p hp file_proto hparse
        { s1 with bytes_loaded :=
            (s1.bytes_loaded + (W.init p).descriptor.size) % SIZE_MODULUS }
        (if rebuild_minitable then NULL else (W.init p).layout)
      have hnew : upb_strtable_lookup2
          ({ s1 with bytes_loaded :=
              (s1.bytes_loaded + (W.init p).descriptor.size) % SIZE_MODULUS } :
            upb_DefPool).files file_proto.name.data file_proto.name.size = none := by
        have h1 := ((LoadedSoFar_find W S rank hW s0 hnone (acc ++ acc1) s1 hI1 p hp).1
          hnot1).1
        simp only [upb_strtable_lookup2]
        have h2 : file_proto.name.data.take file_proto.name.size = init_key W p := hname
        rw [h2]
        exact h1
      obtain ⟨r, hr, hret, hfiles, hbytes⟩ :=
        AddFile_success D W _ file_proto _ a b hnew ha hok hb herr
      refine ⟨acc1 ++ [(p, r.ret)], r.pool, ?_, ?_, ?_, ?_⟩
      · show _upb_DefPool_LoadDefInitEx D W (fuel + 1) s p rebuild_minitable = _
        rw [LoadDefInitEx_absent D W fuel s p rebuild_minitable habsent, hdeps]
        simp only [hparse, hr]
        rw [if_pos (by rw [hret]; exact hfile)]
      · constructor
        · rw [hfiles, ← hret]
          show s1.files.entries ++ _ = _
          rw [hI1.files, ← List.append_assoc acc acc1, added_entries_append W (acc ++ acc1),
            hname]
          simp [added_entries]
        · rw [hbytes]
          show (s1.bytes_loaded + _) % SIZE_MODULUS = _
          rw [hI1.bytes, ← List.append_assoc acc acc1, added_bytes_append W (acc ++ acc1),
            Nat.mod_add_mod]
          simp [added_bytes, Nat.add_assoc]
        · intro x hx
          rw [← List.append_assoc] at hx
          rcases List.mem_append.mp hx with hx | hx
          · exact hI1.mem x hx
          · simp only [List.mem_singleton] at hx
            subst hx
            exact ⟨hp, by rw [hret]; exact hfile⟩
        · rw [← List.append_assoc, List.map_append]
          simp only [List.map_cons, List.map_nil]
          rw [List.nodup_append]
          refine ⟨hI1.nodup, List.nodup_singleton _, ?_⟩
          intro x hx1 hx2
          simp only [List.mem_singleton] at hx2
          subst hx2
          exact hnot1 hx1
        · rw [← List.append_assoc, List.map_append]
          simp only [List.map_cons, List.map_nil]
          exact DepsFirst_concat W _ p hI1.order hdmem
      · rw [← List.append_assoc, List.map_append]
        simp
      · intro x hx
        rcases List.mem_append.mp hx with hx | hx
        · exact Or.inr (hrank1 x hx).2
        · simp only [List.mem_singleton] at hx
          subst hx
          exact Or.inl rfl

theorem DepPath_mem_of_closed (W : World) (l : List Ptr)
    (hl : ∀ p ∈ l, ∀ d ∈ (W.init p).deps, d ∈ l) (p q : Ptr) (h : DepPath W p q)
    (hp : p ∈ l) : q ∈ l := by
  induction h with
  | edge h1 => exact hl _ hp _ h1
  | step h1 _ ih => exact ih (hl _ hp _ h1)

/-- When no allocation fails and no builder rejects a file, loading a record of an acyclic
static dependency set of well-formed files into a pool that holds none of them returns `true`
(a recursion depth above the record's rank suffices), and the File Table grows by one entry per
added file, in the order of the adds: the added files are pairwise different (each file is
added once), they are exactly the files of the dependency closure of the record, each comes
after all of its declared dependencies, and the byte counter grows by the sum of their
descriptor sizes (in `size_t` arithmetic; exactly that sum when it fits). For the chain
A -> B -> C loaded through A into a fresh pool the add order is C, B, A and
`_upb_DefPool_BytesLoaded` returns 7 + 8 + 9. -/
theorem LoadDefInit_load_order (D : Defs) (W : World) (S : List Ptr) (rank : Ptr → Nat)
    (fuel : Nat) (s : upb_DefPool) (root : Ptr)
    (hW : WellFormedSet W S rank) (hB : BuildsSucceed W S) (hroot : root ∈ S)
    (hfuel : rank root < fuel)
    (hnone : ∀ p ∈ S, upb_table.find (init_key W p) s.files.entries = none)
    (hsize : s.bytes_loaded < SIZE_MODULUS) :
    (∃ (added : List (Ptr × Ptr)) (s1 : upb_DefPool),
      _upb_DefPool_LoadDefInit D W fuel s root = some (true, s1) ∧
      s1.files.entries = s.files.entries ++ added_entries W added ∧
      (added.map Prod.fst).Nodup ∧
      (∀ q, q ∈ added.map Prod.fst ↔ (q = root ∨ DepPath W root q)) ∧
      DepsFirst W (added.map Prod.fst) ∧
      _upb_DefPool_BytesLoaded s1 =
        (s.bytes_loaded + added_bytes W added) % SIZE_MODULUS ∧
      (s.bytes_loaded + added_bytes W added < SIZE_MODULUS →
        _upb_DefPool_BytesLoaded s1 = s.bytes_loaded + added_bytes W added)) ∧
    (_upb_DefPool_LoadDefInit D0 worldChain 3 pool0 1).map
        (fun r => (r.1, r.2.files, _upb_DefPool_BytesLoaded r.2)) =
      some (true,
        { entries := [some ("ccc.proto".toList, (80 : Ptr)), some ("bb.proto".toList, (72 : Ptr)),
                      some ("a.proto".toList, (64 : Ptr))] },
        (24 : Nat)) := by
  constructor
  · have hI0 : LoadedSoFar W S s [] s := by
      constructor
      · simp [added_entries]
      · simp [added_bytes, Nat.mod_eq_of_lt hsize]
      · intro x hx; simp at hx
      · simp
      · intro before p after h
        simp at h
    obtain ⟨added, s1, hload, hI, hmem, hreach⟩ :=
      LoadDefInitEx_spec D W S rank hW hB s hnone false fuel root hroot hfuel s [] hI0
    simp only [List.nil_append] at hI hmem
    refine ⟨added, s1, hload, hI.files, hI.nodup, ?_, hI.order, hI.bytes, ?_⟩
    · intro q
      constructor
      · intro hq
        obtain ⟨x, hx, rfl⟩ := List.mem_map.mp hq
        exact hreach x hx
      · intro hq
        rcases hq with rfl | hq
        · exact hmem
        · exact DepPath_mem_of_closed W _ (DepsFirst_deps_mem W _ hI.order) root q hq hmem
    · intro hfit
      simp only [_upb_DefPool_BytesLoaded, hI.bytes, Nat.mod_eq_of_lt hfit]
  · decide

theorem worldChain_wellFormed : WellFormedSet worldChain [1, 2, 3] (fun p => 3 - p) := by
  constructor
  · decide
  · decide
  · decide
  · intro p hp
    simp only [List.mem_cons, List.mem_singleton, List.not_mem_nil, or_false] at hp
    rcases hp with rfl | rfl | rfl <;> exact ⟨_, rfl, by decide⟩

theorem worldChain_buildsSucceed : BuildsSucceed worldChain [1, 2, 3] := by
  constructor
  intro p hp file_proto _ s layout
  exact ⟨rfl, by simp [worldChain, NULL], ⟨_, rfl, rfl⟩, ⟨_, rfl⟩⟩

/-- The chain A -> B -> C loaded through A into a fresh pool. -/
theorem LoadDefInit_load_order_example :
    (1 : Ptr) ∈ [1, 2, 3] ∧
    ∃ (added : List (Ptr × Ptr)) (s1 : upb_DefPool),
      _upb_DefPool_LoadDefInit D0 worldChain 3 pool0 1 = some (true, s1) ∧
      s1.files.entries = pool0.files.entries ++ added_entries worldChain added ∧
      (added.map Prod.fst).Nodup ∧
      (∀ q, q ∈ added.map Prod.fst ↔ (q = 1 ∨ DepPath worldChain 1 q)) ∧
      DepsFirst worldChain (added.map Prod.fst) ∧
      _upb_DefPool_BytesLoaded s1 =
        (pool0.bytes_loaded + added_bytes worldChain added) % SIZE_MODULUS ∧
      (pool0.bytes_loaded + added_bytes worldChain added < SIZE_MODULUS →
        _upb_DefPool_BytesLoaded s1 = pool0.bytes_loaded + added_bytes worldChain added) :=
  ⟨by decide,
   (LoadDefInit_load_order D0 worldChain [1, 2, 3] (fun p => 3 - p) 3 pool0 1
      worldChain_wellFormed worldChain_buildsSucceed
      (by decide) (by decide) (by decide) (by decide)).1⟩

/-- C13: evaluation at the failing input. The diamond A -> B, A -> C, B -> D, C -> D is an
acyclic static dependency set of well-formed files (descriptors of 7, 8, 9 and 10 bytes, 34 in
all), loaded through A into a fresh pool; the allocation made by the File Table insert of the
first `_upb_DefPool_AddFile` call fails. That call, for D with a byte counter of 10, returns the
File definition 80 with an OK status and leaves the File Table empty. The load returns `true`,
but D is decoded and added a second time when C asks for it: the File Table ends as B, D, C, A
with D bound to the File definition 224 built by the second add, after B, which depends on D;
and the byte counter ends at 44, the size of D being counted twice, not at 34. -/
theorem C13_shared_dependency_added_twice :
    WellFormedSet worldDiamond [1, 2, 3, 4] (fun p => 4 - p) ∧
    (∀ p ∈ [1, 2, 3, 4], upb_table.find (init_key worldDiamond p) pool0.files.entries = none) ∧
    (([1, 2, 3, 4] : List Ptr).map (fun p => (worldDiamond.init p).descriptor.size)).sum = 34 ∧
    _upb_DefPool_AddFile D0 worldDiamond { pool0 with bytes_loaded := 10 }
        { name := (worldDiamond.init 4).descriptor, body := 0 } NULL upb_Status_Clear =
      some { ret := 80, pool := { pool0 with bytes_loaded := 10 },
             status := upb_Status_Clear } ∧
    _upb_DefPool_LoadDefInit D0 worldDiamond 3 pool0 1 =
      some (true,
        { pool0 with
          files := { entries := [some ("bb.proto".toList, 144), some ("dddd.proto".toList, 224),
                                 some ("ccc.proto".toList, 296), some ("a.proto".toList, 352)] },
          bytes_loaded := 44 }) := by
  refine ⟨⟨by decide, by decide, by decide, ?_⟩, by decide, by decide, by decide, by decide⟩
  intro p hp
  simp only [List.mem_cons, List.mem_singleton, List.not_mem_nil, or_false] at hp
  rcases hp with rfl | rfl | rfl | rfl <;> exact ⟨_, rfl, by decide⟩

end Upb
